import Mathlib

/-!
# Kinematic model and pose algebra of the Robotics Library (`rl`)

A shallow embedding of `src/rl/math/TransformAddons.h` (member functions added
to `Eigen::Transform`) and of `src/rl/mdl/Model.cpp` (the kinematic-tree model),
followed by theorems about them.

Conventions of the embedding.

* Scalars are exact.  The pose algebra is stated over `ℝ`; the model is generic
  in its scalar type and is evaluated over `ℚ` in the examples.
* Operations of the libraries that the sources call (Eigen, Boost Graph, the
  C++ standard library) are represented by their documented meaning; Eigen's
  singular value decomposition, its conversion of a rotation matrix to an angle
  and an axis, and the machine epsilon are parameters.
* A pointer to an entity owned by the graph (`Frame*`, `Body*`, `Joint*`,
  `Transform*`) is the graph descriptor of the vertex or edge that carries the
  entity.  Dereferencing a pointer whose descriptor is not in the graph is the
  error `Error.invalidPointer`.
* A failed `assert` (also a failed size assertion of Eigen) is
  `Error.assertion`.
* The recursion of `Model::update(const Vertex&)` is bounded by a recursion
  budget; exhausting it is `Error.outOfFuel`.
-/

namespace rl

/-- Ways in which an operation of the library fails to return a value. -/
inductive Error where
  | outOfFuel
  | invalidPointer
  | assertion
  deriving DecidableEq, Repr

namespace math

/-- Eigen matrix with dynamic sizes, `rl::math::Matrix`. -/
structure DynMatrix (α : Type) where
  rows : ℕ
  cols : ℕ
  coeff : Matrix (Fin rows) (Fin cols) α

/-- Eigen `Matrix::Identity(rows, cols)`: ones on the main diagonal. -/
def DynMatrix.Identity {α : Type} [Zero α] [One α] (rows cols : ℕ) : DynMatrix α :=
  ⟨rows, cols, fun i j => if i.val = j.val then 1 else 0⟩

/-- Default constructed dynamic matrix: no rows and no columns. -/
def DynMatrix.empty {α : Type} : DynMatrix α :=
  ⟨0, 0, fun i _ => i.elim0⟩

/-- Eigen coefficient access `M(i, j)`; the indices are asserted to be in
range. -/
def DynMatrix.coeffAt {α : Type} (M : DynMatrix α) (i j : ℕ) : Except Error α :=
  if h : i < M.rows ∧ j < M.cols then .ok (M.coeff ⟨i, h.1⟩ ⟨j, h.2⟩) else .error .assertion

/-- Result of Eigen's `JacobiSVD` of a `rows × cols` matrix computed with
`ComputeThinU | ComputeThinV`: the factors `matrixU()`, `singularValues()` and
`matrixV()`. -/
structure JacobiSVD (α : Type) (rows cols : ℕ) where
  matrixU : Matrix (Fin rows) (Fin (min rows cols)) α
  singularValues : Fin (min rows cols) → α
  matrixV : Matrix (Fin cols) (Fin (min rows cols)) α

/-- The factors form a singular value decomposition of `A` with orthogonal `U`
and `V`: `A = U Σ Vᵀ`, `Uᵀ U = U Uᵀ = 1` and `Vᵀ V = V Vᵀ = 1`. -/
def JacobiSVD.IsDecomposition {α : Type} [Semiring α] {rows cols : ℕ}
    (svd : JacobiSVD α rows cols) (A : Matrix (Fin rows) (Fin cols) α) : Prop :=
  A = svd.matrixU * Matrix.diagonal svd.singularValues * svd.matrixV.transpose ∧
  svd.matrixU.transpose * svd.matrixU = 1 ∧ svd.matrixU * svd.matrixU.transpose = 1 ∧
  svd.matrixV.transpose * svd.matrixV = 1 ∧ svd.matrixV * svd.matrixV.transpose = 1

/-- Eigen `Vector::Zero(n)`. -/
def VectorZero {α : Type} [Zero α] (n : ℕ) : List α :=
  List.replicate n 0

/-- Eigen product of a dynamic matrix and a dynamic vector; the sizes are
asserted to agree. -/
def DynMatrix.mulVec {α : Type} [Semiring α] (M : DynMatrix α) (v : List α) :
    Except Error (List α) :=
  if h : M.cols = v.length then
    .ok (List.ofFn fun i : Fin M.rows => ∑ k : Fin M.cols, M.coeff i k * v.get (Fin.cast h k))
  else
    .error .assertion

/-- Eigen product of two dynamic matrices; the inner sizes are asserted to
agree. -/
def DynMatrix.mul {α : Type} [Semiring α] (A B : DynMatrix α) : Except Error (DynMatrix α) :=
  if h : A.cols = B.rows then
    .ok ⟨A.rows, B.cols, A.coeff * B.coeff.submatrix (Fin.cast h) id⟩
  else
    .error .assertion

/-- Eigen `v.segment(j, n)` read: `n` coefficients starting at index `j`;
the block is asserted to lie inside the vector. -/
def segment {α : Type} (v : List α) (j n : ℕ) : Except Error (List α) :=
  if j + n ≤ v.length then .ok ((v.drop j).take n) else .error .assertion

/-- Eigen `v.segment(j, n) = w` write: the block is asserted to lie inside
the vector and `w` to have `n` coefficients. -/
def setSegment {α : Type} (v : List α) (j n : ℕ) (w : List α) : Except Error (List α) :=
  if j + n ≤ v.length ∧ w.length = n then .ok (v.take j ++ w ++ v.drop (j + n))
  else .error .assertion

/-- Rigid-body pose `rl::math::Transform` (`Eigen::Transform<Real, 3, Affine>`):
its 4 × 4 homogeneous matrix, indexed as `(*this)(i, j)`. -/
abbrev Transform := Matrix (Fin 4) (Fin 4) ℝ

/-- Six-component spatial delta `Matrix<Scalar, 6, 1>`. -/
abbrev Vector6 := Fin 6 → ℝ

/-- Eigen `Transform::Identity()`. -/
def Transform.Identity : Transform := 1

/-- Eigen `linear()`: the upper left 3 × 3 block. -/
def Transform.linear (T : Transform) : Matrix (Fin 3) (Fin 3) ℝ :=
  !![T 0 0, T 0 1, T 0 2;
     T 1 0, T 1 1, T 1 2;
     T 2 0, T 2 1, T 2 2]

/-- Eigen `translation()`: the first three rows of the last column. -/
def Transform.translation (T : Transform) : Fin 3 → ℝ :=
  ![T 0 3, T 1 3, T 2 3]

/-- Eigen `v.norm()` of a 3-vector. -/
noncomputable def norm3 (v : Fin 3 → ℝ) : ℝ :=
  Real.sqrt (v 0 * v 0 + v 1 * v 1 + v 2 * v 2)

/-- Eigen `v.normalized()` of a 3-vector: `v / v.norm()` when the squared norm
is positive, `v` itself otherwise. -/
noncomputable def normalized3 (v : Fin 3 → ℝ) : Fin 3 → ℝ :=
  if 0 < v 0 * v 0 + v 1 * v 1 + v 2 * v 2 then fun i => v i / norm3 v else v

/-- Eigen `AngleAxis(angle, axis).toRotationMatrix()`: the axis-angle
(Rodrigues) rotation matrix. -/
noncomputable def AngleAxis.toRotationMatrix (angle : ℝ) (axis : Fin 3 → ℝ) :
    Matrix (Fin 3) (Fin 3) ℝ :=
  let s := Real.sin angle
  let c := Real.cos angle
  let x := axis 0
  let y := axis 1
  let z := axis 2
  !![(1 - c) * x * x + c, (1 - c) * x * y - s * z, (1 - c) * x * z + s * y;
     (1 - c) * x * y + s * z, (1 - c) * y * y + c, (1 - c) * y * z - s * x;
     (1 - c) * x * z - s * y, (1 - c) * y * z + s * x, (1 - c) * z * z + c]

/-- Eigen product `t * other` of two affine transforms: linear parts are
multiplied, the translation of `other` is mapped by the linear part of `t` and
shifted by the translation of `t`, the last row is `(0, 0, 0, 1)`. -/
def Transform.mul (t other : Transform) : Transform :=
  !![t 0 0 * other 0 0 + t 0 1 * other 1 0 + t 0 2 * other 2 0,
     t 0 0 * other 0 1 + t 0 1 * other 1 1 + t 0 2 * other 2 1,
     t 0 0 * other 0 2 + t 0 1 * other 1 2 + t 0 2 * other 2 2,
     t 0 0 * other 0 3 + t 0 1 * other 1 3 + t 0 2 * other 2 3 + t 0 3;
     t 1 0 * other 0 0 + t 1 1 * other 1 0 + t 1 2 * other 2 0,
     t 1 0 * other 0 1 + t 1 1 * other 1 1 + t 1 2 * other 2 1,
     t 1 0 * other 0 2 + t 1 1 * other 1 2 + t 1 2 * other 2 2,
     t 1 0 * other 0 3 + t 1 1 * other 1 3 + t 1 2 * other 2 3 + t 1 3;
     t 2 0 * other 0 0 + t 2 1 * other 1 0 + t 2 2 * other 2 0,
     t 2 0 * other 0 1 + t 2 1 * other 1 1 + t 2 2 * other 2 1,
     t 2 0 * other 0 2 + t 2 1 * other 1 2 + t 2 2 * other 2 2,
     t 2 0 * other 0 3 + t 2 1 * other 1 3 + t 2 2 * other 2 3 + t 2 3;
     0, 0, 0, 1]

/-- Affine transform with the given linear part and translation
(`t.linear() = R; t.translation() = p` on a fresh `Transform t`). -/
def Transform.ofLinearTranslation (R : Matrix (Fin 3) (Fin 3) ℝ) (p : Fin 3 → ℝ) : Transform :=
  !![R 0 0, R 0 1, R 0 2, p 0;
     R 1 0, R 1 1, R 1 2, p 1;
     R 2 0, R 2 1, R 2 2, p 2;
     0, 0, 0, 1]

/-- `std::atan2(y, x)` on exact reals: the argument of `x + y i` in `(-π, π]`,
and `0` at the origin. -/
noncomputable def atan2 (y x : ℝ) : ℝ :=
  Complex.arg ⟨x, y⟩

/-- Member `fromDelta(other, delta, useApproximation)`: the transform that
`*this` becomes. -/
noncomputable def fromDelta (other : Transform) (delta : Vector6) (useApproximation : Bool) :
    Transform :=
  if useApproximation then
    !![other 0 0 - delta 5 * other 1 0 + delta 4 * other 2 0,
       other 0 1 - delta 5 * other 1 1 + delta 4 * other 2 1,
       other 0 2 - delta 5 * other 1 2 + delta 4 * other 2 2,
       other 0 3 + delta 0;
       other 1 0 + delta 5 * other 0 0 - delta 3 * other 2 0,
       other 1 1 + delta 5 * other 0 1 - delta 3 * other 2 1,
       other 1 2 + delta 5 * other 0 2 - delta 3 * other 2 2,
       other 1 3 + delta 1;
       other 2 0 - delta 4 * other 0 0 + delta 3 * other 1 0,
       other 2 1 - delta 4 * other 0 1 + delta 3 * other 1 1,
       other 2 2 - delta 4 * other 0 2 + delta 3 * other 1 2,
       other 2 3 + delta 2;
       0, 0, 0, 1]
  else
    let w : Fin 3 → ℝ := ![delta 3, delta 4, delta 5]
    let R := AngleAxis.toRotationMatrix (norm3 w) (normalized3 w)
    let t := Transform.ofLinearTranslation R (R.mulVec ![delta 0, delta 1, delta 2])
    t.mul other

/-- Member `fromDenavitHartenbergPaul(d, theta, a, alpha)`: the transform that
`*this` becomes. -/
noncomputable def fromDenavitHartenbergPaul (d theta a alpha : ℝ) : Transform :=
  let cosAlpha := Real.cos alpha
  let cosTheta := Real.cos theta
  let sinAlpha := Real.sin alpha
  let sinTheta := Real.sin theta
  !![cosTheta, -cosAlpha * sinTheta, sinAlpha * sinTheta, a * cosTheta;
     sinTheta, cosAlpha * cosTheta, -sinAlpha * cosTheta, a * sinTheta;
     0, sinAlpha, cosAlpha, d;
     0, 0, 0, 1]

/-- Member `getDelta()`. -/
noncomputable def getDelta (T : Transform) : Vector6 :=
  ![T 0 3, T 1 3, T 2 3,
    (T 2 1 - T 1 2) * 0.5, (T 0 2 - T 2 0) * 0.5, (T 1 0 - T 0 1) * 0.5]

/-- Member `setDelta(delta)`: the transform that `*this` becomes. -/
def setDelta (delta : Vector6) : Transform :=
  !![0, -delta 5, delta 4, delta 0;
     delta 5, 0, -delta 3, delta 1;
     -delta 4, delta 3, 0, delta 2;
     0, 0, 0, 1]

/-- Member `toDelta(other, useApproximation)` of the transform `self`.
`fromRotationMatrix` is Eigen's conversion `AngleAxis(Matrix3)` of a rotation
matrix to an angle and an axis, which belongs to the Eigen library. -/
noncomputable def toDelta (fromRotationMatrix : Matrix (Fin 3) (Fin 3) ℝ → ℝ × (Fin 3 → ℝ))
    (self other : Transform) (useApproximation : Bool) : Vector6 :=
  let res0 := other 0 3 - self 0 3
  let res1 := other 1 3 - self 1 3
  let res2 := other 2 3 - self 2 3
  if useApproximation then
    ![res0, res1, res2,
      (self 1 0 * other 2 0 - self 2 0 * other 1 0 + self 1 1 * other 2 1 - self 2 1 * other 1 1
        + self 1 2 * other 2 2 - self 2 2 * other 1 2) * 0.5,
      (self 2 0 * other 0 0 - self 0 0 * other 2 0 + self 2 1 * other 0 1 - self 0 1 * other 2 1
        + self 2 2 * other 0 2 - self 0 2 * other 2 2) * 0.5,
      (self 0 0 * other 1 0 - self 1 0 * other 0 0 + self 0 1 * other 1 1 - self 1 1 * other 0 1
        + self 0 2 * other 1 2 - self 1 2 * other 0 2) * 0.5]
  else
    let r := fromRotationMatrix (other.linear * self.linear.transpose)
    ![res0, res1, res2, r.1 * r.2 0, r.1 * r.2 1, r.1 * r.2 2]

/-- Member `toDenavitHartenbergPaul(d, theta, a, alpha)` of the transform `T`:
the values written to the four output parameters.  `eps` is
`std::numeric_limits<Scalar>::epsilon()`. -/
noncomputable def toDenavitHartenbergPaul (eps : ℝ) (T : Transform) :
    Except Error (ℝ × ℝ × ℝ × ℝ) :=
  if |T 2 0| ≤ eps then
    let d := T 2 3
    let theta := atan2 (T 1 0) (T 0 0)
    let a :=
      if |T 0 0| ≤ eps then T 1 3 / T 1 0
      else if |T 1 0| ≤ eps then T 0 3 / T 0 0
      else (T 1 3 / T 1 0 + T 0 3 / T 0 0) * 0.5
    let alpha := atan2 (T 2 1) (T 2 2)
    .ok (d, theta, a, alpha)
  else
    .error .assertion

/-- The divisors of the divisions that `toDenavitHartenbergPaul` evaluates to
compute `a`, by the branch taken: `(*this)(1, 0)` in the first branch,
`(*this)(0, 0)` in the second, both in the third. -/
noncomputable def toDenavitHartenbergPaulDivisors (eps : ℝ) (T : Transform) : List ℝ :=
  if |T 0 0| ≤ eps then [T 1 0]
  else if |T 1 0| ≤ eps then [T 0 0]
  else [T 1 0, T 0 0]

/-- Homogeneous matrix of the rotation about the z axis by `theta`, of the
Paul convention. -/
noncomputable def RotZ (theta : ℝ) : Transform :=
  !![Real.cos theta, -Real.sin theta, 0, 0;
     Real.sin theta, Real.cos theta, 0, 0;
     0, 0, 1, 0;
     0, 0, 0, 1]

/-- Homogeneous matrix of the rotation about the x axis by `alpha`, of the
Paul convention. -/
noncomputable def RotX (alpha : ℝ) : Transform :=
  !![1, 0, 0, 0;
     0, Real.cos alpha, -Real.sin alpha, 0;
     0, Real.sin alpha, Real.cos alpha, 0;
     0, 0, 0, 1]

/-- Homogeneous matrix of the translation by `(x, y, z)`, of the Paul
convention. -/
def Trans (x y z : ℝ) : Transform :=
  !![1, 0, 0, x;
     0, 1, 0, y;
     0, 0, 1, z;
     0, 0, 0, 1]

/-- Eigen `Quaternion<Scalar>` with its coefficients `w`, `x`, `y`, `z`. -/
structure Quaternion where
  w : ℝ
  x : ℝ
  y : ℝ
  z : ℝ

/-- Eigen `conjugate()` of a quaternion. -/
def Quaternion.conjugate (q : Quaternion) : Quaternion :=
  ⟨q.w, -q.x, -q.y, -q.z⟩

/-- Eigen product `a * b` of two quaternions. -/
def Quaternion.mul (a b : Quaternion) : Quaternion :=
  ⟨a.w * b.w - a.x * b.x - a.y * b.y - a.z * b.z,
   a.w * b.x + a.x * b.w + a.y * b.z - a.z * b.y,
   a.w * b.y + a.y * b.w + a.z * b.x - a.x * b.z,
   a.w * b.z + a.z * b.w + a.x * b.y - a.y * b.x⟩

/-- Eigen `vec()` of a quaternion: its coefficients `x`, `y`, `z`. -/
def Quaternion.vec (q : Quaternion) : Fin 3 → ℝ :=
  ![q.x, q.y, q.z]

/-- Eigen `q1.angularDistance(q2)`: with `d = q1 * q2.conjugate()` the value
`2 * atan2(d.vec().norm(), abs(d.w()))`. -/
noncomputable def Quaternion.angularDistance (q₁ q₂ : Quaternion) : ℝ :=
  let d := q₁.mul q₂.conjugate
  2 * atan2 (norm3 d.vec) |d.w|

/-- Member `distance(other, weight)` of the transform `self`.  `toQuaternion` is
Eigen's `Quaternion<Scalar>(t.rotation())`, the extraction of the rotation of a
transform and its conversion to a quaternion, which belong to the Eigen
library. -/
noncomputable def distance (toQuaternion : Transform → Quaternion) (self other : Transform)
    (weight : ℝ) : ℝ :=
  let q1 := toQuaternion self
  let q2 := toQuaternion other
  Real.sqrt (
    (other 0 3 - self 0 3) ^ 2 +
    (other 1 3 - self 1 3) ^ 2 +
    (other 2 3 - self 2 3) ^ 2 +
    weight * (q1.angularDistance q2) ^ 2)

end math

namespace mdl

open rl.math

/-- Vertex descriptor of the graph; `0` is the null descriptor that `root` holds
when there is no World frame. -/
abbrev Vertex := ℕ

/-- Edge descriptor of the graph; like the descriptor of
`boost::adjacency_list` it carries the source and the target vertex. -/
structure Edge where
  source : Vertex
  target : Vertex
  id : ℕ
  deriving DecidableEq, Repr

/-- Runtime kind of a frame: `World`, `Body`, or a plain `Frame`. -/
inductive FrameKind where
  | World
  | Body
  | Frame
  deriving DecidableEq, Repr

/-- Modelled from the spec: `Frame.h`, `World.h` and `Body.h` are not among the
sources.  Of a frame `Model.cpp` observes its runtime kind, its members `a`, `f`
and `v` (spatial acceleration, force and velocity), the pose `x.transform()` of
its member `x`, and of a Body the results of `getCollision()` and of
`getCollision(Body*)`, the latter as a predicate on the vertex of the other
body. -/
structure Frame (α : Type) where
  kind : FrameKind
  a : Fin 6 → α
  f : Fin 6 → α
  v : Fin 6 → α
  x : Matrix (Fin 4) (Fin 4) α
  collision : Bool
  collisionWith : Vertex → Bool

/-- Frame of the given kind at rest at the origin, colliding with nothing. -/
def Frame.ofKind {α : Type} [Zero α] [One α] (kind : FrameKind) : Frame α :=
  ⟨kind, 0, 0, 0, 1, false, fun _ => false⟩

/-- Modelled from the spec: `Joint.h` is not among the sources.  A joint has a
velocity dimension `dof`, a position dimension `dofPosition` and the vectors of
its state. -/
structure Joint (α : Type) where
  dof : ℕ
  dofPosition : ℕ
  q : List α
  qd : List α
  qdd : List α
  tau : List α

/-- Modelled from the spec: `Joint::getDof()`. -/
def Joint.getDof {α : Type} (j : Joint α) : ℕ := j.dof

/-- Modelled from the spec: `Joint::getDofPosition()`. -/
def Joint.getDofPosition {α : Type} (j : Joint α) : ℕ := j.dofPosition

/-- Modelled from the spec: `Joint::getPosition()` returns the stored position. -/
def Joint.getPosition {α : Type} (j : Joint α) : List α := j.q

/-- Modelled from the spec: `Joint::setPosition(q)` stores the given position
unchanged. -/
def Joint.setPosition {α : Type} (j : Joint α) (q : List α) : Joint α :=
  { j with q := q }

/-- Modelled from the spec: `Joint::getAcceleration()` returns the stored
acceleration. -/
def Joint.getAcceleration {α : Type} (j : Joint α) : List α := j.qdd

/-- Modelled from the spec: `Joint::setAcceleration(qdd)` stores the given
acceleration unchanged. -/
def Joint.setAcceleration {α : Type} (j : Joint α) (qdd : List α) : Joint α :=
  { j with qdd := qdd }

/-- Modelled from the spec: `Transform.h` is not among the sources.  A transform
is a `Joint` (`joint = some _`) or a fixed transform (`joint = none`); `inFrame`
and `outFrame` are its members `in` and `out`, the frames cached by
`Model::update`; `x` is the pose `x.transform()` of its member `x`. -/
structure Transform (α : Type) where
  joint : Option (Joint α)
  inFrame : Option Vertex
  outFrame : Option Vertex
  x : Matrix (Fin 4) (Fin 4) α

/-- The graph `Model::tree`, a `boost::adjacency_list`: vertex and edge
descriptors in insertion order, the bundled properties `tree[v]` and `tree[e]`,
and the next descriptor to hand out. -/
structure Tree (α : Type) where
  vertices : List Vertex
  edges : List Edge
  frame : Vertex → Frame α
  transform : Edge → Transform α
  next : ℕ

/-- Graph without vertices and edges. -/
def Tree.empty {α : Type} [Zero α] [One α] : Tree α :=
  ⟨[], [], fun _ => Frame.ofKind .Frame, fun _ => ⟨none, none, none, 1⟩, 1⟩

/-- Bundled property access `tree[v]` through a vertex descriptor. -/
def Tree.frameAt {α : Type} (t : Tree α) (v : Vertex) : Except Error (Frame α) :=
  if v ∈ t.vertices then .ok (t.frame v) else .error .invalidPointer

/-- Bundled property access `tree[e]` through an edge descriptor. -/
def Tree.transformAt {α : Type} (t : Tree α) (e : Edge) : Except Error (Transform α) :=
  if e ∈ t.edges then .ok (t.transform e) else .error .invalidPointer

/-- Boost `out_edges(u, tree)`. -/
def Tree.out_edges {α : Type} (t : Tree α) (u : Vertex) : List Edge :=
  t.edges.filter fun e => e.source = u

/-- Boost `in_edges(u, tree)`. -/
def Tree.in_edges {α : Type} (t : Tree α) (u : Vertex) : List Edge :=
  t.edges.filter fun e => e.target = u

/-- Boost `out_degree(u, tree)`. -/
def Tree.out_degree {α : Type} (t : Tree α) (u : Vertex) : ℕ :=
  (t.out_edges u).length

/-- Boost `add_vertex(tree)` followed by `tree[vertex] = frame`. -/
def Tree.add_vertex {α : Type} (t : Tree α) (frame : Frame α) : Vertex × Tree α :=
  (t.next, { t with
    vertices := t.vertices ++ [t.next]
    frame := Function.update t.frame t.next frame
    next := t.next + 1 })

/-- Boost `add_edge(a, b, tree).first` followed by `tree[edge] = transform`. -/
def Tree.add_edge {α : Type} (t : Tree α) (a b : Vertex) (transform : Transform α) :
    Edge × Tree α :=
  (⟨a, b, t.next⟩, { t with
    edges := t.edges ++ [⟨a, b, t.next⟩]
    transform := Function.update t.transform ⟨a, b, t.next⟩ transform
    next := t.next + 1 })

/-- Boost `clear_vertex(v, tree)`: removes every edge to and from `v`. -/
def Tree.clear_vertex {α : Type} (t : Tree α) (v : Vertex) : Tree α :=
  { t with edges := t.edges.filter fun e => ¬ (e.source = v ∨ e.target = v) }

/-- Boost `remove_vertex(v, tree)`. -/
def Tree.remove_vertex {α : Type} (t : Tree α) (v : Vertex) : Tree α :=
  { t with vertices := t.vertices.filter fun w => w ≠ v }

/-- Boost `remove_edge(e, tree)`. -/
def Tree.remove_edge {α : Type} (t : Tree α) (e : Edge) : Tree α :=
  { t with edges := t.edges.filter fun f => f ≠ e }

/-- Pointer to an `Element`, the common base of frames and transforms. -/
inductive Element where
  | frame (v : Vertex)
  | transform (e : Edge)
  deriving DecidableEq, Repr

/-- State of a `Model`.  The members `manufacturer`, `name`, `randDistribution`
and `randEngine` play no part in the operations below and are left out. -/
structure Model (α : Type) where
  bodies : List Vertex
  elements : List Element
  frames : List Vertex
  gammaPosition : DynMatrix α
  gammaVelocity : DynMatrix α
  home : List α
  invGammaPosition : DynMatrix α
  invGammaVelocity : DynMatrix α
  joints : List Edge
  leaves : List Vertex
  root : Vertex
  tools : List Edge
  transforms : List Edge
  tree : Tree α

namespace Model

variable {α : Type}

/-- Constructor `Model::Model()`. -/
def empty [Zero α] [One α] : Model α :=
  { bodies := [], elements := [], frames := []
    gammaPosition := DynMatrix.empty, gammaVelocity := DynMatrix.empty
    home := []
    invGammaPosition := DynMatrix.empty, invGammaVelocity := DynMatrix.empty
    joints := [], leaves := [], root := 0, tools := [], transforms := []
    tree := Tree.empty }

/-- `Model::add(const shared_ptr<Frame>&)`. -/
def add (m : Model α) (frame : Frame α) : Model α :=
  let r := m.tree.add_vertex frame
  let m := { m with tree := r.2 }
  if frame.kind = .World then { m with root := r.1 } else m

/-- `Model::add(const shared_ptr<Transform>&, const Frame* a, const Frame* b)`;
the frames are given by their vertex descriptors. -/
def addTransform (m : Model α) (transform : Transform α) (a b : Vertex) : Model α :=
  { m with tree := (m.tree.add_edge a b transform).2 }

/-- `Model::remove(Frame*)`; the frame is given by its vertex descriptor. -/
def remove (m : Model α) (frame : Vertex) : Model α :=
  let m₁ := { m with tree := m.tree.clear_vertex frame }
  let m₂ := if (m.tree.frame frame).kind = .World then { m₁ with root := 0 } else m₁
  { m₂ with tree := m₂.tree.remove_vertex frame }

/-- `Model::remove(Transform*)`; the transform is given by its edge
descriptor. -/
def removeTransform (m : Model α) (transform : Edge) : Model α :=
  { m with tree := m.tree.remove_edge transform }

/-- Dereference of a `Joint*` held in `joints`. -/
def jointAt (m : Model α) (e : Edge) : Except Error (Joint α) := do
  let t ← m.tree.transformAt e
  match t.joint with
  | some j => .ok j
  | none => .error .invalidPointer

/-- Loop of `Model::getDof`. -/
def getDofLoop (m : Model α) : List Edge → ℕ → Except Error ℕ
  | [], dof => .ok dof
  | e :: es, dof => do
    let j ← m.jointAt e
    getDofLoop m es (dof + j.getDof)

/-- `Model::getDof()`. -/
def getDof (m : Model α) : Except Error ℕ :=
  m.getDofLoop m.joints 0

/-- Loop of `Model::getDofPosition`. -/
def getDofPositionLoop (m : Model α) : List Edge → ℕ → Except Error ℕ
  | [], dof => .ok dof
  | e :: es, dof => do
    let j ← m.jointAt e
    getDofPositionLoop m es (dof + j.getDofPosition)

/-- `Model::getDofPosition()`. -/
def getDofPosition (m : Model α) : Except Error ℕ :=
  m.getDofPositionLoop m.joints 0

/-- `Model::getBodies()`. -/
def getBodies (m : Model α) : ℕ := m.bodies.length

/-- `Model::getFrames()`. -/
def getFrames (m : Model α) : ℕ := m.frames.length

/-- `Model::getJoints()`. -/
def getJoints (m : Model α) : ℕ := m.joints.length

/-- `Model::getTransforms()`. -/
def getTransforms (m : Model α) : ℕ := m.transforms.length

/-- `Model::getOperationalDof()`. -/
def getOperationalDof (m : Model α) : ℕ := m.leaves.length

/-- `Model::getGammaPosition()`. -/
def getGammaPosition (m : Model α) : DynMatrix α := m.gammaPosition

/-- `Model::getGammaVelocity()`. -/
def getGammaVelocity (m : Model α) : DynMatrix α := m.gammaVelocity

/-- `Model::getGammaPositionInverse()`. -/
def getGammaPositionInverse (m : Model α) : DynMatrix α := m.invGammaPosition

/-- `Model::getGammaVelocityInverse()`. -/
def getGammaVelocityInverse (m : Model α) : DynMatrix α := m.invGammaVelocity

/-- `Model::getHomePosition()`. -/
def getHomePosition (m : Model α) : List α := m.home

/-- `Model::setHomePosition(home)`. -/
def setHomePosition (m : Model α) (home : List α) : Model α :=
  { m with home := home }

/-- `Model::setGammaPosition(gammaPosition)`.  `jacobiSVD` is Eigen's singular
value decomposition and `epsilon` is `std::numeric_limits<Real>::epsilon()`. -/
def setGammaPosition [LinearOrderedField α]
    (jacobiSVD : (A : DynMatrix α) → JacobiSVD α A.rows A.cols) (epsilon : α)
    (m : Model α) (gammaPosition : DynMatrix α) : Model α :=
  let svd := jacobiSVD gammaPosition
  let singularValues : Fin (min gammaPosition.rows gammaPosition.cols) → α :=
    fun i => if svd.singularValues i > epsilon then 1 / svd.singularValues i else 0
  { m with
    gammaPosition := gammaPosition
    invGammaPosition := ⟨gammaPosition.cols, gammaPosition.rows,
      svd.matrixV * Matrix.diagonal singularValues * svd.matrixU.transpose⟩ }

/-- `Model::setGammaVelocity(gammaVelocity)`.  `jacobiSVD` is Eigen's singular
value decomposition and `epsilon` is `std::numeric_limits<Real>::epsilon()`. -/
def setGammaVelocity [LinearOrderedField α]
    (jacobiSVD : (A : DynMatrix α) → JacobiSVD α A.rows A.cols) (epsilon : α)
    (m : Model α) (gammaVelocity : DynMatrix α) : Model α :=
  let svd := jacobiSVD gammaVelocity
  let singularValues : Fin (min gammaVelocity.rows gammaVelocity.cols) → α :=
    fun i => if svd.singularValues i > epsilon then 1 / svd.singularValues i else 0
  { m with
    gammaVelocity := gammaVelocity
    invGammaVelocity := ⟨gammaVelocity.cols, gammaVelocity.rows,
      svd.matrixV * Matrix.diagonal singularValues * svd.matrixU.transpose⟩ }

/-- Assignment through a `Joint*`: the joint carried by edge `e` becomes `j`. -/
def setJoint (m : Model α) (e : Edge) (j : Joint α) : Model α :=
  { m with tree := { m.tree with
      transform := Function.update m.tree.transform e
        { m.tree.transform e with joint := some j } } }

/-- Loop of `Model::getPosition`: the position of each joint is written to its
segment of `q`. -/
def getPositionLoop (m : Model α) : List Edge → ℕ → List α → Except Error (List α)
  | [], _, q => .ok q
  | e :: es, j, q => do
    let joint ← m.jointAt e
    let q ← setSegment q j joint.getDofPosition joint.getPosition
    getPositionLoop m es (j + joint.getDofPosition) q

/-- `Model::getPosition()`.  The coefficients of the fresh vector `q` are
unspecified in the source and zero here; each is overwritten by the loop. -/
def getPosition [Semiring α] (m : Model α) : Except Error (List α) := do
  let n ← m.getDofPosition
  let q ← m.getPositionLoop m.joints 0 (VectorZero n)
  m.invGammaPosition.mulVec q

/-- Loop of `Model::setPosition`: each joint receives its segment of `q`. -/
def setPositionLoop (q : List α) : List Edge → ℕ → Model α → Except Error (Model α)
  | [], _, m => .ok m
  | e :: es, j, m => do
    let joint ← m.jointAt e
    let s ← segment q j joint.getDofPosition
    setPositionLoop q es (j + joint.getDofPosition) (m.setJoint e (joint.setPosition s))

/-- `Model::setPosition(y)`. -/
def setPosition [Semiring α] (m : Model α) (y : List α) : Except Error (Model α) := do
  let q ← m.gammaPosition.mulVec y
  setPositionLoop q m.joints 0 m

/-- The assignments `transform->in = tree[u].get()` and
`transform->out = tree[v].get()` on the transform of edge `e`. -/
def setInOut (m : Model α) (e : Edge) (u v : Vertex) : Model α :=
  { m with tree := { m.tree with
      transform := Function.update m.tree.transform e
        { m.tree.transform e with inFrame := some u, outFrame := some v } } }

/-- The statements `elements.push_back(frame); frames.push_back(frame);`. -/
def pushFrame (m : Model α) (u : Vertex) : Model α :=
  { m with elements := m.elements ++ [Element.frame u], frames := m.frames ++ [u] }

/-- The statement `bodies.push_back(body);`. -/
def pushBody (m : Model α) (u : Vertex) : Model α :=
  { m with bodies := m.bodies ++ [u] }

/-- The statements `elements.push_back(transform); transforms.push_back(transform);`. -/
def pushTransform (m : Model α) (e : Edge) : Model α :=
  { m with elements := m.elements ++ [Element.transform e], transforms := m.transforms ++ [e] }

/-- The statement `joints.push_back(joint);`. -/
def pushJoint (m : Model α) (e : Edge) : Model α :=
  { m with joints := m.joints ++ [e] }

/-- The statement `leaves.push_back(u);` and the loop that appends the in-edges
of `u` to `tools`. -/
def pushLeaf (m : Model α) (u : Vertex) : Model α :=
  { m with leaves := m.leaves ++ [u], tools := m.tools ++ m.tree.in_edges u }

/-- The five assignments at the end of `Model::update(const Vertex&)`. -/
def resetGamma [Zero α] [One α] (m : Model α) (dofPosition dof : ℕ) : Model α :=
  { m with
    gammaPosition := DynMatrix.Identity dofPosition dofPosition
    gammaVelocity := DynMatrix.Identity dof dof
    home := VectorZero dofPosition
    invGammaPosition := DynMatrix.Identity dofPosition dofPosition
    invGammaVelocity := DynMatrix.Identity dof dof }

/-- The six `clear()` calls at the start of `Model::update()`. -/
def clear (m : Model α) : Model α :=
  { m with bodies := [], elements := [], joints := [], leaves := [], tools := [],
           transforms := [] }

/-- Body of the loop over the out-edges of `u` in `Model::update(const Vertex&)`;
`recurse` is the recursive call `this->update(v)`. -/
def updateOutEdges (recurse : Model α → Vertex → Except Error (Model α)) (u : Vertex) :
    List Edge → Model α → Except Error (Model α)
  | [], m => .ok m
  | e :: es, m => do
    let v := e.target
    let m₁ := (m.pushTransform e).setInOut e u v
    let m₂ := if (m₁.tree.transform e).joint.isSome then m₁.pushJoint e else m₁
    let m₃ ← recurse m₂ v
    updateOutEdges recurse u es m₃

/-- `Model::update(const Vertex& u)`, with a bound `fuel` on the depth of the
recursion. -/
def updateVertex [Zero α] [One α] : ℕ → Model α → Vertex → Except Error (Model α)
  | 0, _, _ => .error .outOfFuel
  | fuel + 1, m, u => do
    let frame ← m.tree.frameAt u
    let m₁ := m.pushFrame u
    let m₂ := if frame.kind = .Body then m₁.pushBody u else m₁
    let m₃ ←
      (if m₂.tree.out_degree u > 0 then
        updateOutEdges (updateVertex fuel) u (m₂.tree.out_edges u) m₂
      else
        .ok (m₂.pushLeaf u))
    let dofPosition ← m₃.getDofPosition
    let dof ← m₃.getDof
    .ok (m₃.resetGamma dofPosition dof)

/-- `Model::update()`, with a bound `fuel` on the depth of the recursion. -/
def update [Zero α] [One α] (fuel : ℕ) (m : Model α) : Except Error (Model α) :=
  updateVertex fuel m.clear m.root

/-- Element access `v[i]` of a `std::vector`, which checks nothing: beyond the
end of the vector it is a read through an invalid pointer. -/
def vectorAt {β : Type} (v : List β) (i : ℕ) : Except Error β :=
  match v[i]? with
  | some x => .ok x
  | none => .error .invalidPointer

/-- Assignment through a `Frame*`: the frame at vertex `u` becomes `frame`. -/
def setFrame (m : Model α) (u : Vertex) (frame : Frame α) : Model α :=
  { m with tree := { m.tree with frame := Function.update m.tree.frame u frame } }

/-- `Model::areColliding(i, j)`; the second operand of `||` is evaluated only
when the first is false. -/
def areColliding (m : Model α) (i j : ℕ) : Except Error Bool :=
  if i < m.bodies.length then
    if j < m.bodies.length then do
      let bi ← vectorAt m.bodies i
      let bj ← vectorAt m.bodies j
      let fi ← m.tree.frameAt bi
      if fi.collisionWith bj then .ok true
      else do
        let fj ← m.tree.frameAt bj
        .ok (fj.collisionWith bi)
    else .error .assertion
  else .error .assertion

/-- `Model::getBody(i)`; the result is the pointer held in `bodies`. -/
def getBody (m : Model α) (i : ℕ) : Except Error Vertex :=
  if i < m.bodies.length then vectorAt m.bodies i else .error .assertion

/-- `Model::getBodyFrame(i)`. -/
def getBodyFrame (m : Model α) (i : ℕ) : Except Error (Matrix (Fin 4) (Fin 4) α) :=
  if i < m.getBodies then do
    let b ← vectorAt m.bodies i
    let frame ← m.tree.frameAt b
    .ok frame.x
  else .error .assertion

/-- `Model::getFrame(i)`; the result is the pointer held in `frames`. -/
def getFrame (m : Model α) (i : ℕ) : Except Error Vertex :=
  if i < m.frames.length then vectorAt m.frames i else .error .assertion

/-- `Model::getJoint(i)`; the result is the pointer held in `joints`. -/
def getJoint (m : Model α) (i : ℕ) : Except Error Edge :=
  if i < m.joints.length then vectorAt m.joints i else .error .assertion

/-- `Model::getOperationalAcceleration(i)`. -/
def getOperationalAcceleration (m : Model α) (i : ℕ) : Except Error (Fin 6 → α) :=
  if i < m.getOperationalDof then do
    let u ← vectorAt m.leaves i
    let frame ← m.tree.frameAt u
    .ok frame.a
  else .error .assertion

/-- `Model::getOperationalForce(i)`. -/
def getOperationalForce (m : Model α) (i : ℕ) : Except Error (Fin 6 → α) :=
  if i < m.getOperationalDof then do
    let u ← vectorAt m.leaves i
    let frame ← m.tree.frameAt u
    .ok frame.f
  else .error .assertion

/-- `Model::getOperationalFrame(i)`; the result is the pointer to the frame of
the leaf. -/
def getOperationalFrame (m : Model α) (i : ℕ) : Except Error Vertex :=
  if i < m.getOperationalDof then do
    let u ← vectorAt m.leaves i
    let _ ← m.tree.frameAt u
    .ok u
  else .error .assertion

/-- `Model::getOperationalPosition(i)`. -/
def getOperationalPosition (m : Model α) (i : ℕ) :
    Except Error (Matrix (Fin 4) (Fin 4) α) :=
  if i < m.getOperationalDof then do
    let u ← vectorAt m.leaves i
    let frame ← m.tree.frameAt u
    .ok frame.x
  else .error .assertion

/-- `Model::getOperationalVelocity(i)`. -/
def getOperationalVelocity (m : Model α) (i : ℕ) : Except Error (Fin 6 → α) :=
  if i < m.getOperationalDof then do
    let u ← vectorAt m.leaves i
    let frame ← m.tree.frameAt u
    .ok frame.v
  else .error .assertion

/-- `Model::getTransform(i)`; the result is the pointer held in `transforms`. -/
def getTransform (m : Model α) (i : ℕ) : Except Error Edge :=
  if i < m.transforms.length then vectorAt m.transforms i else .error .assertion

/-- `Model::isColliding(i)`. -/
def isColliding (m : Model α) (i : ℕ) : Except Error Bool :=
  if i < m.bodies.length then do
    let b ← vectorAt m.bodies i
    let frame ← m.tree.frameAt b
    .ok frame.collision
  else .error .assertion

/-- `Model::setOperationalVelocity(i, v)`; the source has no `assert` here. -/
def setOperationalVelocity (m : Model α) (i : ℕ) (v : Fin 6 → α) : Except Error (Model α) := do
  let u ← vectorAt m.leaves i
  let frame ← m.tree.frameAt u
  .ok (m.setFrame u { frame with v := v })

/-- `Model::tool(i)`, the same in its `const` and non-`const` overloads. -/
def tool (m : Model α) (i : ℕ) : Except Error (Matrix (Fin 4) (Fin 4) α) :=
  if i < m.tools.length then do
    let e ← vectorAt m.tools i
    let t ← m.tree.transformAt e
    .ok t.x
  else .error .assertion

/-- Loop of `Model::getAcceleration`: the acceleration of each joint is written
to its segment of `qdd`. -/
def getAccelerationLoop (m : Model α) : List Edge → ℕ → List α → Except Error (List α)
  | [], _, qdd => .ok qdd
  | e :: es, j, qdd => do
    let joint ← m.jointAt e
    let qdd ← setSegment qdd j joint.getDof joint.getAcceleration
    getAccelerationLoop m es (j + joint.getDof) qdd

/-- `Model::getAcceleration()`.  The coefficients of the fresh vector `qdd` are
unspecified in the source and zero here; each is overwritten by the loop. -/
def getAcceleration [Semiring α] (m : Model α) : Except Error (List α) := do
  let n ← m.getDof
  let qdd ← m.getAccelerationLoop m.joints 0 (VectorZero n)
  m.invGammaVelocity.mulVec qdd

/-- Loop of `Model::setAcceleration`: each joint receives its segment of
`qdd`. -/
def setAccelerationLoop (qdd : List α) : List Edge → ℕ → Model α → Except Error (Model α)
  | [], _, m => .ok m
  | e :: es, j, m => do
    let joint ← m.jointAt e
    let s ← segment qdd j joint.getDof
    setAccelerationLoop qdd es (j + joint.getDof) (m.setJoint e (joint.setAcceleration s))

/-- `Model::setAcceleration(ydd)`. -/
def setAcceleration [Semiring α] (m : Model α) (ydd : List α) : Except Error (Model α) := do
  let qdd ← m.gammaVelocity.mulVec ydd
  setAccelerationLoop qdd m.joints 0 m

/-- The plain concatenation of the acceleration vectors of the joints, in the
order of `joints`. -/
def accelerationConcat (m : Model α) : List α :=
  m.joints.flatMap fun e => ((m.tree.transform e).joint.map Joint.getAcceleration).getD []

/-- Every pointer in `bodies` points to a frame of the graph. -/
def BodiesValid (m : Model α) : Prop :=
  ∀ b ∈ m.bodies, b ∈ m.tree.vertices

/-- Every pointer in `leaves` points to a frame of the graph and every pointer
in `tools` to a transform of the graph. -/
def LeavesValid (m : Model α) : Prop :=
  (∀ u ∈ m.leaves, u ∈ m.tree.vertices) ∧ ∀ e ∈ m.tools, e ∈ m.tree.edges

/-- The two states have the same root and the same graph, up to the cached
`in` and `out` frames of the transforms. -/
def SameGraph (m m' : Model α) : Prop :=
  m'.root = m.root ∧ m'.tree.vertices = m.tree.vertices ∧ m'.tree.edges = m.tree.edges ∧
  m'.tree.frame = m.tree.frame ∧ m'.tree.next = m.tree.next ∧
  ∀ e, (m'.tree.transform e).joint = (m.tree.transform e).joint

/-- Velocity dimension of the joint carried by edge `e`; `0` when the edge
carries a fixed transform. -/
def dofAt (m : Model α) (e : Edge) : ℕ :=
  ((m.tree.transform e).joint.map Joint.getDof).getD 0

/-- Position dimension of the joint carried by edge `e`; `0` when the edge
carries a fixed transform. -/
def dofPositionAt (m : Model α) (e : Edge) : ℕ :=
  ((m.tree.transform e).joint.map Joint.getDofPosition).getD 0

/-- Every pointer in `joints` points to a joint of the graph. -/
def JointsValid (m : Model α) : Prop :=
  ∀ e ∈ m.joints, e ∈ m.tree.edges ∧ (m.tree.transform e).joint.isSome = true

end Model

/-- Vertex `v` is reachable from vertex `u` along edges of the graph. -/
inductive Tree.Reachable {α : Type} (t : Tree α) (u : Vertex) : Vertex → Prop where
  | refl : Tree.Reachable t u u
  | step (e : Edge) : Tree.Reachable t u e.source → e ∈ t.edges → Tree.Reachable t u e.target

/-- Joints met by the depth-first traversal of `Model::update(const Vertex&)`
from `u`, in the order in which they are appended to `joints`; `fuel` bounds the
depth of the recursion. -/
def Tree.jointsFrom {α : Type} (t : Tree α) : ℕ → Vertex → List Edge
  | 0, _ => []
  | fuel + 1, u =>
    (t.out_edges u).flatMap fun e =>
      (if (t.transform e).joint.isSome then [e] else []) ++ Tree.jointsFrom t fuel e.target

/-- The frame that a pointer of `elements` points to, when it points to a
frame. -/
def Element.asFrame : Element → Option Vertex
  | .frame v => some v
  | .transform _ => none

/-- The transform that a pointer of `elements` points to, when it points to a
transform. -/
def Element.asTransform : Element → Option Edge
  | .frame _ => none
  | .transform e => some e

/-- Frames and transforms met by the depth-first traversal of
`Model::update(const Vertex&)` from `u`, in the order in which they are appended
to `elements`; `fuel` bounds the depth of the recursion. -/
def Tree.elementsFrom {α : Type} (t : Tree α) : ℕ → Vertex → List Element
  | 0, _ => []
  | fuel + 1, u =>
    Element.frame u :: (t.out_edges u).flatMap fun e =>
      Element.transform e :: Tree.elementsFrom t fuel e.target

/-- The bound `fuel` on the depth of the recursion is not reached by the
traversal from `u`. -/
def Tree.Covers {α : Type} (t : Tree α) : ℕ → Vertex → Prop
  | 0, _ => False
  | fuel + 1, u => ∀ e ∈ t.out_edges u, Tree.Covers t fuel e.target

/-- A structural mutation of the model: a call of `add(frame)`,
`remove(frame)`, `add(transform, a, b)` or `remove(transform)`; frames and
transforms of the graph are given by their descriptors. -/
inductive Mutation (α : Type) where
  | addFrame (frame : Frame α)
  | removeFrame (frame : Vertex)
  | addTransform (transform : Transform α) (a b : Vertex)
  | removeTransform (transform : Edge)

namespace Model

variable {α : Type}

/-- State `m` is state `m₀` with the sequence `E` appended to `elements`, the
transforms of `E` appended to `transforms`, the Body frames of `E` to `bodies`,
the frames of `E` without outgoing edge to `leaves`, and the incoming edges of
those frames to `tools`; kinds and edges are those of the graph `t`. -/
def Appended (t : Tree α) (m₀ m : Model α) (E : List Element) : Prop :=
  m.elements = m₀.elements ++ E ∧
  m.transforms = m₀.transforms ++ E.filterMap Element.asTransform ∧
  m.bodies = m₀.bodies
    ++ (E.filterMap Element.asFrame).filter (fun v => (t.frame v).kind = .Body) ∧
  m.leaves = m₀.leaves
    ++ (E.filterMap Element.asFrame).filter (fun v => t.out_degree v = 0) ∧
  m.tools = m₀.tools
    ++ ((E.filterMap Element.asFrame).filter (fun v => t.out_degree v = 0)).flatMap t.in_edges

/-- The state after the call described by the mutation. -/
def mutate (m : Model α) : Mutation α → Model α
  | .addFrame frame => m.add frame
  | .removeFrame frame => m.remove frame
  | .addTransform transform a b => m.addTransform transform a b
  | .removeTransform transform => m.removeTransform transform

/-- Vertex `v` is in the graph and holds a World frame. -/
def WorldAt (m : Model α) (v : Vertex) : Prop :=
  v ∈ m.tree.vertices ∧ (m.tree.frame v).kind = .World

/-- The call is allowed in state `m`: a World frame is added only when no World
frame is in the graph, and the frame that is removed is in the graph. -/
def Allowed (m : Model α) : Mutation α → Prop
  | .addFrame frame => frame.kind = .World → ∀ v, ¬ WorldAt m v
  | .removeFrame frame => frame ∈ m.tree.vertices
  | .addTransform _ _ _ => True
  | .removeTransform _ => True

/-- Every call of the sequence is allowed in the state in which it is made. -/
def AllowedSeq (m : Model α) : List (Mutation α) → Prop
  | [] => True
  | op :: ops => Allowed m op ∧ AllowedSeq (m.mutate op) ops

/-- The root is the vertex of the World frame of the graph if there is one, and
the null descriptor `0`, which is no vertex of the graph, otherwise. -/
def RootInvariant (m : Model α) : Prop :=
  (∀ v, WorldAt m v → m.root = v) ∧ ((∀ v, ¬ WorldAt m v) → m.root = 0) ∧
  0 ∉ m.tree.vertices

end Model

/-- Structural invariant of the model: the graph restricted to the vertices
reachable from `root` is a tree.  The root is a vertex, edges lead to vertices,
edge descriptors are distinct, no edge lies on a cycle, and no vertex has two
incoming edges. -/
structure Tree.IsTree {α : Type} (t : Tree α) (root : Vertex) : Prop where
  root_mem : root ∈ t.vertices
  target_mem : ∀ e ∈ t.edges, t.Reachable root e.source → e.target ∈ t.vertices
  nodup : t.edges.Nodup
  acyclic : ∀ e ∈ t.edges, t.Reachable root e.source → ¬ t.Reachable e.target e.source
  unique_in : ∀ e₁ ∈ t.edges, ∀ e₂ ∈ t.edges, t.Reachable root e₁.source →
    t.Reachable root e₂.source → e₁.target = e₂.target → e₁ = e₂

/-- Example: a World frame (vertex `1`) and a Body (vertex `2`) joined by a
joint with one degree of freedom (edge `3`), built with `add`. -/
def exampleArm : Model ℚ :=
  ((Model.empty.add (Frame.ofKind .World)).add (Frame.ofKind .Body)).addTransform
    ⟨some ⟨1, 1, [0], [0], [0], [0]⟩, none, none, 1⟩ 1 2

/-- Example: a serial chain built with `add`: a World (vertex `1`), a Frame
(vertex `2`), a first Body (vertex `3`) and a second Body (vertex `4`), linked
by a fixed transform (edge `5`) and two joints with one degree of freedom each
(edges `6` and `7`). -/
def exampleChain : Model ℚ :=
  ((((((Model.empty.add (Frame.ofKind .World)).add (Frame.ofKind .Frame)).add
    (Frame.ofKind .Body)).add (Frame.ofKind .Body)).addTransform
    ⟨none, none, none, 1⟩ 1 2).addTransform
    ⟨some ⟨1, 1, [0], [0], [0], [0]⟩, none, none, 1⟩ 2 3).addTransform
    ⟨some ⟨1, 1, [0], [0], [0], [0]⟩, none, none, 1⟩ 3 4

/-- Example: a World frame (vertex `1`) and a Body (vertex `2`) joined by a
joint with one degree of freedom whose stored acceleration is `1` (edge `3`). -/
def exampleAccelerating : Model ℚ :=
  ((Model.empty.add (Frame.ofKind .World)).add (Frame.ofKind .Body)).addTransform
    ⟨some ⟨1, 1, [0], [0], [1], [0]⟩, none, none, 1⟩ 1 2

/-- Example: a World (vertex `1`) with two Bodies (vertices `2` and `3`), each
attached to it by a fixed transform (edges `4` and `5`); the first Body reports
collision with the second, the second reports none. -/
def exampleColliding : Model ℚ :=
  ((((Model.empty.add (Frame.ofKind .World)).add
    { (Frame.ofKind .Body : Frame ℚ) with collisionWith := fun b => decide (b = 3) }).add
    (Frame.ofKind .Body)).addTransform ⟨none, none, none, 1⟩ 1 2).addTransform
    ⟨none, none, none, 1⟩ 1 3

/-- Example: the state of `exampleColliding` after `update()`. -/
def exampleCollidingUpdated : Model ℚ :=
  match exampleColliding.update 4 with
  | .ok m => m
  | .error _ => exampleColliding

/-- Example: `exampleArm` with a custom position map and home position
configured before any `update()`. -/
def exampleArmConfigured : Model ℚ :=
  { exampleArm with gammaPosition := ⟨1, 1, !![2]⟩, invGammaPosition := ⟨1, 1, !![1 / 2]⟩,
                    home := [5] }

/-- Example: a decomposition routine that returns identity factors and the
singular value `σ`; on the 1 × 1 matrix `(σ)` with `0 ≤ σ` this is its singular
value decomposition. -/
def exampleSVD (σ : ℚ) (A : DynMatrix ℚ) : JacobiSVD ℚ A.rows A.cols :=
  ⟨fun i j => if i.val = j.val then 1 else 0, fun _ => σ,
    fun i j => if i.val = j.val then 1 else 0⟩

/-- Example: the state of `exampleAccelerating` after `update()`. -/
def exampleAcceleratingUpdated : Model ℚ :=
  match exampleAccelerating.update 3 with
  | .ok m => m
  | .error _ => exampleAccelerating

/-- Example: the state of `exampleAccelerating` after `update()` followed by
`setGammaVelocity` with the 1 × 1 matrix `(2)` and a decomposition routine that
returns its singular value decomposition. -/
def exampleAcceleratingRemapped : Model ℚ :=
  exampleAcceleratingUpdated.setGammaVelocity (exampleSVD 2) (1 / 2 ^ 52) ⟨1, 1, !![2]⟩

/-- Example: a World frame (vertex `1`), a Body (vertex `2`) and a Frame (vertex
`3`), with a fixed transform from the World to the Body (edge `4`) and a fixed
transform from the Frame to the World (edge `5`); then the only outgoing edge of
the World is removed. -/
def exampleRootOnly : Model ℚ :=
  (((((Model.empty.add (Frame.ofKind .World)).add (Frame.ofKind .Body)).add
    (Frame.ofKind .Frame)).addTransform
    ⟨none, none, none, 1⟩ 1 2).addTransform ⟨none, none, none, 1⟩ 3 1).removeTransform ⟨1, 2, 4⟩

/-- Example: a World (vertex `1`) and a Body (vertex `2`) with a transform from
the World to the Body (edge `3`) and a transform from the Body back to the World
(edge `4`): a cycle through the root. -/
def exampleCycle : Model ℚ :=
  (((Model.empty.add (Frame.ofKind .World)).add (Frame.ofKind .Body)).addTransform
    ⟨none, none, none, 1⟩ 1 2).addTransform ⟨none, none, none, 1⟩ 2 1

/-- Example: a World (vertex `1`), two Bodies (vertices `2` and `3`) and a Frame
(vertex `4`); transforms lead from the World to the first Body (edge `5`), from
the Frame to the first Body (edge `6`) and from the World to the second Body
(edge `7`).  The Frame is not reachable from the World. -/
def exampleForeignTool : Model ℚ :=
  ((((((Model.empty.add (Frame.ofKind .World)).add (Frame.ofKind .Body)).add
    (Frame.ofKind .Body)).add (Frame.ofKind .Frame)).addTransform
    ⟨none, none, none, 1⟩ 1 2).addTransform ⟨none, none, none, 1⟩ 4 2).addTransform
    ⟨none, none, none, 1⟩ 1 3

/-- Example: a World is added, then a Body and a transform between them; the
World is removed and a second World is added. -/
def exampleMutations : List (Mutation ℚ) :=
  [.addFrame (Frame.ofKind .World), .addFrame (Frame.ofKind .Body),
   .addTransform ⟨none, none, none, 1⟩ 1 2, .removeFrame 1, .addFrame (Frame.ofKind .World)]

/-- Example: a World (vertex `1`) and three Bodies (vertices `2`, `3`, `4`);
transforms lead from the World to the first Body (edge `5`), from the World to
the second Body (edge `6`) and from the first Body to the third Body (edge
`7`): the World has two branches, the first one two levels deep. -/
def exampleFork : Model ℚ :=
  ((((((Model.empty.add (Frame.ofKind .World)).add (Frame.ofKind .Body)).add
    (Frame.ofKind .Body)).add (Frame.ofKind .Body)).addTransform
    ⟨none, none, none, 1⟩ 1 2).addTransform ⟨none, none, none, 1⟩ 1 3).addTransform
    ⟨some ⟨1, 1, [0], [0], [0], [0]⟩, none, none, 1⟩ 2 4

end mdl
end rl

namespace rl
namespace math

theorem vec6_val_five (a b c d e f : ℝ) : (![a, b, c, d, e, f] : Fin 6 → ℝ) 5 = f := rfl

theorem rows_orthonormal (R : Matrix (Fin 3) (Fin 3) ℝ) (hR : R * R.transpose = 1) :
    (R 0 0 * R 0 0 + R 0 1 * R 0 1 + R 0 2 * R 0 2 = 1 ∧
     R 0 0 * R 1 0 + R 0 1 * R 1 1 + R 0 2 * R 1 2 = 0 ∧
     R 0 0 * R 2 0 + R 0 1 * R 2 1 + R 0 2 * R 2 2 = 0) ∧
    (R 1 0 * R 1 0 + R 1 1 * R 1 1 + R 1 2 * R 1 2 = 1 ∧
     R 1 0 * R 2 0 + R 1 1 * R 2 1 + R 1 2 * R 2 2 = 0 ∧
     R 2 0 * R 2 0 + R 2 1 * R 2 1 + R 2 2 * R 2 2 = 1) := by
  have h := fun i j => congrFun (congrFun hR i) j
  have h00 := h 0 0
  have h01 := h 0 1
  have h02 := h 0 2
  have h11 := h 1 1
  have h12 := h 1 2
  have h22 := h 2 2
  simp [Matrix.mul_apply, Fin.sum_univ_three] at h00 h01 h02 h11 h12 h22
  exact ⟨⟨h00, h01, h02⟩, h11, h12, h22⟩

theorem toDelta_fromDelta_approx_eq (f : Matrix (Fin 3) (Fin 3) ℝ → ℝ × (Fin 3 → ℝ))
    (T : Transform) (d : Vector6) (hT : T.linear * T.linear.transpose = 1) :
    toDelta f T (fromDelta T d true) true = d := by
  obtain ⟨⟨h00, h01, h02⟩, h11, h12, h22⟩ := rows_orthonormal T.linear hT
  simp [Transform.linear] at h00 h01 h02 h11 h12 h22
  funext i
  fin_cases i <;> simp [toDelta, fromDelta, vec6_val_five]
  · linear_combination (d 3 / 2) * h11 + (d 3 / 2) * h22 - (d 4 / 2) * h01 - (d 5 / 2) * h02
  · linear_combination (d 4 / 2) * h00 + (d 4 / 2) * h22 - (d 3 / 2) * h01 - (d 5 / 2) * h12
  · linear_combination (d 5 / 2) * h00 + (d 5 / 2) * h11 - (d 3 / 2) * h02 - (d 4 / 2) * h12

theorem sin_sub_self_bound (phi : ℝ) (h0 : 0 ≤ phi) (h1 : phi < 1e-3) :
    |Real.sin phi - phi| ≤ 1e-9 := by
  rcases eq_or_lt_of_le h0 with h | h
  · subst h; norm_num
  · have hle := Real.sin_le h0
    have hgt := Real.sin_gt_sub_cube h (by linarith)
    have hc : phi ^ 3 ≤ (1e-3 : ℝ) ^ 3 := pow_le_pow_left₀ h0 h1.le 3
    rw [abs_le]
    constructor
    · norm_num at hc ⊢; linarith
    · norm_num; linarith

theorem abs_le_one_of_unit (u : Fin 3 → ℝ) (hu : u 0 * u 0 + u 1 * u 1 + u 2 * u 2 = 1)
    (i : Fin 3) : |u i| ≤ 1 := by
  rw [abs_le]
  fin_cases i <;> simp <;> constructor <;> nlinarith [mul_self_nonneg (u 0), mul_self_nonneg (u 1), mul_self_nonneg (u 2)]

theorem toDelta_approx_angular (f : Matrix (Fin 3) (Fin 3) ℝ → ℝ × (Fin 3 → ℝ))
    (base other : Transform) (R : Matrix (Fin 3) (Fin 3) ℝ) (u : Fin 3 → ℝ) (phi : ℝ)
    (hR : R * R.transpose = 1) (hbase : base.linear = R)
    (hother : other.linear = AngleAxis.toRotationMatrix phi u * R) :
    toDelta f base other true 3 = Real.sin phi * u 0 ∧
    toDelta f base other true 4 = Real.sin phi * u 1 ∧
    toDelta f base other true 5 = Real.sin phi * u 2 := by
  subst hbase
  obtain ⟨⟨h00, h01, h02⟩, h11, h12, h22⟩ := rows_orthonormal base.linear hR
  have e := fun i j => congrFun (congrFun hother i) j
  have e00 := e 0 0
  have e01 := e 0 1
  have e02 := e 0 2
  have e10 := e 1 0
  have e11 := e 1 1
  have e12 := e 1 2
  have e20 := e 2 0
  have e21 := e 2 1
  have e22 := e 2 2
  simp [Transform.linear, AngleAxis.toRotationMatrix, Matrix.mul_apply, Fin.sum_univ_three]
    at h00 h01 h02 h11 h12 h22 e00 e01 e02 e10 e11 e12 e20 e21 e22
  refine ⟨?_, ?_, ?_⟩
  · simp [toDelta, vec6_val_five]
    linear_combination (base 1 0 / 2) * e20 + (base 1 1 / 2) * e21 + (base 1 2 / 2) * e22
      - (base 2 0 / 2) * e10 - (base 2 1 / 2) * e11 - (base 2 2 / 2) * e12
      + (((1 - Real.cos phi) * u 0 * u 2 - Real.sin phi * u 1) / 2) * h01
      + (((1 - Real.cos phi) * u 1 * u 2 + Real.sin phi * u 0) / 2) * h11
      + (((1 - Real.cos phi) * u 2 * u 2 + Real.cos phi) / 2) * h12
      - (((1 - Real.cos phi) * u 0 * u 1 + Real.sin phi * u 2) / 2) * h02
      - (((1 - Real.cos phi) * u 1 * u 1 + Real.cos phi) / 2) * h12
      - (((1 - Real.cos phi) * u 1 * u 2 - Real.sin phi * u 0) / 2) * h22
  · simp [toDelta, vec6_val_five]
    linear_combination (base 2 0 / 2) * e00 + (base 2 1 / 2) * e01 + (base 2 2 / 2) * e02
      - (base 0 0 / 2) * e20 - (base 0 1 / 2) * e21 - (base 0 2 / 2) * e22
      + (((1 - Real.cos phi) * u 0 * u 0 + Real.cos phi) / 2) * h02
      + (((1 - Real.cos phi) * u 0 * u 1 - Real.sin phi * u 2) / 2) * h12
      + (((1 - Real.cos phi) * u 0 * u 2 + Real.sin phi * u 1) / 2) * h22
      - (((1 - Real.cos phi) * u 0 * u 2 - Real.sin phi * u 1) / 2) * h00
      - (((1 - Real.cos phi) * u 1 * u 2 + Real.sin phi * u 0) / 2) * h01
      - (((1 - Real.cos phi) * u 2 * u 2 + Real.cos phi) / 2) * h02
  · simp [toDelta, vec6_val_five]
    linear_combination (base 0 0 / 2) * e10 + (base 0 1 / 2) * e11 + (base 0 2 / 2) * e12
      - (base 1 0 / 2) * e00 - (base 1 1 / 2) * e01 - (base 1 2 / 2) * e02
      + (((1 - Real.cos phi) * u 0 * u 1 + Real.sin phi * u 2) / 2) * h00
      + (((1 - Real.cos phi) * u 1 * u 1 + Real.cos phi) / 2) * h01
      + (((1 - Real.cos phi) * u 1 * u 2 - Real.sin phi * u 0) / 2) * h02
      - (((1 - Real.cos phi) * u 0 * u 0 + Real.cos phi) / 2) * h01
      - (((1 - Real.cos phi) * u 0 * u 1 - Real.sin phi * u 2) / 2) * h11
      - (((1 - Real.cos phi) * u 0 * u 2 + Real.sin phi * u 1) / 2) * h12

theorem Transform.Identity_linear : Transform.Identity.linear = 1 := by
  ext i j
  fin_cases i <;> fin_cases j <;> simp [Transform.Identity, Transform.linear, Matrix.vecHead, Matrix.vecTail]

theorem Transform.linear_ofLinearTranslation (R : Matrix (Fin 3) (Fin 3) ℝ) (p : Fin 3 → ℝ) :
    (Transform.ofLinearTranslation R p).linear = R := by
  ext i j
  fin_cases i <;> fin_cases j <;> simp [Transform.ofLinearTranslation, Transform.linear]

theorem atan2_sin_cos (theta : ℝ) (h0 : -Real.pi < theta) (h1 : theta ≤ Real.pi) :
    atan2 (Real.sin theta) (Real.cos theta) = theta := by
  have h := Complex.arg_cos_add_sin_mul_I (Set.mem_Ioc.mpr ⟨h0, h1⟩)
  have e : (⟨Real.cos theta, Real.sin theta⟩ : ℂ)
      = Complex.cos theta + Complex.sin theta * Complex.I := by
    apply Complex.ext <;> simp [Complex.cos_ofReal_re, Complex.sin_ofReal_re,
      Complex.cos_ofReal_im, Complex.sin_ofReal_im]
  rw [atan2, e, h]

theorem dh_recover_a (eps a theta : ℝ) (h0 : 0 ≤ eps) (h1 : eps < 1) :
    (if |Real.cos theta| ≤ eps then a * Real.sin theta / Real.sin theta
      else if |Real.sin theta| ≤ eps then a * Real.cos theta / Real.cos theta
      else (a * Real.sin theta / Real.sin theta + a * Real.cos theta / Real.cos theta) * 0.5)
      = a := by
  have hsq := Real.sin_sq_add_cos_sq theta
  split_ifs with hc hs
  · have hs0 : Real.sin theta ≠ 0 := by
      intro h
      rw [h] at hsq
      have : |Real.cos theta| = 1 := by
        rw [← sq_eq_sq₀ (abs_nonneg _) zero_le_one, sq_abs]; linarith
      linarith
    field_simp
  · have hc0 : Real.cos theta ≠ 0 := by
      intro h
      apply hc
      rw [h, abs_zero]; exact h0
    field_simp
  · have hc0 : Real.cos theta ≠ 0 := by
      intro h
      apply hc
      rw [h, abs_zero]; exact h0
    have hs0 : Real.sin theta ≠ 0 := by
      intro h
      apply hs
      rw [h, abs_zero]; exact h0
    field_simp
    ring

theorem Transform.linear_mul (t other : Transform) :
    (t.mul other).linear = t.linear * other.linear := by
  ext i j
  fin_cases i <;> fin_cases j <;>
    simp [Transform.mul, Transform.linear, Matrix.mul_apply, Fin.sum_univ_three]

/-- The angular part of the exact-mode round trip is right: when Eigen's
conversion of a rotation matrix to an angle and an axis recovers the angle and
the axis that `fromDelta` used, `toDelta` returns the rotation part of the
delta. -/
theorem toDelta_fromDelta_exact_rotation (f : Matrix (Fin 3) (Fin 3) ℝ → ℝ × (Fin 3 → ℝ))
    (T : Transform) (d : Vector6) (hT : T.linear * T.linear.transpose = 1)
    (hw : 0 < norm3 ![d 3, d 4, d 5])
    (hf : f (AngleAxis.toRotationMatrix (norm3 ![d 3, d 4, d 5]) (normalized3 ![d 3, d 4, d 5]))
      = (norm3 ![d 3, d 4, d 5], normalized3 ![d 3, d 4, d 5])) :
    toDelta f T (fromDelta T d false) false 3 = d 3 ∧
    toDelta f T (fromDelta T d false) false 4 = d 4 ∧
    toDelta f T (fromDelta T d false) false 5 = d 5 := by
  have hlin : (fromDelta T d false).linear * T.linear.transpose
      = AngleAxis.toRotationMatrix (norm3 ![d 3, d 4, d 5]) (normalized3 ![d 3, d 4, d 5]) := by
    simp only [fromDelta, Bool.false_eq_true, if_false, Transform.linear_mul,
      Transform.linear_ofLinearTranslation]
    rw [Matrix.mul_assoc, hT, Matrix.mul_one]
  have hsq : 0 < (![d 3, d 4, d 5] : Fin 3 → ℝ) 0 * (![d 3, d 4, d 5] : Fin 3 → ℝ) 0
      + (![d 3, d 4, d 5] : Fin 3 → ℝ) 1 * (![d 3, d 4, d 5] : Fin 3 → ℝ) 1
      + (![d 3, d 4, d 5] : Fin 3 → ℝ) 2 * (![d 3, d 4, d 5] : Fin 3 → ℝ) 2 := by
    unfold norm3 at hw
    exact Real.sqrt_pos.mp hw
  have hn : ∀ i, norm3 ![d 3, d 4, d 5] * normalized3 ![d 3, d 4, d 5] i
      = (![d 3, d 4, d 5] : Fin 3 → ℝ) i := by
    intro i
    simp only [normalized3, if_pos hsq]
    field_simp
  have h3 := hn 0
  have h4 := hn 1
  have h5 := hn 2
  simp only [Matrix.cons_val_zero, Matrix.cons_val_one, Matrix.head_cons, Matrix.cons_val_two,
    Matrix.tail_cons] at h3 h4 h5
  refine ⟨?_, ?_, ?_⟩ <;>
    simp only [toDelta, Bool.false_eq_true, if_false, hlin, hf]
  · exact h3
  · exact h4
  · rw [vec6_val_five]; exact h5

/-- C5 (failing input): with base pose the identity and delta
`(1, 0, 0, 0, 0, π/3)`, whose rotation part has norm `π/3` in `(0, π/2)`, the
exact-mode `fromDelta` followed by the exact-mode `toDelta` returns `1/2` as
first component, whatever Eigen's rotation-to-angle-axis conversion does,
although the first component of the delta is `1`. -/
theorem toDelta_fromDelta_exact_translation
    (f : Matrix (Fin 3) (Fin 3) ℝ → ℝ × (Fin 3 → ℝ)) :
    0 < norm3 ![0, 0, Real.pi / 3] ∧ norm3 ![0, 0, Real.pi / 3] < Real.pi / 2 ∧
    toDelta f Transform.Identity
      (fromDelta Transform.Identity ![1, 0, 0, 0, 0, Real.pi / 3] false) false 0 = 1 / 2 ∧
    (![1, 0, 0, 0, 0, Real.pi / 3] : Vector6) 0 = 1 := by
  have hpi := Real.pi_pos
  have hn : norm3 ![0, 0, Real.pi / 3] = Real.pi / 3 := by
    simp only [norm3]
    simp
    exact Real.sqrt_mul_self (by positivity)
  have hpos : (0 : ℝ) < Real.pi / 3 * (Real.pi / 3) := by positivity
  refine ⟨by rw [hn]; positivity, by rw [hn]; linarith, ?_, rfl⟩
  have hv : (![(1 : ℝ), 0, 0, 0, 0, Real.pi / 3] : Vector6) 5 = Real.pi / 3 := rfl
  simp only [toDelta, fromDelta, Bool.false_eq_true, if_false, hv]
  simp [hn, Transform.mul, Transform.ofLinearTranslation, Transform.Identity,
    AngleAxis.toRotationMatrix, normalized3, hpos, Matrix.mulVec, Matrix.dotProduct,
    Fin.sum_univ_three]

/-- C6: for a pose `T` with orthogonal rotation block and a delta `d` whose
rotation part has norm below `1e-3`, the approximate-mode `toDelta` of `T` and
the approximate-mode `fromDelta T d` differs from `d` by at most `1e-9` in each
of the six components. -/
theorem toDelta_fromDelta_approx (f : Matrix (Fin 3) (Fin 3) ℝ → ℝ × (Fin 3 → ℝ))
    (T : Transform) (d : Vector6) (hT : T.linear * T.linear.transpose = 1)
    (_hd : norm3 ![d 3, d 4, d 5] < 1e-3) (i : Fin 6) :
    |toDelta f T (fromDelta T d true) true i - d i| ≤ 1e-9 := by
  rw [toDelta_fromDelta_approx_eq f T d hT]
  norm_num

theorem toDelta_fromDelta_approx_witness :
    Transform.Identity.linear * Transform.Identity.linear.transpose = 1 ∧
    norm3 ![(![1, 2, 3, 0, 0, 1 / 2000] : Vector6) 3, (![1, 2, 3, 0, 0, 1 / 2000] : Vector6) 4,
      (![1, 2, 3, 0, 0, 1 / 2000] : Vector6) 5] < 1e-3 ∧
    |toDelta (fun _ => (0, 0)) Transform.Identity
        (fromDelta Transform.Identity ![1, 2, 3, 0, 0, 1 / 2000] true) true 5
      - (![1, 2, 3, 0, 0, 1 / 2000] : Vector6) 5| ≤ 1e-9 := by
  have h1 : Transform.Identity.linear * Transform.Identity.linear.transpose = 1 := by
    rw [Transform.Identity_linear]
    simp
  have h2 : norm3 ![(![1, 2, 3, 0, 0, 1 / 2000] : Vector6) 3,
      (![1, 2, 3, 0, 0, 1 / 2000] : Vector6) 4,
      (![1, 2, 3, 0, 0, 1 / 2000] : Vector6) 5] < 1e-3 := by
    have hv : (![(1 : ℝ), 2, 3, 0, 0, 1 / 2000] : Vector6) 5 = 1 / 2000 := rfl
    simp only [norm3, hv]
    simp
    norm_num
  exact ⟨h1, h2, toDelta_fromDelta_approx _ _ _ h1 h2 5⟩

/-- C7: when `base` has rotation block `R` (a rotation matrix) and `other` has
rotation block `Rot(u, phi) * R` for a unit axis `u` and `0 ≤ phi < 1e-3`, the
angular part of the approximate-mode `base.toDelta(other)` is `sin phi * u`, and
each of its components differs from the rotation vector `phi * u` by at most
`1e-9`. -/
theorem toDelta_approx_accuracy (f : Matrix (Fin 3) (Fin 3) ℝ → ℝ × (Fin 3 → ℝ))
    (base other : Transform) (R : Matrix (Fin 3) (Fin 3) ℝ) (u : Fin 3 → ℝ) (phi : ℝ)
    (hR : R * R.transpose = 1) (hu : u 0 * u 0 + u 1 * u 1 + u 2 * u 2 = 1)
    (h0 : 0 ≤ phi) (h1 : phi < 1e-3) (hbase : base.linear = R)
    (hother : other.linear = AngleAxis.toRotationMatrix phi u * R) :
    (toDelta f base other true 3 = Real.sin phi * u 0 ∧
      toDelta f base other true 4 = Real.sin phi * u 1 ∧
      toDelta f base other true 5 = Real.sin phi * u 2) ∧
    (|toDelta f base other true 3 - phi * u 0| ≤ 1e-9 ∧
      |toDelta f base other true 4 - phi * u 1| ≤ 1e-9 ∧
      |toDelta f base other true 5 - phi * u 2| ≤ 1e-9) := by
  have h := toDelta_approx_angular f base other R u phi hR hbase hother
  have hb := sin_sub_self_bound phi h0 h1
  have key : ∀ i : Fin 3, |Real.sin phi * u i - phi * u i| ≤ 1e-9 := by
    intro i
    have hi := abs_le_one_of_unit u hu i
    have e : Real.sin phi * u i - phi * u i = (Real.sin phi - phi) * u i := by ring
    rw [e, abs_mul]
    calc |Real.sin phi - phi| * |u i| ≤ |Real.sin phi - phi| * 1 :=
          mul_le_mul_of_nonneg_left hi (abs_nonneg _)
      _ ≤ 1e-9 := by rw [mul_one]; exact hb
  refine ⟨h, ?_, ?_, ?_⟩
  · rw [h.1]; exact key 0
  · rw [h.2.1]; exact key 1
  · rw [h.2.2]; exact key 2

theorem toDelta_approx_accuracy_witness :
    (1 : Matrix (Fin 3) (Fin 3) ℝ) * (1 : Matrix (Fin 3) (Fin 3) ℝ).transpose = 1 ∧
    (![0, 0, 1] : Fin 3 → ℝ) 0 * (![0, 0, 1] : Fin 3 → ℝ) 0
      + (![0, 0, 1] : Fin 3 → ℝ) 1 * (![0, 0, 1] : Fin 3 → ℝ) 1
      + (![0, 0, 1] : Fin 3 → ℝ) 2 * (![0, 0, 1] : Fin 3 → ℝ) 2 = 1 ∧
    (0 : ℝ) ≤ 1 / 2000 ∧ (1 / 2000 : ℝ) < 1e-3 ∧
    |toDelta (fun _ => (0, 0)) Transform.Identity
        (Transform.ofLinearTranslation (AngleAxis.toRotationMatrix (1 / 2000) ![0, 0, 1]) 0)
        true 5 - 1 / 2000 * (![0, 0, 1] : Fin 3 → ℝ) 2| ≤ 1e-9 :=
  have hR : (1 : Matrix (Fin 3) (Fin 3) ℝ) * (1 : Matrix (Fin 3) (Fin 3) ℝ).transpose = 1 := by
    simp
  have hu : (![0, 0, 1] : Fin 3 → ℝ) 0 * (![0, 0, 1] : Fin 3 → ℝ) 0
      + (![0, 0, 1] : Fin 3 → ℝ) 1 * (![0, 0, 1] : Fin 3 → ℝ) 1
      + (![0, 0, 1] : Fin 3 → ℝ) 2 * (![0, 0, 1] : Fin 3 → ℝ) 2 = 1 := by
    simp
  have h0 : (0 : ℝ) ≤ 1 / 2000 := by norm_num
  have h1 : (1 / 2000 : ℝ) < 1e-3 := by norm_num
  ⟨hR, hu, h0, h1,
    (toDelta_approx_accuracy (fun _ => (0, 0)) Transform.Identity
      (Transform.ofLinearTranslation (AngleAxis.toRotationMatrix (1 / 2000) ![0, 0, 1]) 0)
      1 ![0, 0, 1] (1 / 2000) hR hu h0 h1 Transform.Identity_linear
      (by rw [Transform.linear_ofLinearTranslation, mul_one])).2.2.2⟩

/-- C8 (counterexample): the transform built from `(d, theta, a, alpha) =
(0, 2π, 0, 0)` is mapped back to `(0, 0, 0, 0)`: the angle `2π` is not
recovered. -/
theorem toDenavitHartenbergPaul_fromDenavitHartenbergPaul_two_pi :
    toDenavitHartenbergPaul (1 / 2 ^ 52) (fromDenavitHartenbergPaul 0 (2 * Real.pi) 0 0)
      = .ok (0, 0, 0, 0) ∧
    toDenavitHartenbergPaul (1 / 2 ^ 52) (fromDenavitHartenbergPaul 0 (2 * Real.pi) 0 0)
      ≠ .ok (0, 2 * Real.pi, 0, 0) := by
  have hat : atan2 0 1 = 0 := by
    have h := atan2_sin_cos 0 (by linarith [Real.pi_pos]) Real.pi_pos.le
    simpa using h
  have e : toDenavitHartenbergPaul (1 / 2 ^ 52) (fromDenavitHartenbergPaul 0 (2 * Real.pi) 0 0)
      = .ok (0, 0, 0, 0) := by
    simp only [toDenavitHartenbergPaul, fromDenavitHartenbergPaul]
    simp [hat, Matrix.vecHead, Matrix.vecTail]
  refine ⟨e, ?_⟩
  rw [e]
  intro h
  injection h with h
  have h2 : (0 : ℝ) = 2 * Real.pi := congrArg (fun p : ℝ × ℝ × ℝ × ℝ => p.2.1) h
  linarith [Real.pi_pos]

/-- C8 (amended): for `theta` and `alpha` in `(-π, π]`, and a machine epsilon
`eps` with `0 ≤ eps < 1`, the transform built by `fromDenavitHartenbergPaul` has
`(2, 0)` entry `0` and `toDenavitHartenbergPaul` returns exactly
`(d, theta, a, alpha)` on it. -/
theorem toDenavitHartenbergPaul_fromDenavitHartenbergPaul (eps d theta a alpha : ℝ)
    (h0 : 0 ≤ eps) (h1 : eps < 1)
    (hθ₀ : -Real.pi < theta) (hθ₁ : theta ≤ Real.pi)
    (hα₀ : -Real.pi < alpha) (hα₁ : alpha ≤ Real.pi) :
    fromDenavitHartenbergPaul d theta a alpha 2 0 = 0 ∧
    toDenavitHartenbergPaul eps (fromDenavitHartenbergPaul d theta a alpha)
      = .ok (d, theta, a, alpha) := by
  constructor
  · simp [fromDenavitHartenbergPaul]
  · simp only [toDenavitHartenbergPaul, fromDenavitHartenbergPaul]
    simp [h0, atan2_sin_cos, hθ₀, hθ₁, hα₀, hα₁]
    exact dh_recover_a eps a theta h0 h1

theorem toDenavitHartenbergPaul_fromDenavitHartenbergPaul_witness :
    (0 : ℝ) ≤ 1 / 2 ^ 52 ∧ (1 / 2 ^ 52 : ℝ) < 1 ∧
    -Real.pi < Real.pi / 2 ∧ Real.pi / 2 ≤ Real.pi ∧
    -Real.pi < Real.pi ∧ Real.pi ≤ Real.pi ∧
    fromDenavitHartenbergPaul 1 (Real.pi / 2) 2 Real.pi 2 0 = 0 ∧
    toDenavitHartenbergPaul (1 / 2 ^ 52) (fromDenavitHartenbergPaul 1 (Real.pi / 2) 2 Real.pi)
      = .ok (1, Real.pi / 2, 2, Real.pi) :=
  have h0 : (0 : ℝ) ≤ 1 / 2 ^ 52 := by positivity
  have h1 : (1 / 2 ^ 52 : ℝ) < 1 := by norm_num
  have h2 : -Real.pi < Real.pi / 2 := by linarith [Real.pi_pos]
  have h3 : Real.pi / 2 ≤ Real.pi := by linarith [Real.pi_pos]
  have h4 : -Real.pi < Real.pi := by linarith [Real.pi_pos]
  ⟨h0, h1, h2, h3, h4, le_refl _,
    toDenavitHartenbergPaul_fromDenavitHartenbergPaul (1 / 2 ^ 52) 1 (Real.pi / 2) 2 Real.pi
      h0 h1 h2 h3 h4 (le_refl _)⟩

end math
end rl

namespace rl

theorem bind_eq_ok {ε α β : Type} (x : Except ε α) (f : α → Except ε β) (b : β) :
    (x >>= f) = .ok b ↔ ∃ a, x = .ok a ∧ f a = .ok b := by
  cases x with
  | error e => simp [bind, Except.bind]
  | ok a => simp [bind, Except.bind]

theorem ok_bind {ε α β : Type} (a : α) (f : α → Except ε β) :
    ((Except.ok a : Except ε α) >>= f) = f a := rfl

namespace math

theorem DynMatrix.mulVec_Identity {α : Type} [Semiring α] (n : ℕ) (y : List α)
    (h : y.length = n) : (DynMatrix.Identity n n : DynMatrix α).mulVec y = .ok y := by
  subst h
  simp only [DynMatrix.mulVec, DynMatrix.Identity, dif_pos]
  congr 1
  apply List.ext_get
  · simp
  · intro i h₁ h₂
    simp only [List.get_eq_getElem, List.getElem_ofFn, Fin.cast_mk]
    rw [Finset.sum_eq_single ⟨i, h₂⟩]
    · simp
    · intro b _ hb
      have : ¬ i = b.val := fun h => hb (Fin.ext h.symm)
      simp [this]
    · intro hni
      exact absurd (Finset.mem_univ _) hni

theorem splice_segments {α : Type} (b q : List α) (j n S : ℕ) (hb : b.length = q.length)
    (h : j + n + S ≤ q.length) :
    (b.take j ++ (q.drop j).take n ++ b.drop (j + n)).take (j + n)
        ++ (q.drop (j + n)).take S
        ++ (b.take j ++ (q.drop j).take n ++ b.drop (j + n)).drop (j + n + S)
      = b.take j ++ (q.drop j).take (n + S) ++ b.drop (j + (n + S)) := by
  have h₁ : (b.take j ++ (q.drop j).take n).length = j + n := by
    simp only [List.length_append, List.length_take, List.length_drop]
    omega
  have e₁ : (b.take j ++ (q.drop j).take n ++ b.drop (j + n)).take (j + n)
      = b.take j ++ (q.drop j).take n := by
    rw [List.take_append_of_le_length (by omega), List.take_of_length_le (by omega)]
  have e₂ : (b.take j ++ (q.drop j).take n ++ b.drop (j + n)).drop (j + n + S)
      = b.drop (j + (n + S)) := by
    rw [List.drop_append_eq_append_drop, List.drop_of_length_le (by omega), h₁, List.nil_append,
      List.drop_drop]
    congr 1
    omega
  rw [e₁, e₂, List.take_add, List.drop_drop]
  simp only [List.append_assoc]

end math

namespace mdl

open rl.math

variable {α : Type}

theorem Tree.Reachable.concat {t : Tree α} {a b c : Vertex} (h₁ : t.Reachable a b)
    (h₂ : t.Reachable b c) : t.Reachable a c := by
  induction h₂ with
  | refl => exact h₁
  | step e _ he ih => exact Tree.Reachable.step e ih he

theorem Tree.mem_out_edges {t : Tree α} {u : Vertex} {e : Edge} :
    e ∈ t.out_edges u ↔ e ∈ t.edges ∧ e.source = u := by
  simp [Tree.out_edges]

theorem Tree.mem_in_edges {t : Tree α} {u : Vertex} {e : Edge} :
    e ∈ t.in_edges u ↔ e ∈ t.edges ∧ e.target = u := by
  simp [Tree.in_edges]

theorem Tree.mem_jointsFrom {t : Tree α} (fuel : ℕ) (u : Vertex) (e : Edge)
    (h : e ∈ t.jointsFrom fuel u) :
    e ∈ t.edges ∧ (t.transform e).joint.isSome = true ∧ t.Reachable u e.source := by
  induction fuel generalizing u with
  | zero => simp [Tree.jointsFrom] at h
  | succ fuel ih =>
    simp only [Tree.jointsFrom, List.mem_flatMap, List.mem_append] at h
    obtain ⟨f, hf, h | h⟩ := h
    · rw [Tree.mem_out_edges] at hf
      split at h
      · rename_i hj
        simp only [List.mem_singleton] at h
        subst h
        exact ⟨hf.1, hj, hf.2 ▸ Tree.Reachable.refl⟩
      · simp at h
    · rw [Tree.mem_out_edges] at hf
      obtain ⟨h1, h2, h3⟩ := ih f.target h
      refine ⟨h1, h2, Tree.Reachable.concat ?_ h3⟩
      have := Tree.Reachable.step f (Tree.Reachable.refl (t := t) (u := f.source)) hf.1
      rw [hf.2] at this
      exact this

theorem Tree.IsTree.not_reachable_source {t : Tree α} {root : Vertex} (ht : t.IsTree root)
    {e : Edge} (he : e ∈ t.edges) (hr : t.Reachable root e.source) :
    ¬ t.Reachable e.target e.source :=
  ht.acyclic e he hr

theorem Tree.Reachable.eq_or_step {t : Tree α} {a b : Vertex} (h : t.Reachable a b) :
    a = b ∨ ∃ f, f ∈ t.edges ∧ f.target = b ∧ t.Reachable a f.source := by
  cases h with
  | refl => exact Or.inl rfl
  | step f hf hfe => exact Or.inr ⟨f, hfe, rfl, hf⟩

theorem Tree.IsTree.disjoint_subtrees {t : Tree α} {root : Vertex} (ht : t.IsTree root)
    {e₁ e₂ : Edge} (h₁ : e₁ ∈ t.edges) (h₂ : e₂ ∈ t.edges) (hs : e₁.source = e₂.source)
    (hr : t.Reachable root e₁.source) (hne : e₁ ≠ e₂) {s : Vertex}
    (hs₁ : t.Reachable e₁.target s) : ¬ t.Reachable e₂.target s := by
  have hr₂ : t.Reachable root e₂.source := hs ▸ hr
  have hr₁' : t.Reachable root e₁.target := Tree.Reachable.step e₁ hr h₁
  have hr₂' : t.Reachable root e₂.target := Tree.Reachable.step e₂ hr₂ h₂
  induction hs₁ with
  | refl =>
    intro h
    rcases h.eq_or_step with h | ⟨f, hf, hft, hfs⟩
    · exact hne (ht.unique_in e₁ h₁ e₂ h₂ hr hr₂ h.symm)
    · have hfr : t.Reachable root f.source := hr₂'.concat hfs
      have hfe : f = e₁ := ht.unique_in f hf e₁ h₁ hfr hr hft
      subst hfe
      rw [hs] at hfs
      exact ht.not_reachable_source h₂ hr₂ hfs
  | step f hf hfe ih =>
    intro h
    rcases h.eq_or_step with h | ⟨g, hg, hgt, hgs⟩
    · have hfr : t.Reachable root f.source := hr₁'.concat hf
      have hfe2 : f = e₂ := ht.unique_in f hfe e₂ h₂ hfr hr₂ h.symm
      subst hfe2
      rw [← hs] at hf
      exact ht.not_reachable_source h₁ hr hf
    · have hfr : t.Reachable root f.source := hr₁'.concat hf
      have hgr : t.Reachable root g.source := hr₂'.concat hgs
      have hfg : g = f := ht.unique_in g hg f hfe hgr hfr hgt
      subst hfg
      exact ih hgs

theorem Tree.IsTree.nodup_jointsFrom {t : Tree α} {root : Vertex} (ht : t.IsTree root)
    (fuel : ℕ) (u : Vertex) (hu : t.Reachable root u) : (t.jointsFrom fuel u).Nodup := by
  induction fuel generalizing u with
  | zero => simp [Tree.jointsFrom]
  | succ fuel ih =>
    simp only [Tree.jointsFrom]
    rw [List.nodup_flatMap]
    constructor
    · intro e he
      rw [Tree.mem_out_edges] at he
      have hre : t.Reachable root e.source := he.2 ▸ hu
      have hrt : t.Reachable root e.target := Tree.Reachable.step e hre he.1
      rw [List.nodup_append]
      refine ⟨by split <;> simp, ih e.target hrt, ?_⟩
      intro x hx hx'
      have hxe : x = e := by
        split at hx
        · simpa using hx
        · simp at hx
      subst hxe
      exact ht.not_reachable_source he.1 hre (Tree.mem_jointsFrom fuel _ _ hx').2.2
    · have hnd : (t.out_edges u).Nodup := ht.nodup.filter _
      refine List.Pairwise.imp_of_mem ?_ hnd
      intro e₁ e₂ he₁ he₂ hne
      rw [Tree.mem_out_edges] at he₁ he₂
      have hs : e₁.source = e₂.source := he₁.2.trans he₂.2.symm
      have hr₁ : t.Reachable root e₁.source := he₁.2 ▸ hu
      have hr₂ : t.Reachable root e₂.source := he₂.2 ▸ hu
      rw [Function.onFun, List.disjoint_left]
      intro x hx hx'
      rw [List.mem_append] at hx hx'
      have key₁ : x = e₁ ∨ t.Reachable e₁.target x.source := by
        rcases hx with hx | hx
        · left
          split at hx
          · simpa using hx
          · simp at hx
        · exact Or.inr (Tree.mem_jointsFrom fuel _ _ hx).2.2
      have key₂ : x = e₂ ∨ t.Reachable e₂.target x.source := by
        rcases hx' with hx | hx
        · left
          split at hx
          · simpa using hx
          · simp at hx
        · exact Or.inr (Tree.mem_jointsFrom fuel _ _ hx).2.2
      rcases key₁ with k₁ | k₁ <;> rcases key₂ with k₂ | k₂
      · exact hne (k₁.symm.trans k₂)
      · subst k₁
        rw [hs] at k₂
        exact ht.not_reachable_source he₂.1 hr₂ k₂
      · subst k₂
        rw [← hs] at k₁
        exact ht.not_reachable_source he₁.1 hr₁ k₁
      · exact ht.disjoint_subtrees he₁.1 he₂.1 hs hr₁ hne k₁ k₂

theorem Tree.jointsFrom_congr {t t' : Tree α} (hE : t'.edges = t.edges)
    (hJ : ∀ e, (t'.transform e).joint.isSome = (t.transform e).joint.isSome)
    (fuel : ℕ) (u : Vertex) : t'.jointsFrom fuel u = t.jointsFrom fuel u := by
  induction fuel generalizing u with
  | zero => rfl
  | succ fuel ih =>
    simp only [Tree.jointsFrom, Tree.out_edges, hE, hJ, ih]

theorem Tree.IsTree.mem_vertices {t : Tree α} {root : Vertex} (h : t.IsTree root) {u : Vertex}
    (hu : t.Reachable root u) : u ∈ t.vertices := by
  rcases hu.eq_or_step with h' | ⟨f, hf, hft, hfs⟩
  · exact h' ▸ h.root_mem
  · exact hft ▸ h.target_mem f hf hfs

namespace Model

theorem SameGraph.refl (m : Model α) : SameGraph m m :=
  ⟨rfl, rfl, rfl, rfl, rfl, fun _ => rfl⟩

theorem SameGraph.comp {m₁ m₂ m₃ : Model α} (h₁ : SameGraph m₁ m₂) (h₂ : SameGraph m₂ m₃) :
    SameGraph m₁ m₃ := by
  obtain ⟨a1, a2, a3, a4, a5, a6⟩ := h₁
  obtain ⟨b1, b2, b3, b4, b5, b6⟩ := h₂
  refine ⟨b1.trans a1, b2.trans a2, b3.trans a3, b4.trans a4, b5.trans a5, fun e => ?_⟩
  exact (b6 e).trans (a6 e)

theorem SameGraph.setInOut (m : Model α) (e : Edge) (u v : Vertex) :
    SameGraph m (m.setInOut e u v) := by
  refine ⟨rfl, rfl, rfl, rfl, rfl, fun f => ?_⟩
  by_cases h : f = e
  · subst h; simp [Model.setInOut]
  · simp [Model.setInOut, Function.update_noteq h]

theorem jointAt_eq_ok (m : Model α) (e : Edge) (j : Joint α) :
    m.jointAt e = .ok j ↔ e ∈ m.tree.edges ∧ (m.tree.transform e).joint = some j := by
  unfold jointAt Tree.transformAt
  by_cases h : e ∈ m.tree.edges
  · simp only [h, if_true, ok_bind, true_and]
    cases hj : (m.tree.transform e).joint <;> simp
  · simp [h, bind, Except.bind]

@[simp] theorem pushFrame_tree (m : Model α) (u : Vertex) : (m.pushFrame u).tree = m.tree := rfl

@[simp] theorem pushFrame_joints (m : Model α) (u : Vertex) :
    (m.pushFrame u).joints = m.joints := rfl

@[simp] theorem pushFrame_root (m : Model α) (u : Vertex) : (m.pushFrame u).root = m.root := rfl

@[simp] theorem pushBody_tree (m : Model α) (u : Vertex) : (m.pushBody u).tree = m.tree := rfl

@[simp] theorem pushBody_joints (m : Model α) (u : Vertex) : (m.pushBody u).joints = m.joints := rfl

@[simp] theorem pushBody_root (m : Model α) (u : Vertex) : (m.pushBody u).root = m.root := rfl

@[simp] theorem pushTransform_tree (m : Model α) (e : Edge) :
    (m.pushTransform e).tree = m.tree := rfl

@[simp] theorem pushTransform_joints (m : Model α) (e : Edge) :
    (m.pushTransform e).joints = m.joints := rfl

@[simp] theorem pushTransform_root (m : Model α) (e : Edge) :
    (m.pushTransform e).root = m.root := rfl

@[simp] theorem pushJoint_tree (m : Model α) (e : Edge) : (m.pushJoint e).tree = m.tree := rfl

@[simp] theorem pushJoint_joints (m : Model α) (e : Edge) :
    (m.pushJoint e).joints = m.joints ++ [e] := rfl

@[simp] theorem pushJoint_root (m : Model α) (e : Edge) : (m.pushJoint e).root = m.root := rfl

@[simp] theorem pushLeaf_tree (m : Model α) (u : Vertex) : (m.pushLeaf u).tree = m.tree := rfl

@[simp] theorem pushLeaf_joints (m : Model α) (u : Vertex) : (m.pushLeaf u).joints = m.joints := rfl

@[simp] theorem pushLeaf_root (m : Model α) (u : Vertex) : (m.pushLeaf u).root = m.root := rfl

@[simp] theorem setInOut_joints (m : Model α) (e : Edge) (u v : Vertex) :
    (m.setInOut e u v).joints = m.joints := rfl

@[simp] theorem setInOut_root (m : Model α) (e : Edge) (u v : Vertex) :
    (m.setInOut e u v).root = m.root := rfl

@[simp] theorem clear_tree (m : Model α) : m.clear.tree = m.tree := rfl

@[simp] theorem clear_joints (m : Model α) : m.clear.joints = [] := rfl

@[simp] theorem clear_root (m : Model α) : m.clear.root = m.root := rfl

@[simp] theorem resetGamma_tree [Zero α] [One α] (m : Model α) (a b : ℕ) :
    (m.resetGamma a b).tree = m.tree := rfl

@[simp] theorem resetGamma_joints [Zero α] [One α] (m : Model α) (a b : ℕ) :
    (m.resetGamma a b).joints = m.joints := rfl

@[simp] theorem resetGamma_root [Zero α] [One α] (m : Model α) (a b : ℕ) :
    (m.resetGamma a b).root = m.root := rfl

theorem SameGraph.of_tree_eq {m m' : Model α} (hr : m'.root = m.root) (ht : m'.tree = m.tree) :
    SameGraph m m' := by
  refine ⟨hr, ?_, ?_, ?_, ?_, fun e => ?_⟩ <;> simp [ht]

theorem SameGraph.jointsFrom_eq {m m' : Model α} (h : SameGraph m m') (fuel : ℕ) (u : Vertex) :
    m'.tree.jointsFrom fuel u = m.tree.jointsFrom fuel u :=
  Tree.jointsFrom_congr h.2.2.1 (fun e => by rw [h.2.2.2.2.2 e]) fuel u

theorem getDofLoop_congr {m m' : Model α} (h : m'.tree = m.tree) (es : List Edge) (d : ℕ) :
    m'.getDofLoop es d = m.getDofLoop es d := by
  induction es generalizing d with
  | nil => rfl
  | cons e es ih => simp only [getDofLoop, jointAt, h, ih]

theorem getDofPositionLoop_congr {m m' : Model α} (h : m'.tree = m.tree) (es : List Edge)
    (d : ℕ) : m'.getDofPositionLoop es d = m.getDofPositionLoop es d := by
  induction es generalizing d with
  | nil => rfl
  | cons e es ih => simp only [getDofPositionLoop, jointAt, h, ih]

theorem getDof_congr {m m' : Model α} (ht : m'.tree = m.tree) (hj : m'.joints = m.joints) :
    m'.getDof = m.getDof := by
  unfold getDof
  rw [hj]
  exact getDofLoop_congr ht _ _

theorem getDofPosition_congr {m m' : Model α} (ht : m'.tree = m.tree)
    (hj : m'.joints = m.joints) : m'.getDofPosition = m.getDofPosition := by
  unfold getDofPosition
  rw [hj]
  exact getDofPositionLoop_congr ht _ _

theorem updateOutEdges_spec (recurse : Model α → Vertex → Except Error (Model α)) (fuel : ℕ)
    (hrec : ∀ m v m', recurse m v = .ok m' →
      SameGraph m m' ∧ m'.joints = m.joints ++ m.tree.jointsFrom fuel v)
    (u : Vertex) (es : List Edge) (m m' : Model α)
    (h : updateOutEdges recurse u es m = .ok m') :
    SameGraph m m' ∧ m'.joints = m.joints ++ es.flatMap fun e =>
      (if (m.tree.transform e).joint.isSome then [e] else []) ++ m.tree.jointsFrom fuel e.target := by
  induction es generalizing m with
  | nil =>
    simp only [updateOutEdges, Except.ok.injEq] at h
    subst h
    exact ⟨SameGraph.refl m, by simp⟩
  | cons e es ih =>
    simp only [updateOutEdges] at h
    rw [bind_eq_ok] at h
    obtain ⟨m₄, h₄, h⟩ := h
    have hio : SameGraph m ((m.pushTransform e).setInOut e u e.target) :=
      (SameGraph.of_tree_eq rfl rfl).comp (SameGraph.setInOut (m.pushTransform e) e u e.target)
    have hsome := congrArg Option.isSome (hio.2.2.2.2.2 e)
    obtain ⟨g', j'⟩ := ih m₄ h
    rw [hsome] at h₄
    by_cases hj : (m.tree.transform e).joint.isSome = true
    · rw [if_pos hj] at h₄
      obtain ⟨g₄, j₄⟩ := hrec _ _ _ h₄
      have g₃ : SameGraph m m₄ := (hio.comp (SameGraph.of_tree_eq rfl rfl)).comp g₄
      refine ⟨g₃.comp g', ?_⟩
      have e1 : ∀ f, (m₄.tree.transform f).joint.isSome = (m.tree.transform f).joint.isSome :=
        fun f => congrArg Option.isSome (g₃.2.2.2.2.2 f)
      rw [j', j₄]
      simp only [List.flatMap_cons, e1, g₃.jointsFrom_eq, if_pos hj, pushJoint_joints,
        pushJoint_tree, setInOut_joints, pushTransform_joints, hio.jointsFrom_eq,
        List.append_assoc]
    · rw [if_neg hj] at h₄
      obtain ⟨g₄, j₄⟩ := hrec _ _ _ h₄
      have g₃ : SameGraph m m₄ := hio.comp g₄
      refine ⟨g₃.comp g', ?_⟩
      have e1 : ∀ f, (m₄.tree.transform f).joint.isSome = (m.tree.transform f).joint.isSome :=
        fun f => congrArg Option.isSome (g₃.2.2.2.2.2 f)
      rw [j', j₄]
      simp only [List.flatMap_cons, e1, g₃.jointsFrom_eq, if_neg hj, setInOut_joints,
        pushTransform_joints, hio.jointsFrom_eq, List.append_assoc, List.nil_append]

theorem updateVertex_spec [Zero α] [One α] (fuel : ℕ) (m : Model α) (u : Vertex)
    (m' : Model α) (h : updateVertex fuel m u = .ok m') :
    (SameGraph m m' ∧ m'.joints = m.joints ++ m.tree.jointsFrom fuel u) ∧
    ∃ dofPosition dof, m'.getDofPosition = .ok dofPosition ∧ m'.getDof = .ok dof ∧
      m'.gammaPosition = DynMatrix.Identity dofPosition dofPosition ∧
      m'.gammaVelocity = DynMatrix.Identity dof dof ∧
      m'.home = VectorZero dofPosition ∧
      m'.invGammaPosition = DynMatrix.Identity dofPosition dofPosition ∧
      m'.invGammaVelocity = DynMatrix.Identity dof dof := by
  induction fuel generalizing m u m' with
  | zero => simp [updateVertex] at h
  | succ fuel ih =>
    simp only [updateVertex] at h
    rw [bind_eq_ok] at h
    obtain ⟨frame, -, h⟩ := h
    rw [bind_eq_ok] at h
    obtain ⟨m₃, h₃, h⟩ := h
    rw [bind_eq_ok] at h
    obtain ⟨dofPosition, hdp, h⟩ := h
    rw [bind_eq_ok] at h
    obtain ⟨dof, hd, h⟩ := h
    simp only [Except.ok.injEq] at h
    subst h
    have key : SameGraph m m₃ ∧ m₃.joints = m.joints ++ m.tree.jointsFrom (fuel + 1) u := by
      have h₂ : ∀ m₂ : Model α, m₂.tree = m.tree → m₂.joints = m.joints → m₂.root = m.root →
          (if m₂.tree.out_degree u > 0 then
            updateOutEdges (updateVertex fuel) u (m₂.tree.out_edges u) m₂
          else .ok (m₂.pushLeaf u)) = .ok m₃ →
          SameGraph m m₃ ∧ m₃.joints = m.joints ++ m.tree.jointsFrom (fuel + 1) u := by
        intro m₂ ht hj hr h₃
        have g₂ : SameGraph m m₂ := SameGraph.of_tree_eq hr ht
        split at h₃
        · obtain ⟨g, j⟩ := updateOutEdges_spec (updateVertex fuel) fuel
            (fun a v a' ha => (ih a v a' ha).1) u _ m₂ m₃ h₃
          refine ⟨g₂.comp g, ?_⟩
          rw [j, hj, ht]
          rfl
        · rename_i hdeg
          simp only [Except.ok.injEq] at h₃
          subst h₃
          refine ⟨SameGraph.of_tree_eq (by simp [hr]) (by simp [ht]), ?_⟩
          have hnil : m.tree.out_edges u = [] := by
            rw [ht] at hdeg
            simpa [Tree.out_degree] using hdeg
          simp [hj, Tree.jointsFrom, hnil]
      split at h₃
      · exact h₂ ((m.pushFrame u).pushBody u) rfl rfl rfl h₃
      · exact h₂ (m.pushFrame u) rfl rfl rfl h₃
    refine ⟨⟨key.1.comp (SameGraph.of_tree_eq rfl rfl), by simpa using key.2⟩,
      dofPosition, dof, ?_, ?_, rfl, rfl, rfl, rfl, rfl⟩
    · rw [← hdp]; exact getDofPosition_congr rfl rfl
    · rw [← hd]; exact getDof_congr rfl rfl

theorem jointAt_of_valid (m : Model α) (e : Edge) (he : e ∈ m.tree.edges)
    (hj : (m.tree.transform e).joint.isSome = true) :
    ∃ j, m.jointAt e = .ok j ∧ (m.tree.transform e).joint = some j ∧
      j.getDof = m.dofAt e ∧ j.getDofPosition = m.dofPositionAt e := by
  obtain ⟨j, hj'⟩ := Option.isSome_iff_exists.mp hj
  refine ⟨j, (jointAt_eq_ok m e j).mpr ⟨he, hj'⟩, hj', ?_, ?_⟩
  · simp [dofAt, hj']
  · simp [dofPositionAt, hj']

theorem getDofLoop_eq (m : Model α) (es : List Edge) (d : ℕ)
    (h : ∀ e ∈ es, e ∈ m.tree.edges ∧ (m.tree.transform e).joint.isSome = true) :
    m.getDofLoop es d = .ok (d + (es.map m.dofAt).sum) := by
  induction es generalizing d with
  | nil => simp [getDofLoop]
  | cons e es ih =>
    obtain ⟨j, hj, -, hd, -⟩ := jointAt_of_valid m e (h e (List.mem_cons_self _ _)).1
      (h e (List.mem_cons_self _ _)).2
    simp only [getDofLoop, hj, ok_bind, List.map_cons, List.sum_cons]
    rw [ih _ (fun f hf => h f (List.mem_cons_of_mem _ hf)), hd, Nat.add_assoc]

theorem getDofPositionLoop_eq (m : Model α) (es : List Edge) (d : ℕ)
    (h : ∀ e ∈ es, e ∈ m.tree.edges ∧ (m.tree.transform e).joint.isSome = true) :
    m.getDofPositionLoop es d = .ok (d + (es.map m.dofPositionAt).sum) := by
  induction es generalizing d with
  | nil => simp [getDofPositionLoop]
  | cons e es ih =>
    obtain ⟨j, hj, -, -, hd⟩ := jointAt_of_valid m e (h e (List.mem_cons_self _ _)).1
      (h e (List.mem_cons_self _ _)).2
    simp only [getDofPositionLoop, hj, ok_bind, List.map_cons, List.sum_cons]
    rw [ih _ (fun f hf => h f (List.mem_cons_of_mem _ hf)), hd, Nat.add_assoc]

theorem JointsValid.getDof_eq {m : Model α} (h : JointsValid m) :
    m.getDof = .ok (m.joints.map m.dofAt).sum := by
  rw [getDof, getDofLoop_eq m _ _ h, Nat.zero_add]

theorem JointsValid.getDofPosition_eq {m : Model α} (h : JointsValid m) :
    m.getDofPosition = .ok (m.joints.map m.dofPositionAt).sum := by
  rw [getDofPosition, getDofPositionLoop_eq m _ _ h, Nat.zero_add]

theorem JointsValid.of_sameGraph {m m' : Model α} (h : JointsValid m) (hg : SameGraph m m')
    (hj : m'.joints = m.joints) : JointsValid m' := by
  intro e he
  rw [hj] at he
  rw [hg.2.2.1, hg.2.2.2.2.2 e]
  exact h e he

theorem JointsValid.append {m m' : Model α} (h : JointsValid m) (hg : SameGraph m m')
    (fuel : ℕ) (u : Vertex) (hj : m'.joints = m.joints ++ m.tree.jointsFrom fuel u) :
    JointsValid m' := by
  intro e he
  rw [hj, List.mem_append] at he
  rw [hg.2.2.1, hg.2.2.2.2.2 e]
  rcases he with he | he
  · exact h e he
  · exact ⟨(Tree.mem_jointsFrom fuel u e he).1, (Tree.mem_jointsFrom fuel u e he).2.1⟩

theorem JointsValid.pushJoint {m : Model α} (h : JointsValid m) (e : Edge)
    (he : e ∈ m.tree.edges) (hj : (m.tree.transform e).joint.isSome = true) :
    JointsValid (m.pushJoint e) := by
  intro f hf
  simp only [pushJoint_joints, List.mem_append, List.mem_singleton] at hf
  rcases hf with hf | hf
  · exact h f hf
  · subst hf; exact ⟨he, hj⟩

theorem updateVertex_valid [Zero α] [One α] {fuel : ℕ} {m m' : Model α} {u : Vertex}
    (hv : JointsValid m) (h : updateVertex fuel m u = .ok m') : JointsValid m' :=
  hv.append (updateVertex_spec fuel m u m' h).1.1 fuel u (updateVertex_spec fuel m u m' h).1.2

theorem updateOutEdges_ok [Zero α] [One α] (t : Tree α) (fuel : ℕ) (u : Vertex)
    (ih : ∀ (m : Model α) (e : Edge), e ∈ t.edges → e.source = u →
      m.tree.vertices = t.vertices → m.tree.edges = t.edges → JointsValid m →
      ∃ m', updateVertex fuel m e.target = .ok m')
    (es : List Edge) (m : Model α) (hV : m.tree.vertices = t.vertices)
    (hE : m.tree.edges = t.edges) (hes : ∀ e ∈ es, e ∈ t.edges ∧ e.source = u)
    (hv : JointsValid m) : ∃ m', updateOutEdges (updateVertex fuel) u es m = .ok m' := by
  induction es generalizing m with
  | nil => exact ⟨m, rfl⟩
  | cons e es ihes =>
    obtain ⟨he, hsrc⟩ := hes e (List.mem_cons_self _ _)
    have hio : SameGraph m ((m.pushTransform e).setInOut e u e.target) :=
      (SameGraph.of_tree_eq rfl rfl).comp (SameGraph.setInOut (m.pushTransform e) e u e.target)
    have hv₁ : JointsValid ((m.pushTransform e).setInOut e u e.target) :=
      hv.of_sameGraph hio rfl
    have step : ∀ m₂ : Model α, SameGraph m m₂ → JointsValid m₂ →
        ∃ m', (updateVertex fuel m₂ e.target >>= fun m₃ =>
          updateOutEdges (updateVertex fuel) u es m₃) = .ok m' := by
      intro m₂ g₂ v₂
      obtain ⟨m₃, h₃⟩ := ih m₂ e he hsrc (g₂.2.1.trans hV) (g₂.2.2.1.trans hE) v₂
      have g₃ := (updateVertex_spec fuel m₂ e.target m₃ h₃).1.1
      obtain ⟨m', h'⟩ := ihes m₃ (g₃.2.1.trans (g₂.2.1.trans hV))
        (g₃.2.2.1.trans (g₂.2.2.1.trans hE))
        (fun f hf => hes f (List.mem_cons_of_mem _ hf)) (updateVertex_valid v₂ h₃)
      exact ⟨m', by rw [h₃, ok_bind, h']⟩
    simp only [updateOutEdges]
    split
    · rename_i hj
      exact step (((m.pushTransform e).setInOut e u e.target).pushJoint e)
        (hio.comp (SameGraph.of_tree_eq rfl rfl))
        (hv₁.pushJoint e (by rw [hio.2.2.1, hE]; exact he) hj)
    · exact step ((m.pushTransform e).setInOut e u e.target) hio hv₁

theorem updateVertex_ok [Zero α] [One α] (t : Tree α) (root : Vertex) (ht : t.IsTree root)
    (fuel : ℕ) (m : Model α) (u : Vertex) (hV : m.tree.vertices = t.vertices)
    (hE : m.tree.edges = t.edges) (hu : t.Reachable root u)
    (path : List Vertex) (hnd : path.Nodup) (hsub : ∀ a ∈ path, a ∈ t.vertices)
    (hanc : ∀ a ∈ path, ∃ e ∈ t.edges, e.source = a ∧ t.Reachable e.target u)
    (hfuel : t.vertices.length + 1 ≤ fuel + path.length)
    (hv : JointsValid m) : ∃ m', updateVertex fuel m u = .ok m' := by
  have hmem₀ : u ∈ t.vertices := ht.mem_vertices hu
  have hnot : u ∉ path := by
    intro hin
    obtain ⟨e, he, hsrc, hr⟩ := hanc u hin
    exact ht.acyclic e he (hsrc ▸ hu) (hsrc ▸ hr)
  have hlen : (u :: path).length ≤ t.vertices.length :=
    ((List.nodup_cons.mpr ⟨hnot, hnd⟩).subperm (by
      intro a ha
      rcases List.mem_cons.mp ha with h | h
      · exact h ▸ hmem₀
      · exact hsub a h)).length_le
  induction fuel generalizing m u path with
  | zero =>
    simp only [List.length_cons] at hlen
    omega
  | succ fuel ih =>
    have hmem : u ∈ m.tree.vertices := hV ▸ hmem₀
    have hchild : ∀ (a : Model α) (e : Edge), e ∈ t.edges → e.source = u →
        a.tree.vertices = t.vertices → a.tree.edges = t.edges → JointsValid a →
        ∃ a', updateVertex fuel a e.target = .ok a' := by
      intro a e he hsrc aV aE av
      have hre : t.Reachable root e.source := hsrc ▸ hu
      have hrt : t.Reachable root e.target := Tree.Reachable.step e hre he
      have hanc' : ∀ b ∈ u :: path, ∃ f ∈ t.edges, f.source = b ∧
          t.Reachable f.target e.target := by
        intro b hb
        rcases List.mem_cons.mp hb with h | h
        · exact ⟨e, he, hsrc.trans h.symm, Tree.Reachable.refl⟩
        · obtain ⟨f, hf, hfs, hfr⟩ := hanc b h
          refine ⟨f, hf, hfs, Tree.Reachable.concat hfr ?_⟩
          have := Tree.Reachable.step e (Tree.Reachable.refl (t := t) (u := e.source)) he
          rw [hsrc] at this
          exact this
      have hsub' : ∀ b ∈ u :: path, b ∈ t.vertices := by
        intro b hb
        rcases List.mem_cons.mp hb with h | h
        · exact h ▸ hmem₀
        · exact hsub b h
      have hnot' : e.target ∉ u :: path := by
        intro hin
        obtain ⟨f, hf, hfs, hfr⟩ := hanc' _ hin
        have hrf : t.Reachable root f.source := hfs ▸ hrt
        exact ht.acyclic f hf hrf (hfs ▸ hfr)
      have hnd' : (u :: path).Nodup := List.nodup_cons.mpr ⟨hnot, hnd⟩
      have hlen' : (e.target :: u :: path).length ≤ t.vertices.length :=
        ((List.nodup_cons.mpr ⟨hnot', hnd'⟩).subperm (by
          intro b hb
          rcases List.mem_cons.mp hb with h | h
          · exact h ▸ ht.mem_vertices hrt
          · exact hsub' b h)).length_le
      exact ih a e.target aV aE hrt (u :: path) hnd' hsub' hanc'
        (by simp only [List.length_cons] at hfuel ⊢; omega) av (ht.mem_vertices hrt) hnot' hlen'
    have branch : ∀ m₂ : Model α, m₂.tree = m.tree → m₂.joints = m.joints →
        ∃ m₃, (if m₂.tree.out_degree u > 0 then
            updateOutEdges (updateVertex fuel) u (m₂.tree.out_edges u) m₂
          else .ok (m₂.pushLeaf u)) = .ok m₃ ∧ JointsValid m₃ := by
      intro m₂ ht₂ hj₂
      have hv₂ : JointsValid m₂ := by
        intro e he
        rw [ht₂]
        exact hv e (hj₂ ▸ he)
      split
      · have hes : ∀ e ∈ m₂.tree.out_edges u, e ∈ t.edges ∧ e.source = u := by
          intro e he
          rw [Tree.mem_out_edges, ht₂, hE] at he
          exact he
        obtain ⟨m₃, h₃⟩ := updateOutEdges_ok t fuel u hchild _ m₂
          (ht₂ ▸ hV) (ht₂ ▸ hE) hes hv₂
        obtain ⟨g, j⟩ := updateOutEdges_spec (updateVertex fuel) fuel
          (fun a v a' ha => (updateVertex_spec fuel a v a' ha).1) u _ m₂ m₃ h₃
        exact ⟨m₃, h₃, hv₂.append g (fuel + 1) u j⟩
      · exact ⟨_, rfl, hv₂.of_sameGraph (SameGraph.of_tree_eq rfl rfl) rfl⟩
    have fin : ∀ m₂ : Model α, m₂.tree = m.tree → m₂.joints = m.joints →
        ∃ m', ((if m₂.tree.out_degree u > 0 then
            updateOutEdges (updateVertex fuel) u (m₂.tree.out_edges u) m₂
          else .ok (m₂.pushLeaf u)) >>= fun m₃ => m₃.getDofPosition >>= fun dofPosition =>
            m₃.getDof >>= fun dof => .ok (m₃.resetGamma dofPosition dof)) = .ok m' := by
      intro m₂ ht₂ hj₂
      obtain ⟨m₃, h₃, hv₃⟩ := branch m₂ ht₂ hj₂
      rw [h₃, ok_bind, hv₃.getDofPosition_eq, ok_bind, hv₃.getDof_eq, ok_bind]
      exact ⟨_, rfl⟩
    simp only [updateVertex, Tree.frameAt, if_pos hmem, ok_bind]
    split
    · exact fin ((m.pushFrame u).pushBody u) rfl rfl
    · exact fin (m.pushFrame u) rfl rfl

theorem update_spec [Zero α] [One α] (fuel : ℕ) (m m' : Model α) (h : m.update fuel = .ok m') :
    SameGraph m m' ∧ m'.joints = m.tree.jointsFrom fuel m.root ∧ JointsValid m' ∧
    m'.gammaPosition = DynMatrix.Identity (m'.joints.map m'.dofPositionAt).sum
      (m'.joints.map m'.dofPositionAt).sum ∧
    m'.gammaVelocity = DynMatrix.Identity (m'.joints.map m'.dofAt).sum
      (m'.joints.map m'.dofAt).sum ∧
    m'.home = VectorZero (m'.joints.map m'.dofPositionAt).sum ∧
    m'.invGammaPosition = DynMatrix.Identity (m'.joints.map m'.dofPositionAt).sum
      (m'.joints.map m'.dofPositionAt).sum ∧
    m'.invGammaVelocity = DynMatrix.Identity (m'.joints.map m'.dofAt).sum
      (m'.joints.map m'.dofAt).sum := by
  unfold update at h
  obtain ⟨⟨g, j⟩, dp, d, hdp, hd, h1, h2, h3, h4, h5⟩ := updateVertex_spec fuel _ _ _ h
  have hv0 : JointsValid m.clear := by intro e he; simp at he
  have hv : JointsValid m' := updateVertex_valid hv0 h
  rw [hv.getDofPosition_eq] at hdp
  rw [hv.getDof_eq] at hd
  simp only [Except.ok.injEq] at hdp hd
  subst hdp hd
  exact ⟨(SameGraph.of_tree_eq rfl rfl).comp g, by simpa using j, hv, h1, h2, h3, h4, h5⟩

theorem update_ok [Zero α] [One α] (m : Model α) (ht : m.tree.IsTree m.root) :
    ∃ m', m.update (m.tree.vertices.length + 1) = .ok m' :=
  updateVertex_ok m.tree m.root ht (m.tree.vertices.length + 1) m.clear m.root
    rfl rfl Tree.Reachable.refl [] List.nodup_nil (fun _ h => absurd h (List.not_mem_nil _))
    (fun _ h => absurd h (List.not_mem_nil _)) (by simp) (by intro e he; simp at he)

theorem exampleArm_isTree : exampleArm.tree.IsTree exampleArm.root := by
  have hE : exampleArm.tree.edges = [⟨1, 2, 3⟩] := rfl
  have hV : exampleArm.tree.vertices = [1, 2] := rfl
  have hR : exampleArm.root = 1 := rfl
  have hreach : ∀ v, exampleArm.tree.Reachable 2 v → v = 2 := by
    intro v hv
    induction hv with
    | refl => rfl
    | step e _ he ih =>
      rw [hE, List.mem_singleton] at he
      subst he
      exact absurd ih (by decide)
  refine ⟨by rw [hV, hR]; decide, ?_, by rw [hE]; decide, ?_, ?_⟩
  · intro e he _
    rw [hE, List.mem_singleton] at he
    subst he
    rw [hV]; decide
  · intro e he _ hcycle
    rw [hE, List.mem_singleton] at he
    subst he
    exact absurd (hreach _ hcycle) (by decide)
  · intro e₁ h₁ e₂ h₂ _ _ _
    rw [hE, List.mem_singleton] at h₁ h₂
    rw [h₁, h₂]

@[simp] theorem setJoint_joints (m : Model α) (e : Edge) (j : Joint α) :
    (m.setJoint e j).joints = m.joints := rfl

@[simp] theorem setJoint_edges (m : Model α) (e : Edge) (j : Joint α) :
    (m.setJoint e j).tree.edges = m.tree.edges := rfl

@[simp] theorem setJoint_invGammaPosition (m : Model α) (e : Edge) (j : Joint α) :
    (m.setJoint e j).invGammaPosition = m.invGammaPosition := rfl

theorem setJoint_transform_self (m : Model α) (e : Edge) (j : Joint α) :
    ((m.setJoint e j).tree.transform e).joint = some j := by
  simp [setJoint]

theorem setJoint_transform_of_ne (m : Model α) (e f : Edge) (j : Joint α) (h : f ≠ e) :
    (m.setJoint e j).tree.transform f = m.tree.transform f := by
  simp [setJoint, Function.update_noteq h]

theorem setPositionLoop_spec (q : List α) (es : List Edge) (m : Model α) (j : ℕ)
    (hnd : es.Nodup)
    (hv : ∀ e ∈ es, e ∈ m.tree.edges ∧ (m.tree.transform e).joint.isSome = true)
    (hq : j + (es.map m.dofPositionAt).sum ≤ q.length) :
    ∃ m'', setPositionLoop q es j m = .ok m'' ∧
      m''.joints = m.joints ∧ m''.invGammaPosition = m.invGammaPosition ∧
      m''.tree.edges = m.tree.edges ∧
      (∀ e, m''.dofPositionAt e = m.dofPositionAt e) ∧
      (∀ e, (m''.tree.transform e).joint.isSome = (m.tree.transform e).joint.isSome) ∧
      (∀ e, e ∉ es → m''.tree.transform e = m.tree.transform e) ∧
      (∀ b : List α, b.length = q.length →
        m''.getPositionLoop es j b
          = .ok (b.take j ++ (q.drop j).take (es.map m.dofPositionAt).sum
              ++ b.drop (j + (es.map m.dofPositionAt).sum))) ∧
      ∀ pre e post, es = pre ++ e :: post →
        ∃ jt, m''.jointAt e = .ok jt ∧
          jt.getPosition = (q.drop (j + (pre.map m.dofPositionAt).sum)).take (m.dofPositionAt e) := by
  induction es generalizing m j with
  | nil =>
    refine ⟨m, rfl, rfl, rfl, rfl, fun _ => rfl, fun _ => rfl, fun _ _ => rfl, ?_, ?_⟩
    · intro b _
      simp [getPositionLoop]
    · intro pre e post h
      simp at h
  | cons e es ih =>
    obtain ⟨he, hsome⟩ := hv e (List.mem_cons_self _ _)
    obtain ⟨jt, hjt, hjt', -, hn⟩ := jointAt_of_valid m e he hsome
    rw [List.nodup_cons] at hnd
    obtain ⟨hnot, hnd'⟩ := hnd
    simp only [List.map_cons, List.sum_cons] at hq ⊢
    have hseg : rl.math.segment q j (m.dofPositionAt e)
        = .ok ((q.drop j).take (m.dofPositionAt e)) := by
      simp only [rl.math.segment]
      rw [if_pos (by omega)]
    have hdp : ∀ f, (m.setJoint e (jt.setPosition ((q.drop j).take (m.dofPositionAt e)))).dofPositionAt f
        = m.dofPositionAt f := by
      intro f
      by_cases hf : f = e
      · subst hf
        simp only [dofPositionAt, setJoint_transform_self, hjt']
        rfl
      · simp only [dofPositionAt, setJoint_transform_of_ne m e f _ hf]
    have hs : ∀ f, ((m.setJoint e (jt.setPosition
        ((q.drop j).take (m.dofPositionAt e)))).tree.transform f).joint.isSome
        = (m.tree.transform f).joint.isSome := by
      intro f
      by_cases hf : f = e
      · subst hf
        rw [setJoint_transform_self, hsome]
        rfl
      · rw [setJoint_transform_of_ne m e f _ hf]
    have hmap : es.map (m.setJoint e (jt.setPosition
        ((q.drop j).take (m.dofPositionAt e)))).dofPositionAt = es.map m.dofPositionAt :=
      List.map_congr_left (fun f _ => hdp f)
    obtain ⟨m'', h₁, h₂, h₃, h₄, h₅, h₆, h₇, h₈, h₉⟩ := ih
      (m.setJoint e (jt.setPosition ((q.drop j).take (m.dofPositionAt e))))
      (j + m.dofPositionAt e) hnd'
      (fun f hf => by
        rw [setJoint_edges, hs f]
        exact hv f (List.mem_cons_of_mem _ hf))
      (by rw [hmap]; omega)
    rw [hmap] at h₈
    have hje : m''.jointAt e
        = .ok (jt.setPosition ((q.drop j).take (m.dofPositionAt e))) := by
      rw [jointAt_eq_ok, h₄, h₇ e hnot]
      exact ⟨he, setJoint_transform_self m e _⟩
    refine ⟨m'', ?_, h₂, h₃, h₄, fun f => (h₅ f).trans (hdp f), fun f => (h₆ f).trans (hs f),
      ?_, ?_, ?_⟩
    · simp only [setPositionLoop, hjt, ok_bind, hn, hseg]
      exact h₁
    · intro f hf
      rw [List.mem_cons, not_or] at hf
      rw [h₇ f hf.2, setJoint_transform_of_ne m e f _ hf.1]
    · intro b hb
      have hlen : ((q.drop j).take (m.dofPositionAt e)).length = m.dofPositionAt e := by
        rw [List.length_take, List.length_drop]
        omega
      have hset : setSegment b j (m.dofPositionAt e) ((q.drop j).take (m.dofPositionAt e))
          = .ok (b.take j ++ (q.drop j).take (m.dofPositionAt e)
              ++ b.drop (j + m.dofPositionAt e)) := by
        simp only [setSegment]
        rw [if_pos ⟨by omega, hlen⟩]
      have hgd : (jt.setPosition ((q.drop j).take (m.dofPositionAt e))).getDofPosition
          = m.dofPositionAt e := hn
      have hgp : (jt.setPosition ((q.drop j).take (m.dofPositionAt e))).getPosition
          = (q.drop j).take (m.dofPositionAt e) := rfl
      simp only [getPositionLoop, hje, ok_bind, hgd, hgp, hset]
      rw [h₈ _ (by
        simp only [List.length_append, List.length_take, List.length_drop]
        omega)]
      rw [splice_segments b q j _ _ hb (by omega)]
    · intro pre f post hsplit
      cases pre with
      | nil =>
        simp only [List.nil_append, List.cons.injEq] at hsplit
        obtain ⟨hfe, -⟩ := hsplit
        subst hfe
        exact ⟨_, hje, by simp [Joint.getPosition, Joint.setPosition]⟩
      | cons p pre =>
        simp only [List.cons_append, List.cons.injEq] at hsplit
        obtain ⟨hpe, hrest⟩ := hsplit
        subst hpe
        obtain ⟨jf, hjf, hqf⟩ := h₉ pre f post hrest
        refine ⟨jf, hjf, ?_⟩
        rw [hqf, hdp f, List.map_congr_left (fun g _ => hdp g)]
        simp only [List.map_cons, List.sum_cons, Nat.add_assoc]

/-- C2: on a model whose graph is a tree, `update()` returns, and right after
it, for every vector `y` with `getDofPosition()` components, `setPosition(y)`
returns and a following `getPosition()` returns exactly `y`; each joint holds
the slice of `y` that starts at the sum of the position dimensions of the joints
before it and has the length of its own position dimension. -/
theorem setPosition_getPosition [Semiring α] (m : Model α) (ht : m.tree.IsTree m.root) :
    (∃ fuel m', m.update fuel = .ok m') ∧
    ∀ fuel m' n (y : List α), m.update fuel = .ok m' → m'.getDofPosition = .ok n →
      y.length = n →
      ∃ m'', m'.setPosition y = .ok m'' ∧ m''.getPosition = .ok y ∧
        ∀ pre e post, m'.joints = pre ++ e :: post →
          ∃ jt, m''.jointAt e = .ok jt ∧ jt.getDofPosition = m'.dofPositionAt e ∧
            jt.getPosition
              = (y.drop (pre.map m'.dofPositionAt).sum).take (m'.dofPositionAt e) := by
  refine ⟨⟨_, update_ok m ht⟩, ?_⟩
  intro fuel m' n y h hn hy
  obtain ⟨-, hj, hv, h1, -, -, h4, -⟩ := update_spec fuel m m' h
  rw [hv.getDofPosition_eq] at hn
  simp only [Except.ok.injEq] at hn
  have hnd : m'.joints.Nodup := hj ▸ ht.nodup_jointsFrom fuel m.root Tree.Reachable.refl
  obtain ⟨m'', h₁, h₂, h₃, h₄, h₅, h₆, -, h₈, h₉⟩ :=
    setPositionLoop_spec y m'.joints m' 0 hnd hv (by omega)
  have hv'' : JointsValid m'' := by
    intro e he
    rw [h₂] at he
    rw [h₄, h₆ e]
    exact hv e he
  have hsum : (m'.joints.map m''.dofPositionAt).sum = n := by
    rw [List.map_congr_left (fun e _ => h₅ e), hn]
  refine ⟨m'', ?_, ?_, ?_⟩
  · simp only [setPosition, h1, hn, DynMatrix.mulVec_Identity n y hy, ok_bind]
    exact h₁
  · have hb := h₈ (VectorZero n) (by simp [VectorZero, hy])
    simp only [Nat.zero_add, List.take_zero, List.nil_append, List.drop_zero, hn] at hb
    rw [List.take_of_length_le (by omega), List.drop_of_length_le (by simp [VectorZero]),
      List.append_nil] at hb
    simp only [getPosition, hv''.getDofPosition_eq, h₂, hsum, ok_bind, hb, h₃, h4, hn]
    exact DynMatrix.mulVec_Identity n y hy
  · intro pre e post hsplit
    obtain ⟨jt, hjt, hq⟩ := h₉ pre e post hsplit
    refine ⟨jt, hjt, ?_, by simpa using hq⟩
    have hmem : e ∈ m''.joints := by rw [h₂, hsplit]; simp
    obtain ⟨jt', hjt', -, -, hdp⟩ := jointAt_of_valid m'' e (hv'' e hmem).1 (hv'' e hmem).2
    rw [hjt] at hjt'
    injection hjt' with hjt'
    subst hjt'
    rw [hdp, h₅ e]

theorem setPosition_getPosition_witness :
    exampleArm.tree.IsTree exampleArm.root ∧
    (∃ fuel m', exampleArm.update fuel = .ok m') ∧
    ∀ fuel m' n (y : List ℚ), exampleArm.update fuel = .ok m' → m'.getDofPosition = .ok n →
      y.length = n →
      ∃ m'', m'.setPosition y = .ok m'' ∧ m''.getPosition = .ok y ∧
        ∀ pre e post, m'.joints = pre ++ e :: post →
          ∃ jt, m''.jointAt e = .ok jt ∧ jt.getDofPosition = m'.dofPositionAt e ∧
            jt.getPosition
              = (y.drop (pre.map m'.dofPositionAt).sum).take (m'.dofPositionAt e) :=
  ⟨exampleArm_isTree, setPosition_getPosition exampleArm exampleArm_isTree⟩

theorem exists_joints (m : Model α) (es : List Edge)
    (h : ∀ e ∈ es, e ∈ m.tree.edges ∧ (m.tree.transform e).joint.isSome = true) :
    ∃ js : List (Joint α), List.Forall₂ (fun e j => m.jointAt e = .ok j) es js ∧
      js.map Joint.getDof = es.map m.dofAt ∧
      js.map Joint.getDofPosition = es.map m.dofPositionAt := by
  induction es with
  | nil => exact ⟨[], List.Forall₂.nil, rfl, rfl⟩
  | cons e es ih =>
    obtain ⟨js, h₁, h₂, h₃⟩ := ih (fun f hf => h f (List.mem_cons_of_mem _ hf))
    obtain ⟨j, hj, -, hd, hdp⟩ := jointAt_of_valid m e (h e (List.mem_cons_self _ _)).1
      (h e (List.mem_cons_self _ _)).2
    exact ⟨j :: js, List.Forall₂.cons hj h₁, by simp [h₂, hd], by simp [h₃, hdp]⟩

theorem getPositionLoop_length (m : Model α) (es : List Edge) (j : ℕ) (b : List α)
    (h : ∀ e ∈ es, e ∈ m.tree.edges ∧
      ∃ jt, (m.tree.transform e).joint = some jt ∧ jt.q.length = jt.dofPosition)
    (hb : j + (es.map m.dofPositionAt).sum ≤ b.length) :
    ∃ b', m.getPositionLoop es j b = .ok b' ∧ b'.length = b.length := by
  induction es generalizing j b with
  | nil => exact ⟨b, rfl, rfl⟩
  | cons e es ih =>
    obtain ⟨he, jt, hjt, hq⟩ := h e (List.mem_cons_self _ _)
    have hj : m.jointAt e = .ok jt := (jointAt_eq_ok m e jt).mpr ⟨he, hjt⟩
    have hn : m.dofPositionAt e = jt.dofPosition := by simp [dofPositionAt, hjt, Joint.getDofPosition]
    simp only [List.map_cons, List.sum_cons, hn] at hb
    have hseg : setSegment b j jt.getDofPosition jt.getPosition
        = .ok (b.take j ++ jt.q ++ b.drop (j + jt.dofPosition)) := by
      simp only [setSegment, Joint.getDofPosition, Joint.getPosition]
      rw [if_pos ⟨by omega, hq⟩]
    have hlen : (b.take j ++ jt.q ++ b.drop (j + jt.dofPosition)).length = b.length := by
      simp only [List.length_append, List.length_take, List.length_drop, hq]
      omega
    obtain ⟨b', h₁, h₂⟩ := ih (j + jt.dofPosition)
      (b.take j ++ jt.q ++ b.drop (j + jt.dofPosition))
      (fun f hf => h f (List.mem_cons_of_mem _ hf)) (by rw [hlen]; omega)
    refine ⟨b', ?_, h₂.trans hlen⟩
    simp only [getPositionLoop, hj, ok_bind, hseg]
    exact h₁

/-- C4: on a model whose graph is a tree and whose joints hold position vectors
of their position dimension, `update()` returns, and after it, with `js` the
joints that the pointers of `joints` point to, in traversal order, `getDof()` is
the sum of their `dof`, `getDofPosition()` the sum of their `dofPosition`, and
`getPosition()` returns a vector with `getDofPosition()` components. -/
theorem update_dof_accounting [Semiring α] (m : Model α) (ht : m.tree.IsTree m.root)
    (hq : ∀ e ∈ m.tree.edges, ∀ j, (m.tree.transform e).joint = some j →
      j.q.length = j.dofPosition) :
    (∃ fuel m', m.update fuel = .ok m') ∧
    ∀ fuel m', m.update fuel = .ok m' →
      ∃ js : List (Joint α), List.Forall₂ (fun e j => m'.jointAt e = .ok j) m'.joints js ∧
        m'.getDof = .ok (js.map Joint.getDof).sum ∧
        m'.getDofPosition = .ok (js.map Joint.getDofPosition).sum ∧
        ∃ q, m'.getPosition = .ok q ∧ q.length = (js.map Joint.getDofPosition).sum := by
  refine ⟨⟨_, update_ok m ht⟩, ?_⟩
  intro fuel m' h
  obtain ⟨g, -, hv, -, -, -, h4, -⟩ := update_spec fuel m m' h
  obtain ⟨js, hjs, hd, hdp⟩ := exists_joints m' m'.joints hv
  refine ⟨js, hjs, by rw [hd]; exact hv.getDof_eq, by rw [hdp]; exact hv.getDofPosition_eq, ?_⟩
  have hq' : ∀ e ∈ m'.joints, e ∈ m'.tree.edges ∧
      ∃ jt, (m'.tree.transform e).joint = some jt ∧ jt.q.length = jt.dofPosition := by
    intro e he
    obtain ⟨he', hs⟩ := hv e he
    obtain ⟨jt, hjt⟩ := Option.isSome_iff_exists.mp hs
    refine ⟨he', jt, hjt, hq e (g.2.2.1 ▸ he') jt ?_⟩
    rw [← g.2.2.2.2.2 e]; exact hjt
  obtain ⟨b', hb', hlen⟩ := getPositionLoop_length m' m'.joints 0
    (VectorZero (m'.joints.map m'.dofPositionAt).sum) hq' (by simp [VectorZero])
  have hlen' : b'.length = (m'.joints.map m'.dofPositionAt).sum := by
    rw [hlen]; simp [VectorZero]
  refine ⟨b', ?_, by rw [hdp]; exact hlen'⟩
  simp only [getPosition, hv.getDofPosition_eq, ok_bind, hb', h4]
  exact DynMatrix.mulVec_Identity _ _ hlen'

theorem update_dof_accounting_witness :
    exampleArm.tree.IsTree exampleArm.root ∧
    (∀ e ∈ exampleArm.tree.edges, ∀ j, (exampleArm.tree.transform e).joint = some j →
      j.q.length = j.dofPosition) ∧
    (∃ fuel m', exampleArm.update fuel = .ok m') ∧
    ∀ fuel m', exampleArm.update fuel = .ok m' →
      ∃ js : List (Joint ℚ), List.Forall₂ (fun e j => m'.jointAt e = .ok j) m'.joints js ∧
        m'.getDof = .ok (js.map Joint.getDof).sum ∧
        m'.getDofPosition = .ok (js.map Joint.getDofPosition).sum ∧
        ∃ q, m'.getPosition = .ok q ∧ q.length = (js.map Joint.getDofPosition).sum :=
  have hq : ∀ e ∈ exampleArm.tree.edges, ∀ j, (exampleArm.tree.transform e).joint = some j →
      j.q.length = j.dofPosition := by
    intro e he j hj
    have hE : exampleArm.tree.edges = [⟨1, 2, 3⟩] := rfl
    rw [hE, List.mem_singleton] at he
    subst he
    have hT : (exampleArm.tree.transform ⟨1, 2, 3⟩).joint = some ⟨1, 1, [0], [0], [0], [0]⟩ :=
      rfl
    rw [hT] at hj
    injection hj with hj
    subst hj
    rfl
  ⟨exampleArm_isTree, hq, update_dof_accounting exampleArm exampleArm_isTree hq⟩

@[simp] theorem pushFrame_frames (m : Model α) (u : Vertex) :
    (m.pushFrame u).frames = m.frames ++ [u] := rfl

@[simp] theorem pushBody_frames (m : Model α) (u : Vertex) : (m.pushBody u).frames = m.frames := rfl

@[simp] theorem pushTransform_frames (m : Model α) (e : Edge) :
    (m.pushTransform e).frames = m.frames := rfl

@[simp] theorem pushJoint_frames (m : Model α) (e : Edge) : (m.pushJoint e).frames = m.frames := rfl

@[simp] theorem pushLeaf_frames (m : Model α) (u : Vertex) : (m.pushLeaf u).frames = m.frames := rfl

@[simp] theorem setInOut_frames (m : Model α) (e : Edge) (u v : Vertex) :
    (m.setInOut e u v).frames = m.frames := rfl

@[simp] theorem clear_frames (m : Model α) : m.clear.frames = m.frames := rfl

@[simp] theorem resetGamma_frames [Zero α] [One α] (m : Model α) (a b : ℕ) :
    (m.resetGamma a b).frames = m.frames := rfl

theorem updateOutEdges_frames (recurse : Model α → Vertex → Except Error (Model α))
    (hrec : ∀ m v m', recurse m v = .ok m' → ∃ F, m'.frames = m.frames ++ F)
    (u : Vertex) (es : List Edge) (m m' : Model α)
    (h : updateOutEdges recurse u es m = .ok m') : ∃ F, m'.frames = m.frames ++ F := by
  induction es generalizing m with
  | nil =>
    simp only [updateOutEdges, Except.ok.injEq] at h
    subst h
    exact ⟨[], by simp⟩
  | cons e es ih =>
    simp only [updateOutEdges] at h
    rw [bind_eq_ok] at h
    obtain ⟨m₃, h₃, h⟩ := h
    obtain ⟨F', hF'⟩ := ih m₃ h
    obtain ⟨F, hF⟩ := hrec _ _ _ h₃
    refine ⟨F ++ F', ?_⟩
    rw [hF', hF]
    split <;> simp

theorem updateVertex_frames [Zero α] [One α] (fuel : ℕ) (m : Model α) (u : Vertex)
    (m' : Model α) (h : updateVertex fuel m u = .ok m') :
    ∃ F, m'.frames = m.frames ++ u :: F := by
  induction fuel generalizing m u m' with
  | zero => simp [updateVertex] at h
  | succ fuel ih =>
    simp only [updateVertex] at h
    rw [bind_eq_ok] at h
    obtain ⟨frame, -, h⟩ := h
    rw [bind_eq_ok] at h
    obtain ⟨m₃, h₃, h⟩ := h
    rw [bind_eq_ok] at h
    obtain ⟨dofPosition, -, h⟩ := h
    rw [bind_eq_ok] at h
    obtain ⟨dof, -, h⟩ := h
    simp only [Except.ok.injEq] at h
    subst h
    have h₂ : ∀ m₂ : Model α, m₂.frames = m.frames ++ [u] →
        (if m₂.tree.out_degree u > 0 then
          updateOutEdges (updateVertex fuel) u (m₂.tree.out_edges u) m₂
        else .ok (m₂.pushLeaf u)) = .ok m₃ → ∃ F, m₃.frames = m.frames ++ u :: F := by
      intro m₂ hf h₃
      split at h₃
      · obtain ⟨F, hF⟩ := updateOutEdges_frames (updateVertex fuel)
          (fun a v a' ha => by
            obtain ⟨F, hF⟩ := ih a v a' ha
            exact ⟨v :: F, hF⟩) u _ m₂ m₃ h₃
        exact ⟨F, by rw [hF, hf]; simp⟩
      · simp only [Except.ok.injEq] at h₃
        subst h₃
        exact ⟨[], by simp [hf]⟩
    simp only [resetGamma_frames]
    split at h₃
    · exact h₂ ((m.pushFrame u).pushBody u) rfl h₃
    · exact h₂ (m.pushFrame u) rfl h₃

theorem update_frames_grow [Zero α] [One α] (fuel : ℕ) (m m' : Model α)
    (h : m.update fuel = .ok m') :
    (∃ F, m'.frames = m.frames ++ m.root :: F) ∧ m.getFrames < m'.getFrames := by
  obtain ⟨F, hF⟩ := updateVertex_frames fuel _ _ _ h
  simp only [clear_frames, clear_root] at hF
  refine ⟨⟨F, hF⟩, ?_⟩
  simp only [getFrames, hF, List.length_append, List.length_cons]
  omega

/-- C1 (failing input): on `exampleArm`, whose graph is a tree, a second
`update()` on the unchanged graph rebuilds `elements`, `bodies`, `joints`,
`transforms`, `leaves` and `tools` to the same values, but `frames`, which
`update()` does not clear, doubles from `[1, 2]` to `[1, 2, 1, 2]`, so
`getFrames()` is `2` after the first call and `4` after the second.  In every
state a returning `update()` makes `getFrames()` strictly larger. -/
theorem update_twice_frames :
    exampleArm.tree.IsTree exampleArm.root ∧
    (exampleArm.update 2 >>= fun m₁ => m₁.update 2 >>= fun m₂ =>
      .ok (m₁.frames, m₂.frames, m₁.getFrames, m₂.getFrames))
        = .ok ([1, 2], [1, 2, 1, 2], 2, 4) ∧
    (exampleArm.update 2 >>= fun m₁ => m₁.update 2 >>= fun m₂ =>
      .ok (decide (m₂.elements = m₁.elements ∧ m₂.bodies = m₁.bodies ∧ m₂.joints = m₁.joints ∧
        m₂.transforms = m₁.transforms ∧ m₂.leaves = m₁.leaves ∧ m₂.tools = m₁.tools ∧
        m₂.tree.vertices = m₁.tree.vertices ∧ m₂.tree.edges = m₁.tree.edges)))
        = .ok true ∧
    ∀ (fuel : ℕ) (m₁ m₂ : Model ℚ), m₁.update fuel = .ok m₂ → m₁.getFrames < m₂.getFrames :=
  ⟨exampleArm_isTree, rfl, rfl, fun fuel m₁ m₂ h => (update_frames_grow fuel m₁ m₂ h).2⟩

theorem exampleRootOnly_isTree : exampleRootOnly.tree.IsTree exampleRootOnly.root := by
  have hE : exampleRootOnly.tree.edges = [⟨3, 1, 5⟩] := rfl
  have hV : exampleRootOnly.tree.vertices = [1, 2, 3] := rfl
  have hR : exampleRootOnly.root = 1 := rfl
  have hreach : ∀ v, exampleRootOnly.tree.Reachable 1 v → v = 1 := by
    intro v hv
    induction hv with
    | refl => rfl
    | step e _ he ih =>
      rw [hE, List.mem_singleton] at he
      subst he
      exact absurd ih (by decide)
  have hno : ∀ e ∈ exampleRootOnly.tree.edges,
      ¬ exampleRootOnly.tree.Reachable exampleRootOnly.root e.source := by
    intro e he hr
    rw [hE, List.mem_singleton] at he
    subst he
    exact absurd (hreach _ (hR ▸ hr)) (by decide)
  refine ⟨by rw [hV, hR]; decide, fun e he hr => absurd hr (hno e he), by rw [hE]; decide,
    fun e he hr => absurd hr (hno e he), ?_⟩
  intro e₁ h₁ e₂ h₂ _ _ _
  rw [hE, List.mem_singleton] at h₁ h₂
  rw [h₁, h₂]

/-- C10 (counterexample): `exampleRootOnly` satisfies the structural invariant
and its World has no outgoing edge left, yet after `update()` the sequence
`tools` holds the edge from the Frame to the World, so `tools` is not empty. -/
theorem update_root_only_tools_nonempty :
    exampleRootOnly.tree.IsTree exampleRootOnly.root ∧
    (exampleRootOnly.tree.frame exampleRootOnly.root).kind = .World ∧
    exampleRootOnly.tree.out_edges exampleRootOnly.root = [] ∧
    (exampleRootOnly.update 1 >>= fun m' => .ok (m'.leaves, m'.tools))
      = .ok ([1], [⟨3, 1, 5⟩]) ∧
    (exampleRootOnly.update 1 >>= fun m' => .ok (decide (m'.tools = []))) = .ok false :=
  ⟨exampleRootOnly_isTree, rfl, rfl, rfl, rfl⟩

/-- C10 (amended): when the root is a World frame of the graph without outgoing
edges, `update()` returns with `leaves = [root]` (so `getOperationalDof() = 1`),
with `joints`, `transforms` and `bodies` empty (so `getDof() = 0`), and with
`tools` the list of the incoming edges of the root. -/
theorem update_root_only [Zero α] [One α] (m : Model α) (fuel : ℕ)
    (hroot : m.root ∈ m.tree.vertices) (hworld : (m.tree.frame m.root).kind = .World)
    (hout : m.tree.out_edges m.root = []) :
    ∃ m', m.update (fuel + 1) = .ok m' ∧ m'.leaves = [m.root] ∧ m'.getOperationalDof = 1 ∧
      m'.joints = [] ∧ m'.transforms = [] ∧ m'.bodies = [] ∧ m'.getDof = .ok 0 ∧
      m'.tools = m.tree.in_edges m.root := by
  have hdeg : ¬ m.tree.out_degree m.root > 0 := by simp [Tree.out_degree, hout]
  have hkind : ¬ (m.tree.frame m.root).kind = .Body := by rw [hworld]; decide
  refine ⟨((m.clear.pushFrame m.root).pushLeaf m.root).resetGamma 0 0, ?_, rfl, rfl, rfl, rfl,
    rfl, rfl, rfl⟩
  simp only [update, updateVertex, Tree.frameAt, clear_tree, if_pos hroot, ok_bind, if_neg hkind,
    pushFrame_tree, if_neg hdeg]
  rfl

theorem update_root_only_witness :
    exampleRootOnly.root ∈ exampleRootOnly.tree.vertices ∧
    (exampleRootOnly.tree.frame exampleRootOnly.root).kind = .World ∧
    exampleRootOnly.tree.out_edges exampleRootOnly.root = [] ∧
    ∃ m', exampleRootOnly.update (0 + 1) = .ok m' ∧ m'.leaves = [exampleRootOnly.root] ∧
      m'.getOperationalDof = 1 ∧ m'.joints = [] ∧ m'.transforms = [] ∧ m'.bodies = [] ∧
      m'.getDof = .ok 0 ∧ m'.tools = exampleRootOnly.tree.in_edges exampleRootOnly.root :=
  have h₁ : exampleRootOnly.root ∈ exampleRootOnly.tree.vertices := by decide
  ⟨h₁, rfl, rfl, update_root_only exampleRootOnly 0 h₁ rfl rfl⟩

theorem DynMatrix_Identity_eq_one [Zero α] [One α] (n : ℕ) :
    (DynMatrix.Identity n n : DynMatrix α) = ⟨n, n, 1⟩ := by
  simp only [DynMatrix.Identity, DynMatrix.mk.injEq, heq_eq_eq, true_and]
  ext i j
  simp [Matrix.one_apply, Fin.ext_iff]

theorem exampleSVD_isDecomposition (σ : ℚ) :
    (exampleSVD σ ⟨1, 1, !![σ]⟩).IsDecomposition !![σ] := by
  have hsum : ∀ f : Fin (min 1 1) → ℚ, ∑ x, f x = f ⟨0, by decide⟩ :=
    fun f => Fin.sum_univ_one f
  refine ⟨?_, ?_, ?_, ?_, ?_⟩ <;>
  · ext i j
    fin_cases i
    fin_cases j
    simp [exampleSVD, Matrix.mul_apply, hsum]

/-- C9 (counterexample): the invertible 1 × 1 matrix `G = (2⁻⁵³)` has the
singular value decomposition `1 · (2⁻⁵³) · 1`; its singular value does not
exceed the machine epsilon `2⁻⁵²`, so `setGammaPosition(G)` stores the zero
matrix as inverse, and `getGammaPositionInverse() · G` has coefficient `0` where
the identity has `1`. -/
theorem setGammaPosition_inverse_small :
    (!![(1 / 2 ^ 53 : ℚ)] : Matrix (Fin 1) (Fin 1) ℚ).det ≠ 0 ∧
    (exampleSVD (1 / 2 ^ 53) ⟨1, 1, !![1 / 2 ^ 53]⟩).IsDecomposition !![1 / 2 ^ 53] ∧
    ((Model.empty.setGammaPosition (exampleSVD (1 / 2 ^ 53)) (1 / 2 ^ 52)
        ⟨1, 1, !![1 / 2 ^ 53]⟩).getGammaPositionInverse.mul ⟨1, 1, !![1 / 2 ^ 53]⟩
      >>= fun P => P.coeffAt 0 0) = .ok 0 ∧
    (DynMatrix.Identity 1 1 : DynMatrix ℚ).coeffAt 0 0 = .ok 1 := by
  have hsum : ∀ f : Fin (min 1 1) → ℚ, ∑ x, f x = f ⟨0, by decide⟩ :=
    fun f => Fin.sum_univ_one f
  refine ⟨by simp, exampleSVD_isDecomposition _, ?_, ?_⟩
  · simp [setGammaPosition, getGammaPositionInverse, DynMatrix.mul, DynMatrix.coeffAt,
      exampleSVD, Matrix.mul_apply, bind, Except.bind, hsum]
    norm_num
  · simp [DynMatrix.Identity, DynMatrix.coeffAt]

theorem JacobiSVD.pinv_mul [LinearOrderedField α] {n : ℕ} (svd : JacobiSVD α n n)
    (G : Matrix (Fin n) (Fin n) α) (epsilon : α) (hε : 0 ≤ epsilon)
    (hsvd : svd.IsDecomposition G) (hσ : ∀ i, svd.singularValues i > epsilon) :
    svd.matrixV
        * Matrix.diagonal (fun i => if svd.singularValues i > epsilon
            then 1 / svd.singularValues i else 0)
        * svd.matrixU.transpose * G = 1 := by
  obtain ⟨hG, hU, -, -, hV⟩ := hsvd
  have hD : Matrix.diagonal (fun i => if svd.singularValues i > epsilon
        then 1 / svd.singularValues i else 0)
      * Matrix.diagonal svd.singularValues = 1 := by
    rw [Matrix.diagonal_mul_diagonal, ← Matrix.diagonal_one]
    refine congrArg Matrix.diagonal (funext fun i => ?_)
    have hi := hσ i
    rw [if_pos hi]
    have : svd.singularValues i ≠ 0 := ne_of_gt (lt_of_le_of_lt hε hi)
    field_simp
  rw [hG]
  calc svd.matrixV
          * Matrix.diagonal (fun i => if svd.singularValues i > epsilon
              then 1 / svd.singularValues i else 0)
          * svd.matrixU.transpose
          * (svd.matrixU * Matrix.diagonal svd.singularValues * svd.matrixV.transpose)
      = svd.matrixV
          * (Matrix.diagonal (fun i => if svd.singularValues i > epsilon
              then 1 / svd.singularValues i else 0)
            * (svd.matrixU.transpose * svd.matrixU)
            * Matrix.diagonal svd.singularValues)
          * svd.matrixV.transpose := by
        simp only [Matrix.mul_assoc]
    _ = 1 := by
        rw [hU, Matrix.mul_one, hD, Matrix.mul_one, hV]

/-- C9 (amended): for a square matrix `G` with a singular value decomposition
`G = U Σ Vᵀ` (orthogonal `U`, `V`) all of whose singular values exceed the
machine epsilon, after `setGammaPosition(G)` the stored matrix is `G` and the
stored inverse satisfies `getGammaPositionInverse() · G = identity`. -/
theorem setGammaPosition_inverse [LinearOrderedField α]
    (jacobiSVD : (A : DynMatrix α) → JacobiSVD α A.rows A.cols) (epsilon : α)
    (m : Model α) (n : ℕ) (G : Matrix (Fin n) (Fin n) α) (hε : 0 ≤ epsilon)
    (hsvd : (jacobiSVD ⟨n, n, G⟩).IsDecomposition G)
    (hσ : ∀ i, (jacobiSVD ⟨n, n, G⟩).singularValues i > epsilon) :
    (m.setGammaPosition jacobiSVD epsilon ⟨n, n, G⟩).getGammaPosition = ⟨n, n, G⟩ ∧
    (m.setGammaPosition jacobiSVD epsilon ⟨n, n, G⟩).getGammaPositionInverse.mul ⟨n, n, G⟩
      = .ok (DynMatrix.Identity n n) := by
  refine ⟨rfl, ?_⟩
  rw [DynMatrix_Identity_eq_one]
  simp only [setGammaPosition, getGammaPositionInverse, DynMatrix.mul, dif_pos]
  congr 2
  have hsub : G.submatrix (Fin.cast (rfl : n = n)) id = G := by
    ext i j
    rfl
  rw [hsub]
  exact JacobiSVD.pinv_mul (jacobiSVD ⟨n, n, G⟩) G epsilon hε hsvd hσ

theorem setGammaPosition_inverse_witness :
    (0 : ℚ) ≤ 1 / 2 ^ 52 ∧
    (exampleSVD 2 ⟨1, 1, !![2]⟩).IsDecomposition !![2] ∧
    (∀ i, (exampleSVD 2 ⟨1, 1, !![2]⟩).singularValues i > 1 / 2 ^ 52) ∧
    (Model.empty.setGammaPosition (exampleSVD 2) (1 / 2 ^ 52) ⟨1, 1, !![2]⟩).getGammaPosition
      = ⟨1, 1, !![2]⟩ ∧
    (Model.empty.setGammaPosition (exampleSVD 2) (1 / 2 ^ 52)
      ⟨1, 1, !![2]⟩).getGammaPositionInverse.mul ⟨1, 1, !![2]⟩
      = .ok (DynMatrix.Identity 1 1) :=
  have h₀ : (0 : ℚ) ≤ 1 / 2 ^ 52 := by positivity
  have h₁ : (exampleSVD 2 ⟨1, 1, !![2]⟩).IsDecomposition !![2] := exampleSVD_isDecomposition 2
  have h₂ : ∀ i, (exampleSVD 2 ⟨1, 1, !![2]⟩).singularValues i > 1 / 2 ^ 52 := by
    intro i
    simp only [exampleSVD]
    norm_num
  ⟨h₀, h₁, h₂, setGammaPosition_inverse (exampleSVD 2) (1 / 2 ^ 52) Model.empty 1 !![2]
    h₀ h₁ h₂⟩

end Model
end mdl
end rl

namespace rl
namespace math

theorem atan2_zero_nonneg (x : ℝ) (hx : 0 ≤ x) : atan2 0 x = 0 := by
  have e : (⟨x, 0⟩ : ℂ) = (x : ℂ) := by
    apply Complex.ext <;> simp
  rw [atan2, e]
  exact Complex.arg_ofReal_of_nonneg hx

theorem Quaternion.angularDistance_self (q : Quaternion) : q.angularDistance q = 0 := by
  have h : norm3 (q.mul q.conjugate).vec = 0 := by
    simp only [Quaternion.mul, Quaternion.conjugate, Quaternion.vec, norm3,
      Matrix.cons_val_zero, Matrix.cons_val_one, Matrix.head_cons, Matrix.cons_val_two,
      Matrix.tail_cons]
    have e : (q.w * -q.x + q.x * q.w + q.y * -q.z - q.z * -q.y)
          * (q.w * -q.x + q.x * q.w + q.y * -q.z - q.z * -q.y)
        + (q.w * -q.y + q.y * q.w + q.z * -q.x - q.x * -q.z)
          * (q.w * -q.y + q.y * q.w + q.z * -q.x - q.x * -q.z)
        + (q.w * -q.z + q.z * q.w + q.x * -q.y - q.y * -q.x)
          * (q.w * -q.z + q.z * q.w + q.x * -q.y - q.y * -q.x) = 0 := by ring
    rw [e, Real.sqrt_zero]
  simp only [Quaternion.angularDistance]
  rw [h, atan2_zero_nonneg _ (abs_nonneg _), mul_zero]

theorem Quaternion.angularDistance_comm (a b : Quaternion) :
    a.angularDistance b = b.angularDistance a := by
  have hw : (a.mul b.conjugate).w = (b.mul a.conjugate).w := by
    simp only [Quaternion.mul, Quaternion.conjugate]
    ring
  have hv : norm3 (a.mul b.conjugate).vec = norm3 (b.mul a.conjugate).vec := by
    simp only [Quaternion.mul, Quaternion.conjugate, Quaternion.vec, norm3,
      Matrix.cons_val_zero, Matrix.cons_val_one, Matrix.head_cons, Matrix.cons_val_two,
      Matrix.tail_cons]
    congr 1
    ring
  simp only [Quaternion.angularDistance]
  rw [hw, hv]

/-- C14: the distance of a pose to itself is zero, for every pose `T`, every
weight `w` and every conversion of Eigen from a rotation to a quaternion. -/
theorem distance_self (toQuaternion : Transform → Quaternion) (T : Transform) (w : ℝ) :
    distance toQuaternion T T w = 0 := by
  have hq : (toQuaternion T).angularDistance (toQuaternion T) = 0 :=
    Quaternion.angularDistance_self _
  unfold distance
  simp only [hq, sub_self]
  norm_num

/-- C15: `distance` is symmetric under the swap of the two poses for a fixed
weight, and its value is the square root of the squared norm of the difference
of the translations plus the weight times the squared angular distance of the
two rotations. -/
theorem distance_comm (toQuaternion : Transform → Quaternion) (A B : Transform) (w : ℝ) :
    distance toQuaternion A B w = distance toQuaternion B A w ∧
    distance toQuaternion A B w
      = Real.sqrt ((B.translation 0 - A.translation 0) ^ 2
          + (B.translation 1 - A.translation 1) ^ 2
          + (B.translation 2 - A.translation 2) ^ 2
          + w * ((toQuaternion A).angularDistance (toQuaternion B)) ^ 2) := by
  constructor
  · simp only [distance]
    rw [Quaternion.angularDistance_comm (toQuaternion A) (toQuaternion B)]
    congr 1
    ring
  · simp [distance, Transform.translation]

/-- C17: for a machine epsilon in `[0, 1)`, `toDenavitHartenbergPaul` applied to
`fromDenavitHartenbergPaul(d, theta, a, alpha)` returns exactly
`(d, theta, a, alpha)` when `theta` and `alpha` lie in `(-π, π]`; and for every
real `theta` and `alpha` it returns `d` and `a` exactly, in whichever of the
three branches `a` is computed. -/
theorem toDenavitHartenbergPaul_fromDenavitHartenbergPaul_restricted (eps d a : ℝ)
    (h0 : 0 ≤ eps) (h1 : eps < 1) :
    (∀ theta alpha : ℝ, -Real.pi < theta → theta ≤ Real.pi → -Real.pi < alpha →
      alpha ≤ Real.pi →
      toDenavitHartenbergPaul eps (fromDenavitHartenbergPaul d theta a alpha)
        = .ok (d, theta, a, alpha)) ∧
    (∀ theta alpha : ℝ, ∃ theta' alpha' : ℝ,
      toDenavitHartenbergPaul eps (fromDenavitHartenbergPaul d theta a alpha)
        = .ok (d, theta', a, alpha')) := by
  have key : ∀ theta alpha : ℝ,
      toDenavitHartenbergPaul eps (fromDenavitHartenbergPaul d theta a alpha)
        = .ok (d, atan2 (Real.sin theta) (Real.cos theta), a,
            atan2 (Real.sin alpha) (Real.cos alpha)) := by
    intro theta alpha
    simp only [toDenavitHartenbergPaul, fromDenavitHartenbergPaul]
    simp [h0]
    exact dh_recover_a eps a theta h0 h1
  constructor
  · intro theta alpha ht₀ ht₁ ha₀ ha₁
    rw [key, atan2_sin_cos theta ht₀ ht₁, atan2_sin_cos alpha ha₀ ha₁]
  · intro theta alpha
    exact ⟨_, _, key theta alpha⟩

theorem toDenavitHartenbergPaul_fromDenavitHartenbergPaul_restricted_witness :
    (0 : ℝ) ≤ 1 / 2 ^ 52 ∧ (1 / 2 ^ 52 : ℝ) < 1 ∧
    (∀ theta alpha : ℝ, -Real.pi < theta → theta ≤ Real.pi → -Real.pi < alpha →
      alpha ≤ Real.pi →
      toDenavitHartenbergPaul (1 / 2 ^ 52) (fromDenavitHartenbergPaul 1 theta 2 alpha)
        = .ok (1, theta, 2, alpha)) ∧
    (∀ theta alpha : ℝ, ∃ theta' alpha' : ℝ,
      toDenavitHartenbergPaul (1 / 2 ^ 52) (fromDenavitHartenbergPaul 1 theta 2 alpha)
        = .ok (1, theta', 2, alpha')) :=
  have h0 : (0 : ℝ) ≤ 1 / 2 ^ 52 := by positivity
  have h1 : (1 / 2 ^ 52 : ℝ) < 1 := by norm_num
  ⟨h0, h1, toDenavitHartenbergPaul_fromDenavitHartenbergPaul_restricted (1 / 2 ^ 52) 1 2 h0 h1⟩

/-- C18: for a transform whose first rotation column has unit norm and whose
`(2, 0)` entry is within `eps` of zero, with `eps < 1/2`, the precondition of
`toDenavitHartenbergPaul` holds (it returns), and every divisor used in the
branch that computes `a` has absolute value above `eps`. -/
theorem toDenavitHartenbergPaul_divisors (eps : ℝ) (T : Transform)
    (hcol : T 0 0 ^ 2 + T 1 0 ^ 2 + T 2 0 ^ 2 = 1) (hpre : |T 2 0| ≤ eps) (heps : eps < 1 / 2) :
    (∃ r, toDenavitHartenbergPaul eps T = .ok r) ∧
    ∀ x ∈ toDenavitHartenbergPaulDivisors eps T, eps < |x| := by
  have h0 : 0 ≤ eps := le_trans (abs_nonneg _) hpre
  refine ⟨⟨_, by rw [toDenavitHartenbergPaul, if_pos hpre]⟩, ?_⟩
  intro x hx
  unfold toDenavitHartenbergPaulDivisors at hx
  split_ifs at hx with hc hs
  · simp only [List.mem_singleton] at hx
    subst hx
    by_contra hle
    push_neg at hle
    have e0 : T 0 0 ^ 2 ≤ eps ^ 2 := by
      rw [← sq_abs (T 0 0)]; exact pow_le_pow_left₀ (abs_nonneg _) hc 2
    have e1 : T 1 0 ^ 2 ≤ eps ^ 2 := by
      rw [← sq_abs (T 1 0)]; exact pow_le_pow_left₀ (abs_nonneg _) hle 2
    have e2 : T 2 0 ^ 2 ≤ eps ^ 2 := by
      rw [← sq_abs (T 2 0)]; exact pow_le_pow_left₀ (abs_nonneg _) hpre 2
    nlinarith
  · simp only [List.mem_singleton] at hx
    subst hx
    exact not_le.mp hc
  · simp only [List.mem_cons, List.mem_singleton, List.not_mem_nil, or_false] at hx
    rcases hx with hx | hx
    · subst hx; exact not_le.mp hs
    · subst hx; exact not_le.mp hc

theorem toDenavitHartenbergPaul_divisors_witness :
    fromDenavitHartenbergPaul 0 0 0 0 0 0 ^ 2 + fromDenavitHartenbergPaul 0 0 0 0 1 0 ^ 2
      + fromDenavitHartenbergPaul 0 0 0 0 2 0 ^ 2 = 1 ∧
    |fromDenavitHartenbergPaul 0 0 0 0 2 0| ≤ 1 / 2 ^ 52 ∧ (1 / 2 ^ 52 : ℝ) < 1 / 2 ∧
    (∃ r, toDenavitHartenbergPaul (1 / 2 ^ 52) (fromDenavitHartenbergPaul 0 0 0 0) = .ok r) ∧
    ∀ x ∈ toDenavitHartenbergPaulDivisors (1 / 2 ^ 52) (fromDenavitHartenbergPaul 0 0 0 0),
      1 / 2 ^ 52 < |x| :=
  have h₁ : fromDenavitHartenbergPaul 0 0 0 0 0 0 ^ 2 + fromDenavitHartenbergPaul 0 0 0 0 1 0 ^ 2
      + fromDenavitHartenbergPaul 0 0 0 0 2 0 ^ 2 = 1 := by
    simp [fromDenavitHartenbergPaul, Matrix.vecHead, Matrix.vecTail]
  have h₂ : |fromDenavitHartenbergPaul 0 0 0 0 2 0| ≤ 1 / 2 ^ 52 := by
    simp [fromDenavitHartenbergPaul, Matrix.vecHead, Matrix.vecTail]
  have h₃ : (1 / 2 ^ 52 : ℝ) < 1 / 2 := by norm_num
  ⟨h₁, h₂, h₃, toDenavitHartenbergPaul_divisors (1 / 2 ^ 52) (fromDenavitHartenbergPaul 0 0 0 0)
    h₁ h₂ h₃⟩

/-- C19: the matrix built by `fromDenavitHartenbergPaul(d, theta, a, alpha)` is
the product `RotZ(theta) · Trans(0, 0, d) · Trans(a, 0, 0) · RotX(alpha)`, entry
for entry. -/
theorem fromDenavitHartenbergPaul_eq_composition (d theta a alpha : ℝ) :
    ∀ i j : Fin 4, fromDenavitHartenbergPaul d theta a alpha i j
      = (RotZ theta * Trans 0 0 d * Trans a 0 0 * RotX alpha) i j := by
  have h₁ : RotZ theta * Trans 0 0 d
      = !![Real.cos theta, -Real.sin theta, 0, 0;
           Real.sin theta, Real.cos theta, 0, 0;
           0, 0, 1, d;
           0, 0, 0, 1] := by
    ext i j
    fin_cases i <;> fin_cases j <;>
      simp [RotZ, Trans, Matrix.mul_apply, Fin.sum_univ_four, Matrix.vecHead, Matrix.vecTail]
  have h₂ : (!![Real.cos theta, -Real.sin theta, 0, 0;
           Real.sin theta, Real.cos theta, 0, 0;
           0, 0, 1, d;
           0, 0, 0, 1] : Transform) * Trans a 0 0
      = !![Real.cos theta, -Real.sin theta, 0, a * Real.cos theta;
           Real.sin theta, Real.cos theta, 0, a * Real.sin theta;
           0, 0, 1, d;
           0, 0, 0, 1] := by
    ext i j
    fin_cases i <;> fin_cases j <;>
      simp [Trans, Matrix.mul_apply, Fin.sum_univ_four, Matrix.vecHead, Matrix.vecTail] <;>
      ring
  have h₃ : (!![Real.cos theta, -Real.sin theta, 0, a * Real.cos theta;
           Real.sin theta, Real.cos theta, 0, a * Real.sin theta;
           0, 0, 1, d;
           0, 0, 0, 1] : Transform) * RotX alpha
      = fromDenavitHartenbergPaul d theta a alpha := by
    ext i j
    fin_cases i <;> fin_cases j <;>
      simp [fromDenavitHartenbergPaul, RotX, Matrix.mul_apply, Fin.sum_univ_four,
        Matrix.vecHead, Matrix.vecTail] <;>
      ring
  intro i j
  rw [h₁, h₂, h₃]

/-- C20: the transform produced by `setDelta(d)` has bottom row `(0, 0, 0, 1)`
and zero diagonal in its 3 × 3 block, and `getDelta()` of it returns exactly
`d`. -/
theorem getDelta_setDelta (d : Vector6) :
    (setDelta d 3 0 = 0 ∧ setDelta d 3 1 = 0 ∧ setDelta d 3 2 = 0 ∧ setDelta d 3 3 = 1) ∧
    (setDelta d 0 0 = 0 ∧ setDelta d 1 1 = 0 ∧ setDelta d 2 2 = 0) ∧
    getDelta (setDelta d) = d := by
  refine ⟨by simp [setDelta, Matrix.vecHead, Matrix.vecTail],
    by simp [setDelta, Matrix.vecHead, Matrix.vecTail], ?_⟩
  funext i
  fin_cases i <;> simp [getDelta, setDelta, vec6_val_five, Matrix.vecHead, Matrix.vecTail] <;> ring

end math
end rl

namespace rl
namespace mdl

open rl.math

namespace Model

variable {α : Type}

@[simp] theorem pushFrame_leaves (m : Model α) (u : Vertex) :
    (m.pushFrame u).leaves = m.leaves := rfl

@[simp] theorem pushBody_leaves (m : Model α) (u : Vertex) : (m.pushBody u).leaves = m.leaves := rfl

@[simp] theorem pushTransform_leaves (m : Model α) (e : Edge) :
    (m.pushTransform e).leaves = m.leaves := rfl

@[simp] theorem pushJoint_leaves (m : Model α) (e : Edge) : (m.pushJoint e).leaves = m.leaves := rfl

@[simp] theorem pushLeaf_leaves (m : Model α) (u : Vertex) :
    (m.pushLeaf u).leaves = m.leaves ++ [u] := rfl

@[simp] theorem setInOut_leaves (m : Model α) (e : Edge) (u v : Vertex) :
    (m.setInOut e u v).leaves = m.leaves := rfl

@[simp] theorem clear_leaves (m : Model α) : m.clear.leaves = [] := rfl

@[simp] theorem resetGamma_leaves [Zero α] [One α] (m : Model α) (a b : ℕ) :
    (m.resetGamma a b).leaves = m.leaves := rfl

theorem vectorAt_of_lt {β : Type} (v : List β) (i : ℕ) (h : i < v.length) :
    vectorAt v i = .ok (v.get ⟨i, h⟩) := by
  simp [vectorAt, List.getElem?_eq_getElem h]

theorem vectorAt_of_le {β : Type} (v : List β) (i : ℕ) (h : v.length ≤ i) :
    vectorAt v i = .error .invalidPointer := by
  simp [vectorAt, List.getElem?_eq_none h]

theorem Tree.frameAt_of_mem (t : Tree α) (v : Vertex) (h : v ∈ t.vertices) :
    t.frameAt v = .ok (t.frame v) := by
  simp [Tree.frameAt, h]

theorem Tree.transformAt_of_mem (t : Tree α) (e : Edge) (h : e ∈ t.edges) :
    t.transformAt e = .ok (t.transform e) := by
  simp [Tree.transformAt, h]

theorem updateOutEdges_pointers (recurse : Model α → Vertex → Except Error (Model α))
    (hrec : ∀ m v m', BodiesValid m ∧ LeavesValid m → recurse m v = .ok m' →
      BodiesValid m' ∧ LeavesValid m')
    (u : Vertex) (es : List Edge) (m m' : Model α) (hP : BodiesValid m ∧ LeavesValid m)
    (h : updateOutEdges recurse u es m = .ok m') : BodiesValid m' ∧ LeavesValid m' := by
  induction es generalizing m with
  | nil =>
    simp only [updateOutEdges, Except.ok.injEq] at h
    subst h
    exact hP
  | cons e es ih =>
    simp only [updateOutEdges] at h
    rw [bind_eq_ok] at h
    obtain ⟨m₃, h₃, h⟩ := h
    refine ih m₃ (hrec _ _ _ ?_ h₃) h
    split
    · exact hP
    · exact hP

theorem updateVertex_pointers [Zero α] [One α] (fuel : ℕ) (m : Model α) (u : Vertex)
    (m' : Model α) (hP : BodiesValid m ∧ LeavesValid m)
    (h : updateVertex fuel m u = .ok m') : BodiesValid m' ∧ LeavesValid m' := by
  induction fuel generalizing m u m' with
  | zero => simp [updateVertex] at h
  | succ fuel ih =>
    simp only [updateVertex] at h
    rw [bind_eq_ok] at h
    obtain ⟨frame, hframe, h⟩ := h
    rw [bind_eq_ok] at h
    obtain ⟨m₃, h₃, h⟩ := h
    rw [bind_eq_ok] at h
    obtain ⟨dofPosition, -, h⟩ := h
    rw [bind_eq_ok] at h
    obtain ⟨dof, -, h⟩ := h
    simp only [Except.ok.injEq] at h
    subst h
    have hu : u ∈ m.tree.vertices := by
      by_contra hn
      simp [Tree.frameAt, hn] at hframe
    have h₂ : ∀ m₂ : Model α, m₂.tree = m.tree → BodiesValid m₂ ∧ LeavesValid m₂ →
        (if m₂.tree.out_degree u > 0 then
          updateOutEdges (updateVertex fuel) u (m₂.tree.out_edges u) m₂
        else .ok (m₂.pushLeaf u)) = .ok m₃ → BodiesValid m₃ ∧ LeavesValid m₃ := by
      intro m₂ ht hP₂ h₃
      split at h₃
      · exact updateOutEdges_pointers (updateVertex fuel) (fun a v a' ha h => ih a v a' ha h)
          u _ m₂ m₃ hP₂ h₃
      · simp only [Except.ok.injEq] at h₃
        subst h₃
        refine ⟨hP₂.1, ?_, ?_⟩
        · intro v hv
          rw [pushLeaf_leaves, List.mem_append, List.mem_singleton] at hv
          rcases hv with hv | hv
          · exact hP₂.2.1 v hv
          · subst hv
            rw [pushLeaf_tree, ht]
            exact hu
        · intro e he
          have he' : e ∈ m₂.tools ++ m₂.tree.in_edges u := he
          rw [List.mem_append] at he'
          rcases he' with he' | he'
          · exact hP₂.2.2 e he'
          · exact (Tree.mem_in_edges.mp he').1
    split at h₃
    · refine h₂ ((m.pushFrame u).pushBody u) rfl ⟨?_, hP.2⟩ h₃
      intro b hb
      have hb' : b ∈ m.bodies ++ [u] := hb
      rw [List.mem_append, List.mem_singleton] at hb'
      rcases hb' with hb' | hb'
      · exact hP.1 b hb'
      · subst hb'
        exact hu
    · exact h₂ (m.pushFrame u) rfl hP h₃

theorem update_pointers [Zero α] [One α] (fuel : ℕ) (m m' : Model α)
    (h : m.update fuel = .ok m') : BodiesValid m' ∧ LeavesValid m' := by
  refine updateVertex_pointers fuel m.clear m.root m' ⟨?_, ?_, ?_⟩ h
  · intro b hb
    exact absurd hb (List.not_mem_nil b)
  · intro u hu
    exact absurd hu (List.not_mem_nil u)
  · intro e he
    exact absurd he (List.not_mem_nil e)

theorem asserted_out_of_range (m : Model α) (i j : ℕ) :
    (m.bodies.length ≤ i →
      m.getBody i = .error .assertion ∧ m.getBodyFrame i = .error .assertion ∧
      m.isColliding i = .error .assertion ∧ m.areColliding i j = .error .assertion ∧
      m.areColliding j i = .error .assertion) ∧
    (m.frames.length ≤ i → m.getFrame i = .error .assertion) ∧
    (m.joints.length ≤ i → m.getJoint i = .error .assertion) ∧
    (m.transforms.length ≤ i → m.getTransform i = .error .assertion) ∧
    (m.tools.length ≤ i → m.tool i = .error .assertion) ∧
    (m.leaves.length ≤ i →
      m.getOperationalAcceleration i = .error .assertion ∧
      m.getOperationalForce i = .error .assertion ∧
      m.getOperationalFrame i = .error .assertion ∧
      m.getOperationalPosition i = .error .assertion ∧
      m.getOperationalVelocity i = .error .assertion) := by
  refine ⟨fun h => ⟨?_, ?_, ?_, ?_, ?_⟩, fun h => ?_, fun h => ?_, fun h => ?_, fun h => ?_,
    fun h => ⟨?_, ?_, ?_, ?_, ?_⟩⟩
  · simp [getBody, not_lt.mpr h]
  · simp [getBodyFrame, getBodies, not_lt.mpr h]
  · simp [isColliding, not_lt.mpr h]
  · simp [areColliding, not_lt.mpr h]
  · simp only [areColliding, if_neg (not_lt.mpr h)]
    split <;> rfl
  · simp [getFrame, not_lt.mpr h]
  · simp [getJoint, not_lt.mpr h]
  · simp [getTransform, not_lt.mpr h]
  · simp [tool, not_lt.mpr h]
  · simp [getOperationalAcceleration, getOperationalDof, not_lt.mpr h]
  · simp [getOperationalForce, getOperationalDof, not_lt.mpr h]
  · simp [getOperationalFrame, getOperationalDof, not_lt.mpr h]
  · simp [getOperationalPosition, getOperationalDof, not_lt.mpr h]
  · simp [getOperationalVelocity, getOperationalDof, not_lt.mpr h]

theorem asserted_in_range (m : Model α) (hb : BodiesValid m) (hl : LeavesValid m) (i j : ℕ) :
    (i < m.bodies.length →
      (∃ r, m.getBody i = .ok r) ∧ (∃ r, m.getBodyFrame i = .ok r) ∧
      (∃ r, m.isColliding i = .ok r) ∧ (j < m.bodies.length → ∃ r, m.areColliding i j = .ok r)) ∧
    (i < m.frames.length → ∃ r, m.getFrame i = .ok r) ∧
    (i < m.joints.length → ∃ r, m.getJoint i = .ok r) ∧
    (i < m.transforms.length → ∃ r, m.getTransform i = .ok r) ∧
    (i < m.tools.length → ∃ r, m.tool i = .ok r) ∧
    (i < m.leaves.length →
      (∃ r, m.getOperationalAcceleration i = .ok r) ∧
      (∃ r, m.getOperationalForce i = .ok r) ∧
      (∃ r, m.getOperationalFrame i = .ok r) ∧
      (∃ r, m.getOperationalPosition i = .ok r) ∧
      (∃ r, m.getOperationalVelocity i = .ok r)) := by
  refine ⟨fun h => ?_, fun h => ?_, fun h => ?_, fun h => ?_, fun h => ?_, fun h => ?_⟩
  · have hv : m.bodies.get ⟨i, h⟩ ∈ m.tree.vertices := hb _ (List.get_mem _ _ _)
    refine ⟨⟨_, by rw [getBody, if_pos h, vectorAt_of_lt _ _ h]⟩,
      ⟨(m.tree.frame (m.bodies.get ⟨i, h⟩)).x, ?_⟩,
      ⟨(m.tree.frame (m.bodies.get ⟨i, h⟩)).collision, ?_⟩, ?_⟩
    · simp only [getBodyFrame, getBodies, if_pos h, vectorAt_of_lt _ _ h, ok_bind,
        Tree.frameAt_of_mem _ _ hv]
    · simp only [isColliding, if_pos h, vectorAt_of_lt _ _ h, ok_bind,
        Tree.frameAt_of_mem _ _ hv]
    · intro hj
      have hv' : m.bodies.get ⟨j, hj⟩ ∈ m.tree.vertices := hb _ (List.get_mem _ _ _)
      simp only [areColliding, if_pos h, if_pos hj, vectorAt_of_lt _ _ h, vectorAt_of_lt _ _ hj,
        ok_bind, Tree.frameAt_of_mem _ _ hv, Tree.frameAt_of_mem _ _ hv']
      split
      · exact ⟨_, rfl⟩
      · exact ⟨_, rfl⟩
  · exact ⟨_, by rw [getFrame, if_pos h, vectorAt_of_lt _ _ h]⟩
  · exact ⟨_, by rw [getJoint, if_pos h, vectorAt_of_lt _ _ h]⟩
  · exact ⟨_, by rw [getTransform, if_pos h, vectorAt_of_lt _ _ h]⟩
  · have he : m.tools.get ⟨i, h⟩ ∈ m.tree.edges := hl.2 _ (List.get_mem _ _ _)
    refine ⟨(m.tree.transform (m.tools.get ⟨i, h⟩)).x, ?_⟩
    simp only [tool, if_pos h, vectorAt_of_lt _ _ h, ok_bind, Tree.transformAt_of_mem _ _ he]
  · have hv : m.leaves.get ⟨i, h⟩ ∈ m.tree.vertices := hl.1 _ (List.get_mem _ _ _)
    refine ⟨⟨(m.tree.frame (m.leaves.get ⟨i, h⟩)).a, ?_⟩,
      ⟨(m.tree.frame (m.leaves.get ⟨i, h⟩)).f, ?_⟩, ⟨m.leaves.get ⟨i, h⟩, ?_⟩,
      ⟨(m.tree.frame (m.leaves.get ⟨i, h⟩)).x, ?_⟩, ⟨(m.tree.frame (m.leaves.get ⟨i, h⟩)).v, ?_⟩⟩
    · simp only [getOperationalAcceleration, getOperationalDof, if_pos h, vectorAt_of_lt _ _ h,
        ok_bind, Tree.frameAt_of_mem _ _ hv]
    · simp only [getOperationalForce, getOperationalDof, if_pos h, vectorAt_of_lt _ _ h,
        ok_bind, Tree.frameAt_of_mem _ _ hv]
    · simp only [getOperationalFrame, getOperationalDof, if_pos h, vectorAt_of_lt _ _ h,
        ok_bind, Tree.frameAt_of_mem _ _ hv]
    · simp only [getOperationalPosition, getOperationalDof, if_pos h, vectorAt_of_lt _ _ h,
        ok_bind, Tree.frameAt_of_mem _ _ hv]
    · simp only [getOperationalVelocity, getOperationalDof, if_pos h, vectorAt_of_lt _ _ h,
        ok_bind, Tree.frameAt_of_mem _ _ hv]

/-- C11 (failing input): after `update()` on `exampleArm` there is one leaf, so
`getOperationalDof()` is `1` and index `1` is out of range.  With that index
`getOperationalVelocity` fails its precondition check, while
`setOperationalVelocity`, which has no check, reads `leaves[1]` beyond the end
of the sequence.  In every state and for every index at or beyond the size
`setOperationalVelocity` does not fail a check, while each of the thirteen other
accessors does; with an index below the size and valid pointers
`setOperationalVelocity` stores the velocity in the frame of the leaf and the
thirteen other accessors return. -/
theorem setOperationalVelocity_unchecked :
    (exampleArm.update 2 >>= fun m => .ok (m.leaves, m.getOperationalDof)) = .ok ([2], 1) ∧
    (exampleArm.update 2 >>= fun m => m.getOperationalVelocity 1) = .error .assertion ∧
    (exampleArm.update 2 >>= fun m => m.setOperationalVelocity 1 0) = .error .invalidPointer ∧
    (∀ (m : Model ℚ) (i : ℕ) (v : Fin 6 → ℚ), m.getOperationalDof ≤ i →
      m.getOperationalVelocity i = .error .assertion ∧
      m.setOperationalVelocity i v = .error .invalidPointer) ∧
    (∀ (m : Model ℚ) (i : ℕ) (v : Fin 6 → ℚ), i < m.getOperationalDof → LeavesValid m →
      ∃ u m', vectorAt m.leaves i = .ok u ∧ m.setOperationalVelocity i v = .ok m' ∧
        (m'.tree.frame u).v = v ∧ m'.getOperationalVelocity i = .ok v) ∧
    (∀ (m : Model ℚ) (i j : ℕ),
      (m.bodies.length ≤ i →
        m.getBody i = .error .assertion ∧ m.getBodyFrame i = .error .assertion ∧
        m.isColliding i = .error .assertion ∧ m.areColliding i j = .error .assertion ∧
        m.areColliding j i = .error .assertion) ∧
      (m.frames.length ≤ i → m.getFrame i = .error .assertion) ∧
      (m.joints.length ≤ i → m.getJoint i = .error .assertion) ∧
      (m.transforms.length ≤ i → m.getTransform i = .error .assertion) ∧
      (m.tools.length ≤ i → m.tool i = .error .assertion) ∧
      (m.leaves.length ≤ i →
        m.getOperationalAcceleration i = .error .assertion ∧
        m.getOperationalForce i = .error .assertion ∧
        m.getOperationalFrame i = .error .assertion ∧
        m.getOperationalPosition i = .error .assertion ∧
        m.getOperationalVelocity i = .error .assertion)) ∧
    (∀ (m : Model ℚ) (i j : ℕ), BodiesValid m → LeavesValid m →
      (i < m.bodies.length →
        (∃ r, m.getBody i = .ok r) ∧ (∃ r, m.getBodyFrame i = .ok r) ∧
        (∃ r, m.isColliding i = .ok r) ∧
        (j < m.bodies.length → ∃ r, m.areColliding i j = .ok r)) ∧
      (i < m.frames.length → ∃ r, m.getFrame i = .ok r) ∧
      (i < m.joints.length → ∃ r, m.getJoint i = .ok r) ∧
      (i < m.transforms.length → ∃ r, m.getTransform i = .ok r) ∧
      (i < m.tools.length → ∃ r, m.tool i = .ok r) ∧
      (i < m.leaves.length →
        (∃ r, m.getOperationalAcceleration i = .ok r) ∧
        (∃ r, m.getOperationalForce i = .ok r) ∧
        (∃ r, m.getOperationalFrame i = .ok r) ∧
        (∃ r, m.getOperationalPosition i = .ok r) ∧
        (∃ r, m.getOperationalVelocity i = .ok r))) := by
  refine ⟨rfl, rfl, rfl, ?_, ?_, fun m i j => asserted_out_of_range m i j,
    fun m i j hb hl => asserted_in_range m hb hl i j⟩
  · intro m i v h
    constructor
    · simp [getOperationalVelocity, not_lt.mpr h]
    · simp only [setOperationalVelocity, vectorAt_of_le _ _ h]
      rfl
  · intro m i v h hl
    have hv : m.leaves.get ⟨i, h⟩ ∈ m.tree.vertices := hl.1 _ (List.get_mem _ _ _)
    refine ⟨m.leaves.get ⟨i, h⟩, m.setFrame (m.leaves.get ⟨i, h⟩)
      { m.tree.frame (m.leaves.get ⟨i, h⟩) with v := v }, vectorAt_of_lt _ _ h, ?_, ?_, ?_⟩
    · simp only [setOperationalVelocity, vectorAt_of_lt _ _ h, ok_bind,
        Tree.frameAt_of_mem _ _ hv]
    · simp [setFrame]
    · have h' : i < (m.setFrame (m.leaves.get ⟨i, h⟩)
          { m.tree.frame (m.leaves.get ⟨i, h⟩) with v := v }).leaves.length := h
      have hv' : (m.setFrame (m.leaves.get ⟨i, h⟩)
          { m.tree.frame (m.leaves.get ⟨i, h⟩) with v := v }).leaves.get ⟨i, h'⟩
          ∈ (m.setFrame (m.leaves.get ⟨i, h⟩)
          { m.tree.frame (m.leaves.get ⟨i, h⟩) with v := v }).tree.vertices := hv
      simp only [getOperationalVelocity, getOperationalDof, if_pos h', vectorAt_of_lt _ _ h',
        ok_bind, Tree.frameAt_of_mem _ _ hv']
      simp [setFrame]

theorem splice_concat {α : Type} (b q c : List α) (j n S : ℕ) (hq : q.length = n)
    (hj : j + n + S ≤ b.length) :
    (b.take j ++ q ++ b.drop (j + n)).take (j + n) ++ c
        ++ (b.take j ++ q ++ b.drop (j + n)).drop (j + n + S)
      = b.take j ++ (q ++ c) ++ b.drop (j + (n + S)) := by
  have h₁ : (b.take j ++ q).length = j + n := by
    simp only [List.length_append, List.length_take]
    omega
  have e₁ : (b.take j ++ q ++ b.drop (j + n)).take (j + n) = b.take j ++ q := by
    rw [List.take_append_of_le_length (by omega), List.take_of_length_le (by omega)]
  have e₂ : (b.take j ++ q ++ b.drop (j + n)).drop (j + n + S) = b.drop (j + (n + S)) := by
    rw [List.drop_append_eq_append_drop, List.drop_of_length_le (by omega), h₁, List.nil_append,
      List.drop_drop]
    congr 1
    omega
  rw [e₁, e₂]
  simp only [List.append_assoc]

theorem getAccelerationLoop_concat (m : Model α) (es : List Edge) (j : ℕ) (b : List α)
    (h : ∀ e ∈ es, e ∈ m.tree.edges ∧
      ∃ jt, (m.tree.transform e).joint = some jt ∧ jt.qdd.length = jt.dof)
    (hb : j + (es.map m.dofAt).sum ≤ b.length) :
    m.getAccelerationLoop es j b
      = .ok (b.take j
          ++ (es.flatMap fun e => ((m.tree.transform e).joint.map Joint.getAcceleration).getD [])
          ++ b.drop (j + (es.map m.dofAt).sum)) := by
  induction es generalizing j b with
  | nil => simp [getAccelerationLoop]
  | cons e es ih =>
    obtain ⟨he, jt, hjt, hq⟩ := h e (List.mem_cons_self _ _)
    have hj : m.jointAt e = .ok jt := (jointAt_eq_ok m e jt).mpr ⟨he, hjt⟩
    have hn : m.dofAt e = jt.dof := by simp [dofAt, hjt, Joint.getDof]
    simp only [List.map_cons, List.sum_cons, hn] at hb ⊢
    have hseg : setSegment b j jt.getDof jt.getAcceleration
        = .ok (b.take j ++ jt.qdd ++ b.drop (j + jt.dof)) := by
      simp only [setSegment, Joint.getDof, Joint.getAcceleration]
      rw [if_pos ⟨by omega, hq⟩]
    have hlen : (b.take j ++ jt.qdd ++ b.drop (j + jt.dof)).length = b.length := by
      simp only [List.length_append, List.length_take, List.length_drop, hq]
      omega
    simp only [getAccelerationLoop, hj, ok_bind, hseg]
    rw [ih (j + jt.getDof) _ (fun f hf => h f (List.mem_cons_of_mem _ hf))
      (by rw [hlen]; simp only [Joint.getDof]; omega)]
    simp only [Joint.getDof, List.flatMap_cons, hjt, Option.map_some', Option.getD_some,
      Joint.getAcceleration]
    rw [splice_concat b jt.qdd _ j jt.dof _ hq (by omega)]

theorem setAccelerationLoop_spec (q : List α) (es : List Edge) (m : Model α) (j : ℕ)
    (hnd : es.Nodup)
    (hv : ∀ e ∈ es, e ∈ m.tree.edges ∧ (m.tree.transform e).joint.isSome = true)
    (hq : j + (es.map m.dofAt).sum ≤ q.length) :
    ∃ m'', setAccelerationLoop q es j m = .ok m'' ∧
      m''.joints = m.joints ∧ m''.tree.edges = m.tree.edges ∧
      (∀ e, m''.dofAt e = m.dofAt e) ∧
      (∀ e, e ∉ es → m''.tree.transform e = m.tree.transform e) ∧
      ∀ pre e post, es = pre ++ e :: post →
        ∃ jt, m''.jointAt e = .ok jt ∧ jt.getDof = m.dofAt e ∧
          jt.getAcceleration = (q.drop (j + (pre.map m.dofAt).sum)).take (m.dofAt e) := by
  induction es generalizing m j with
  | nil =>
    refine ⟨m, rfl, rfl, rfl, fun _ => rfl, fun _ _ => rfl, ?_⟩
    intro pre e post h
    simp at h
  | cons e es ih =>
    obtain ⟨he, hsome⟩ := hv e (List.mem_cons_self _ _)
    obtain ⟨jt, hjt, hjt', hn, -⟩ := jointAt_of_valid m e he hsome
    rw [List.nodup_cons] at hnd
    obtain ⟨hnot, hnd'⟩ := hnd
    simp only [List.map_cons, List.sum_cons] at hq ⊢
    have hseg : rl.math.segment q j (m.dofAt e) = .ok ((q.drop j).take (m.dofAt e)) := by
      simp only [rl.math.segment]
      rw [if_pos (by omega)]
    have hdp : ∀ f, (m.setJoint e (jt.setAcceleration ((q.drop j).take (m.dofAt e)))).dofAt f
        = m.dofAt f := by
      intro f
      by_cases hf : f = e
      · subst hf
        simp only [dofAt, setJoint_transform_self, hjt']
        rfl
      · simp only [dofAt, setJoint_transform_of_ne m e f _ hf]
    have hs : ∀ f, ((m.setJoint e (jt.setAcceleration
        ((q.drop j).take (m.dofAt e)))).tree.transform f).joint.isSome
        = (m.tree.transform f).joint.isSome := by
      intro f
      by_cases hf : f = e
      · subst hf
        rw [setJoint_transform_self, hsome]
        rfl
      · rw [setJoint_transform_of_ne m e f _ hf]
    have hmap : es.map (m.setJoint e (jt.setAcceleration
        ((q.drop j).take (m.dofAt e)))).dofAt = es.map m.dofAt :=
      List.map_congr_left (fun f _ => hdp f)
    obtain ⟨m'', h₁, h₂, h₄, h₅, h₇, h₉⟩ := ih
      (m.setJoint e (jt.setAcceleration ((q.drop j).take (m.dofAt e))))
      (j + m.dofAt e) hnd'
      (fun f hf => by
        rw [setJoint_edges, hs f]
        exact hv f (List.mem_cons_of_mem _ hf))
      (by rw [hmap]; omega)
    have hje : m''.jointAt e
        = .ok (jt.setAcceleration ((q.drop j).take (m.dofAt e))) := by
      rw [jointAt_eq_ok, h₄, h₇ e hnot]
      exact ⟨he, setJoint_transform_self m e _⟩
    refine ⟨m'', ?_, h₂, h₄, fun f => (h₅ f).trans (hdp f), ?_, ?_⟩
    · simp only [setAccelerationLoop, hjt, ok_bind, hn, hseg]
      exact h₁
    · intro f hf
      rw [List.mem_cons, not_or] at hf
      rw [h₇ f hf.2, setJoint_transform_of_ne m e f _ hf.1]
    · intro pre f post hsplit
      cases pre with
      | nil =>
        simp only [List.nil_append, List.cons.injEq] at hsplit
        obtain ⟨hfe, -⟩ := hsplit
        subst hfe
        exact ⟨_, hje, hn, by simp [Joint.getAcceleration, Joint.setAcceleration]⟩
      | cons p pre =>
        simp only [List.cons_append, List.cons.injEq] at hsplit
        obtain ⟨hpe, hrest⟩ := hsplit
        subst hpe
        obtain ⟨jf, hjf, hdf, hqf⟩ := h₉ pre f post hrest
        refine ⟨jf, hjf, hdf.trans (hdp f), ?_⟩
        rw [hqf, hdp f, List.map_congr_left (fun g _ => hdp g)]
        simp only [List.map_cons, List.sum_cons, Nat.add_assoc]

theorem length_accelerationConcat (m : Model α) (es : List Edge)
    (h : ∀ e ∈ es, ∃ jt, (m.tree.transform e).joint = some jt ∧ jt.qdd.length = jt.dof) :
    (es.flatMap fun e =>
      ((m.tree.transform e).joint.map Joint.getAcceleration).getD []).length
      = (es.map m.dofAt).sum := by
  induction es with
  | nil => rfl
  | cons e es ih =>
    obtain ⟨jt, hjt, hq⟩ := h e (List.mem_cons_self _ _)
    have hn : m.dofAt e = jt.dof := by simp [dofAt, hjt, Joint.getDof]
    rw [List.flatMap_cons, List.length_append, List.map_cons, List.sum_cons,
      ih (fun f hf => h f (List.mem_cons_of_mem _ hf)), hn, hjt]
    simp [Joint.getAcceleration, hq]

/-- C12: in a state whose joint pointers are valid and distinct, as after
`update()`, and whose joints hold acceleration vectors of `dof` components,
`getAcceleration()` is the product of `invGammaVelocity` and the plain
concatenation of the joint accelerations in `joints` order, and
`setAcceleration(v)` assigns to each joint the slice of `gammaVelocity · v`
that starts at the sum of the `dof` of the joints before it and has `dof`
components.  When `gammaVelocity` and its inverse are the identity of size
`getDof()`, as right after `update()`, `getAcceleration()` is the plain
concatenation and `setAcceleration(v)` assigns the slices of `v` itself. -/
theorem acceleration_gamma [Semiring α] (m : Model α) (hv : JointsValid m)
    (hnd : m.joints.Nodup)
    (hq : ∀ e ∈ m.joints, ∀ j, (m.tree.transform e).joint = some j → j.qdd.length = j.dof) :
    m.getAcceleration = m.invGammaVelocity.mulVec (accelerationConcat m) ∧
    (∀ v qdd : List α, m.gammaVelocity.mulVec v = .ok qdd →
      (m.joints.map m.dofAt).sum ≤ qdd.length →
      ∃ m', m.setAcceleration v = .ok m' ∧
        ∀ pre e post, m.joints = pre ++ e :: post →
          ∃ jt, m'.jointAt e = .ok jt ∧ jt.getDof = m.dofAt e ∧
            jt.getAcceleration = (qdd.drop (pre.map m.dofAt).sum).take (m.dofAt e)) ∧
    (m.getDof = .ok (m.joints.map m.dofAt).sum ∧
      (m.gammaVelocity
          = DynMatrix.Identity (m.joints.map m.dofAt).sum (m.joints.map m.dofAt).sum →
        m.invGammaVelocity
          = DynMatrix.Identity (m.joints.map m.dofAt).sum (m.joints.map m.dofAt).sum →
        m.getAcceleration = .ok (accelerationConcat m) ∧
        ∀ v : List α, v.length = (m.joints.map m.dofAt).sum →
          ∃ m', m.setAcceleration v = .ok m' ∧
            ∀ pre e post, m.joints = pre ++ e :: post →
              ∃ jt, m'.jointAt e = .ok jt ∧ jt.getDof = m.dofAt e ∧
                jt.getAcceleration = (v.drop (pre.map m.dofAt).sum).take (m.dofAt e))) := by
  have hq' : ∀ e ∈ m.joints, e ∈ m.tree.edges ∧
      ∃ jt, (m.tree.transform e).joint = some jt ∧ jt.qdd.length = jt.dof := by
    intro e he
    obtain ⟨he', hs⟩ := hv e he
    obtain ⟨jt, hjt⟩ := Option.isSome_iff_exists.mp hs
    exact ⟨he', jt, hjt, hq e he jt hjt⟩
  have hget : m.getAcceleration = m.invGammaVelocity.mulVec (accelerationConcat m) := by
    have hloop := getAccelerationLoop_concat m m.joints 0
      (VectorZero (m.joints.map m.dofAt).sum) hq' (by simp [VectorZero])
    rw [List.take_zero, List.nil_append, Nat.zero_add,
      List.drop_of_length_le (by simp [VectorZero]), List.append_nil] at hloop
    simp only [getAcceleration, hv.getDof_eq, ok_bind, hloop]
    rfl
  have hset : ∀ v qdd : List α, m.gammaVelocity.mulVec v = .ok qdd →
      (m.joints.map m.dofAt).sum ≤ qdd.length →
      ∃ m', m.setAcceleration v = .ok m' ∧
        ∀ pre e post, m.joints = pre ++ e :: post →
          ∃ jt, m'.jointAt e = .ok jt ∧ jt.getDof = m.dofAt e ∧
            jt.getAcceleration = (qdd.drop (pre.map m.dofAt).sum).take (m.dofAt e) := by
    intro v qdd hmul hlen
    obtain ⟨m', h₁, -, -, -, -, h₉⟩ :=
      setAccelerationLoop_spec qdd m.joints m 0 hnd hv (by omega)
    refine ⟨m', ?_, ?_⟩
    · simp only [setAcceleration, hmul, ok_bind]
      exact h₁
    · intro pre e post hsplit
      obtain ⟨jt, hjt, hd, ha⟩ := h₉ pre e post hsplit
      exact ⟨jt, hjt, hd, by simpa using ha⟩
  refine ⟨hget, hset, hv.getDof_eq, ?_⟩
  intro hg hi
  have hlen : (accelerationConcat m).length = (m.joints.map m.dofAt).sum :=
    length_accelerationConcat m m.joints (fun e he => (hq' e he).2)
  constructor
  · rw [hget, hi]
    exact DynMatrix.mulVec_Identity _ _ hlen
  · intro v hvlen
    have hmul : m.gammaVelocity.mulVec v = .ok v := by
      rw [hg]
      exact DynMatrix.mulVec_Identity _ _ hvlen
    exact hset v v hmul (by omega)

theorem exampleAccelerating_isTree :
    exampleAccelerating.tree.IsTree exampleAccelerating.root := by
  have hE : exampleAccelerating.tree.edges = [⟨1, 2, 3⟩] := rfl
  have hV : exampleAccelerating.tree.vertices = [1, 2] := rfl
  have hR : exampleAccelerating.root = 1 := rfl
  have hreach : ∀ v, exampleAccelerating.tree.Reachable 2 v → v = 2 := by
    intro v hv
    induction hv with
    | refl => rfl
    | step e _ he ih =>
      rw [hE, List.mem_singleton] at he
      subst he
      exact absurd ih (by decide)
  refine ⟨by rw [hV, hR]; decide, ?_, by rw [hE]; decide, ?_, ?_⟩
  · intro e he _
    rw [hE, List.mem_singleton] at he
    subst he
    rw [hV]; decide
  · intro e he _ hcycle
    rw [hE, List.mem_singleton] at he
    subst he
    exact absurd (hreach _ hcycle) (by decide)
  · intro e₁ h₁ e₂ h₂ _ _ _
    rw [hE, List.mem_singleton] at h₁ h₂
    rw [h₁, h₂]

theorem exampleAcceleratingUpdated_eq :
    exampleAccelerating.update 3 = .ok exampleAcceleratingUpdated := by
  obtain ⟨m', hm'⟩ := update_ok exampleAccelerating exampleAccelerating_isTree
  have hm : exampleAccelerating.update 3 = .ok m' := hm'
  have h : exampleAcceleratingUpdated = m' := by
    unfold exampleAcceleratingUpdated
    rw [hm]
  rw [h]
  exact hm

theorem exampleAcceleratingRemapped_spec :
    JointsValid exampleAcceleratingRemapped ∧
    exampleAcceleratingRemapped.joints = [⟨1, 2, 3⟩] ∧
    (exampleAcceleratingRemapped.tree.transform ⟨1, 2, 3⟩).joint
      = some ⟨1, 1, [0], [0], [1], [0]⟩ ∧
    exampleAcceleratingRemapped.gammaVelocity = ⟨1, 1, !![2]⟩ ∧
    exampleAcceleratingRemapped.invGammaVelocity = ⟨1, 1, !![1 / 2]⟩ := by
  have hsum : ∀ f : Fin (min 1 1) → ℚ, ∑ x, f x = f ⟨0, by decide⟩ :=
    fun f => Fin.sum_univ_one f
  obtain ⟨g, hj, hv, -⟩ := update_spec 3 exampleAccelerating exampleAcceleratingUpdated
    exampleAcceleratingUpdated_eq
  refine ⟨hv, hj, (g.2.2.2.2.2 _).trans rfl, rfl, ?_⟩
  unfold exampleAcceleratingRemapped setGammaVelocity
  simp only [DynMatrix.mk.injEq, heq_eq_eq, true_and]
  ext i j
  fin_cases i
  fin_cases j
  simp [exampleSVD, Matrix.mul_apply, hsum]
  norm_num

/-- C12 (counterexample): after `update()` on `exampleAccelerating`, whose one
joint has `dof = 1` and holds the acceleration `1`, and `setGammaVelocity` with
the 1 × 1 matrix `(2)`, the plain concatenation of the joint accelerations is
`[1]` but `getAcceleration()` returns `[1/2]`, the product with
`invGammaVelocity`; and `setAcceleration([1])` stores `[2]` in the joint, the
slice of `gammaVelocity · [1]`, not the slice `[1]` of the argument. -/
theorem getAcceleration_remapped :
    exampleAccelerating.update 3 = .ok exampleAcceleratingUpdated ∧
    (exampleSVD 2 ⟨1, 1, !![2]⟩).IsDecomposition !![2] ∧
    exampleAcceleratingRemapped.getGammaVelocity = ⟨1, 1, !![2]⟩ ∧
    exampleAcceleratingRemapped.joints = [⟨1, 2, 3⟩] ∧
    accelerationConcat exampleAcceleratingRemapped = [1] ∧
    exampleAcceleratingRemapped.getAcceleration = .ok [1 / 2] ∧
    ∃ m' jt, exampleAcceleratingRemapped.setAcceleration [1] = .ok m' ∧
      m'.jointAt ⟨1, 2, 3⟩ = .ok jt ∧ jt.getAcceleration = [2] := by
  obtain ⟨hv, hj, ht, hg, hi⟩ := exampleAcceleratingRemapped_spec
  have hconcat : accelerationConcat exampleAcceleratingRemapped = [1] := by
    simp only [accelerationConcat, hj, List.flatMap_cons, List.flatMap_nil, ht]
    rfl
  have hdof : exampleAcceleratingRemapped.dofAt ⟨1, 2, 3⟩ = 1 := by
    simp only [dofAt, ht]
    rfl
  have hsum : (exampleAcceleratingRemapped.joints.map exampleAcceleratingRemapped.dofAt).sum
      = 1 := by
    rw [hj, List.map_cons, List.map_nil, List.sum_cons, List.sum_nil, hdof, Nat.add_zero]
  refine ⟨exampleAcceleratingUpdated_eq, exampleSVD_isDecomposition 2, hg, hj, hconcat, ?_, ?_⟩
  · have hq' : ∀ e ∈ exampleAcceleratingRemapped.joints,
        e ∈ exampleAcceleratingRemapped.tree.edges ∧
        ∃ jt, (exampleAcceleratingRemapped.tree.transform e).joint = some jt ∧
          jt.qdd.length = jt.dof := by
      intro e he
      refine ⟨(hv e he).1, ?_⟩
      rw [hj, List.mem_singleton] at he
      subst he
      exact ⟨_, ht, rfl⟩
    have hloop := getAccelerationLoop_concat exampleAcceleratingRemapped
      exampleAcceleratingRemapped.joints 0 (VectorZero 1) hq' (by rw [hsum]; decide)
    rw [List.take_zero, List.nil_append, Nat.zero_add, hsum] at hloop
    have hc : (exampleAcceleratingRemapped.joints.flatMap fun e =>
        ((exampleAcceleratingRemapped.tree.transform e).joint.map Joint.getAcceleration).getD [])
        = [1] := hconcat
    rw [hc] at hloop
    simp only [getAcceleration, hv.getDof_eq, hsum, ok_bind, hloop, hi]
    simp [DynMatrix.mulVec, VectorZero]
  · have hm : exampleAcceleratingRemapped.gammaVelocity.mulVec [1] = .ok [2] := by
      rw [hg]
      simp [DynMatrix.mulVec]
    obtain ⟨m', h₁, -, -, -, -, h₉⟩ := setAccelerationLoop_spec [2]
      exampleAcceleratingRemapped.joints exampleAcceleratingRemapped 0
      (by rw [hj]; decide) hv (by rw [hsum]; decide)
    obtain ⟨jt, hjt, -, ha⟩ := h₉ [] ⟨1, 2, 3⟩ [] hj
    refine ⟨m', jt, ?_, hjt, ?_⟩
    · simp only [setAcceleration, hm, ok_bind]
      exact h₁
    · rw [ha, hdof]
      rfl

theorem exampleAcceleratingUpdated_spec :
    JointsValid exampleAcceleratingUpdated ∧
    exampleAcceleratingUpdated.joints = [⟨1, 2, 3⟩] ∧
    (exampleAcceleratingUpdated.tree.transform ⟨1, 2, 3⟩).joint
      = some ⟨1, 1, [0], [0], [1], [0]⟩ ∧
    exampleAcceleratingUpdated.gammaVelocity
      = DynMatrix.Identity
          (exampleAcceleratingUpdated.joints.map exampleAcceleratingUpdated.dofAt).sum
          (exampleAcceleratingUpdated.joints.map exampleAcceleratingUpdated.dofAt).sum ∧
    exampleAcceleratingUpdated.invGammaVelocity
      = DynMatrix.Identity
          (exampleAcceleratingUpdated.joints.map exampleAcceleratingUpdated.dofAt).sum
          (exampleAcceleratingUpdated.joints.map exampleAcceleratingUpdated.dofAt).sum := by
  obtain ⟨g, hj, hv, -, h2, -, -, h5⟩ := update_spec 3 exampleAccelerating
    exampleAcceleratingUpdated exampleAcceleratingUpdated_eq
  exact ⟨hv, hj, (g.2.2.2.2.2 _).trans rfl, h2, h5⟩

theorem acceleration_gamma_witness :
    (JointsValid exampleAcceleratingRemapped ∧ exampleAcceleratingRemapped.joints.Nodup ∧
      (∀ e ∈ exampleAcceleratingRemapped.joints, ∀ j,
        (exampleAcceleratingRemapped.tree.transform e).joint = some j →
          j.qdd.length = j.dof) ∧
      exampleAcceleratingRemapped.getAcceleration
        = exampleAcceleratingRemapped.invGammaVelocity.mulVec
            (accelerationConcat exampleAcceleratingRemapped) ∧
      ∀ v qdd : List ℚ, exampleAcceleratingRemapped.gammaVelocity.mulVec v = .ok qdd →
        (exampleAcceleratingRemapped.joints.map exampleAcceleratingRemapped.dofAt).sum
          ≤ qdd.length →
        ∃ m', exampleAcceleratingRemapped.setAcceleration v = .ok m' ∧
          ∀ pre e post, exampleAcceleratingRemapped.joints = pre ++ e :: post →
            ∃ jt, m'.jointAt e = .ok jt ∧ jt.getDof = exampleAcceleratingRemapped.dofAt e ∧
              jt.getAcceleration
                = (qdd.drop (pre.map exampleAcceleratingRemapped.dofAt).sum).take
                    (exampleAcceleratingRemapped.dofAt e)) ∧
    (JointsValid exampleAcceleratingUpdated ∧ exampleAcceleratingUpdated.joints.Nodup ∧
      (∀ e ∈ exampleAcceleratingUpdated.joints, ∀ j,
        (exampleAcceleratingUpdated.tree.transform e).joint = some j →
          j.qdd.length = j.dof) ∧
      exampleAcceleratingUpdated.gammaVelocity
        = DynMatrix.Identity
            (exampleAcceleratingUpdated.joints.map exampleAcceleratingUpdated.dofAt).sum
            (exampleAcceleratingUpdated.joints.map exampleAcceleratingUpdated.dofAt).sum ∧
      exampleAcceleratingUpdated.invGammaVelocity
        = DynMatrix.Identity
            (exampleAcceleratingUpdated.joints.map exampleAcceleratingUpdated.dofAt).sum
            (exampleAcceleratingUpdated.joints.map exampleAcceleratingUpdated.dofAt).sum ∧
      accelerationConcat exampleAcceleratingUpdated = [1] ∧
      exampleAcceleratingUpdated.getAcceleration
        = .ok (accelerationConcat exampleAcceleratingUpdated) ∧
      ∀ v : List ℚ,
        v.length
          = (exampleAcceleratingUpdated.joints.map exampleAcceleratingUpdated.dofAt).sum →
        ∃ m', exampleAcceleratingUpdated.setAcceleration v = .ok m' ∧
          ∀ pre e post, exampleAcceleratingUpdated.joints = pre ++ e :: post →
            ∃ jt, m'.jointAt e = .ok jt ∧ jt.getDof = exampleAcceleratingUpdated.dofAt e ∧
              jt.getAcceleration
                = (v.drop (pre.map exampleAcceleratingUpdated.dofAt).sum).take
                    (exampleAcceleratingUpdated.dofAt e)) :=
  have hv : JointsValid exampleAcceleratingRemapped := exampleAcceleratingRemapped_spec.1
  have hnd : exampleAcceleratingRemapped.joints.Nodup := by
    rw [exampleAcceleratingRemapped_spec.2.1]
    decide
  have hq : ∀ e ∈ exampleAcceleratingRemapped.joints, ∀ j,
      (exampleAcceleratingRemapped.tree.transform e).joint = some j →
        j.qdd.length = j.dof := by
    intro e he j hj
    rw [exampleAcceleratingRemapped_spec.2.1, List.mem_singleton] at he
    subst he
    rw [exampleAcceleratingRemapped_spec.2.2.1] at hj
    injection hj with hj
    subst hj
    rfl
  have hv' : JointsValid exampleAcceleratingUpdated := exampleAcceleratingUpdated_spec.1
  have hnd' : exampleAcceleratingUpdated.joints.Nodup := by
    rw [exampleAcceleratingUpdated_spec.2.1]
    decide
  have hq' : ∀ e ∈ exampleAcceleratingUpdated.joints, ∀ j,
      (exampleAcceleratingUpdated.tree.transform e).joint = some j →
        j.qdd.length = j.dof := by
    intro e he j hj
    rw [exampleAcceleratingUpdated_spec.2.1, List.mem_singleton] at he
    subst he
    rw [exampleAcceleratingUpdated_spec.2.2.1] at hj
    injection hj with hj
    subst hj
    rfl
  have hc : accelerationConcat exampleAcceleratingUpdated = [1] := by
    simp only [accelerationConcat, exampleAcceleratingUpdated_spec.2.1, List.flatMap_cons,
      List.flatMap_nil, exampleAcceleratingUpdated_spec.2.2.1]
    rfl
  have hg := exampleAcceleratingUpdated_spec.2.2.2.1
  have hi := exampleAcceleratingUpdated_spec.2.2.2.2
  ⟨⟨hv, hnd, hq, (acceleration_gamma exampleAcceleratingRemapped hv hnd hq).1,
      (acceleration_gamma exampleAcceleratingRemapped hv hnd hq).2.1⟩,
    ⟨hv', hnd', hq', hg, hi, hc,
      (acceleration_gamma exampleAcceleratingUpdated hv' hnd' hq').2.2.2 hg hi⟩⟩

/-- C13: for every model whose body pointers are valid, as they are after
`update()`, and every pair of indices below `getBodies()`, `areColliding(i, j)`
returns the same as `areColliding(j, i)`, for every per-body collision
predicate, and it returns true exactly when body `i` reports collision with body
`j` or body `j` reports collision with body `i`. -/
theorem areColliding_comm (m : Model α) (i j : ℕ) (hi : i < m.getBodies) (hj : j < m.getBodies)
    (hb : BodiesValid m) :
    m.areColliding i j = m.areColliding j i ∧
    ∃ bi bj, m.getBody i = .ok bi ∧ m.getBody j = .ok bj ∧
      m.areColliding i j
        = .ok ((m.tree.frame bi).collisionWith bj || (m.tree.frame bj).collisionWith bi) := by
  have hi' : i < m.bodies.length := hi
  have hj' : j < m.bodies.length := hj
  have hvi : m.bodies.get ⟨i, hi'⟩ ∈ m.tree.vertices := hb _ (List.get_mem _ _ _)
  have hvj : m.bodies.get ⟨j, hj'⟩ ∈ m.tree.vertices := hb _ (List.get_mem _ _ _)
  have key : ∀ (a b : ℕ) (ha : a < m.bodies.length) (hb' : b < m.bodies.length),
      m.bodies.get ⟨a, ha⟩ ∈ m.tree.vertices → m.bodies.get ⟨b, hb'⟩ ∈ m.tree.vertices →
      m.areColliding a b
        = .ok ((m.tree.frame (m.bodies.get ⟨a, ha⟩)).collisionWith (m.bodies.get ⟨b, hb'⟩)
          || (m.tree.frame (m.bodies.get ⟨b, hb'⟩)).collisionWith (m.bodies.get ⟨a, ha⟩)) := by
    intro a b ha hb' hva hvb
    simp only [areColliding, if_pos ha, if_pos hb', vectorAt_of_lt _ _ ha,
      vectorAt_of_lt _ _ hb', ok_bind, Tree.frameAt_of_mem _ _ hva, Tree.frameAt_of_mem _ _ hvb]
    split
    · rename_i hc
      rw [hc, Bool.true_or]
    · rename_i hc
      rw [Bool.not_eq_true] at hc
      rw [hc, Bool.false_or]
  refine ⟨?_, m.bodies.get ⟨i, hi'⟩, m.bodies.get ⟨j, hj'⟩, ?_, ?_, key i j hi' hj' hvi hvj⟩
  · rw [key i j hi' hj' hvi hvj, key j i hj' hi' hvj hvi, Bool.or_comm]
  · rw [getBody, if_pos hi', vectorAt_of_lt _ _ hi']
  · rw [getBody, if_pos hj', vectorAt_of_lt _ _ hj']

theorem exampleCollidingUpdated_eq : exampleColliding.update 4 = .ok exampleCollidingUpdated :=
  rfl

theorem areColliding_comm_witness :
    0 < exampleCollidingUpdated.getBodies ∧ 1 < exampleCollidingUpdated.getBodies ∧
    BodiesValid exampleCollidingUpdated ∧
    exampleCollidingUpdated.bodies = [2, 3] ∧
    (exampleCollidingUpdated.tree.frame 2).collisionWith 3 = true ∧
    (exampleCollidingUpdated.tree.frame 3).collisionWith 2 = false ∧
    exampleCollidingUpdated.areColliding 0 1 = .ok true ∧
    exampleCollidingUpdated.areColliding 1 0 = .ok true ∧
    (exampleCollidingUpdated.areColliding 0 1 = exampleCollidingUpdated.areColliding 1 0 ∧
    ∃ bi bj, exampleCollidingUpdated.getBody 0 = .ok bi ∧
      exampleCollidingUpdated.getBody 1 = .ok bj ∧
      exampleCollidingUpdated.areColliding 0 1
        = .ok ((exampleCollidingUpdated.tree.frame bi).collisionWith bj
          || (exampleCollidingUpdated.tree.frame bj).collisionWith bi)) :=
  have hb : BodiesValid exampleCollidingUpdated :=
    (update_pointers 4 exampleColliding _ exampleCollidingUpdated_eq).1
  ⟨by decide, by decide, hb, rfl, rfl, rfl, rfl, rfl,
    areColliding_comm exampleCollidingUpdated 0 1 (by decide) (by decide) hb⟩

theorem updateVertex_chain_leaves [Zero α] [One α] (fuel : ℕ) (m : Model α) (u : Vertex)
    (m' : Model α) (hch : ∀ v, m.tree.out_degree v ≤ 1)
    (h : updateVertex fuel m u = .ok m') : ∃ v, m'.leaves = m.leaves ++ [v] := by
  induction fuel generalizing m u m' with
  | zero => simp [updateVertex] at h
  | succ fuel ih =>
    simp only [updateVertex] at h
    rw [bind_eq_ok] at h
    obtain ⟨frame, -, h⟩ := h
    rw [bind_eq_ok] at h
    obtain ⟨m₃, h₃, h⟩ := h
    rw [bind_eq_ok] at h
    obtain ⟨dofPosition, -, h⟩ := h
    rw [bind_eq_ok] at h
    obtain ⟨dof, -, h⟩ := h
    simp only [Except.ok.injEq] at h
    subst h
    have h₂ : ∀ m₂ : Model α, m₂.tree = m.tree → m₂.leaves = m.leaves →
        (if m₂.tree.out_degree u > 0 then
          updateOutEdges (updateVertex fuel) u (m₂.tree.out_edges u) m₂
        else .ok (m₂.pushLeaf u)) = .ok m₃ → ∃ v, m₃.leaves = m.leaves ++ [v] := by
      intro m₂ ht hl h₃
      split at h₃
      · rename_i hpos
        have hone : (m₂.tree.out_edges u).length = 1 := by
          have := hch u
          rw [← ht] at this
          unfold Tree.out_degree at this hpos
          omega
        obtain ⟨e, he⟩ := List.length_eq_one.mp hone
        rw [he] at h₃
        simp only [updateOutEdges] at h₃
        rw [bind_eq_ok] at h₃
        obtain ⟨m₄, h₄, h₃⟩ := h₃
        simp only [Except.ok.injEq] at h₃
        subst h₃
        have hch' : ∀ (a : Model α), a.tree.edges = m.tree.edges →
            ∀ v, a.tree.out_degree v ≤ 1 := by
          intro a ha v
          have := hch v
          unfold Tree.out_degree Tree.out_edges at this ⊢
          rw [ha]
          exact this
        have hE : m₂.tree.edges = m.tree.edges := by rw [ht]
        split at h₄
        · obtain ⟨v, hv⟩ := ih (((m₂.pushTransform e).setInOut e u e.target).pushJoint e) _ _
            (hch' _ hE) h₄
          exact ⟨v, hv.trans (congrArg (· ++ [v]) hl)⟩
        · obtain ⟨v, hv⟩ := ih ((m₂.pushTransform e).setInOut e u e.target) _ _
            (hch' _ hE) h₄
          exact ⟨v, hv.trans (congrArg (· ++ [v]) hl)⟩
      · simp only [Except.ok.injEq] at h₃
        subst h₃
        exact ⟨u, by rw [pushLeaf_leaves, hl]⟩
    simp only [resetGamma_leaves]
    split at h₃
    · exact h₂ ((m.pushFrame u).pushBody u) rfl rfl h₃
    · exact h₂ (m.pushFrame u) rfl rfl h₃

theorem exampleChain_isTree : exampleChain.tree.IsTree exampleChain.root := by
  have hE : exampleChain.tree.edges = [⟨1, 2, 5⟩, ⟨2, 3, 6⟩, ⟨3, 4, 7⟩] := rfl
  have hV : exampleChain.tree.vertices = [1, 2, 3, 4] := rfl
  have hR : exampleChain.root = 1 := rfl
  have hmono : ∀ a v, exampleChain.tree.Reachable a v → a ≤ v := by
    intro a v hv
    induction hv with
    | refl => exact le_refl a
    | step e _ he ih =>
      rw [hE] at he
      simp only [List.mem_cons, List.mem_singleton, List.not_mem_nil, or_false] at he
      rcases he with he | he | he <;> subst he <;> exact le_trans ih (by decide)
  refine ⟨by rw [hV, hR]; decide, ?_, by rw [hE]; decide, ?_, ?_⟩
  · intro e he _
    rw [hE] at he
    simp only [List.mem_cons, List.mem_singleton, List.not_mem_nil, or_false] at he
    rcases he with he | he | he <;> subst he <;> rw [hV] <;> decide
  · intro e he _ hcycle
    have := hmono _ _ hcycle
    rw [hE] at he
    simp only [List.mem_cons, List.mem_singleton, List.not_mem_nil, or_false] at he
    rcases he with he | he | he <;> subst he <;> exact absurd this (by decide)
  · intro e₁ h₁ e₂ h₂ _ _ ht
    rw [hE] at h₁ h₂
    simp only [List.mem_cons, List.mem_singleton, List.not_mem_nil, or_false] at h₁ h₂
    rcases h₁ with h₁ | h₁ | h₁ <;> rcases h₂ with h₂ | h₂ | h₂ <;> subst h₁ <;> subst h₂ <;>
      first | rfl | exact absurd ht (by decide)

theorem exampleChain_out_degree (v : Vertex) : exampleChain.tree.out_degree v ≤ 1 := by
  have hE : exampleChain.tree.edges = [⟨1, 2, 5⟩, ⟨2, 3, 6⟩, ⟨3, 4, 7⟩] := rfl
  unfold Tree.out_degree Tree.out_edges
  rw [hE]
  clear hE
  simp only [List.filter_cons, List.filter_nil, decide_eq_true_eq]
  split_ifs with h₁ h₂ h₃ h₃ h₂ h₃ h₃ <;>
    first
    | decide
    | exact absurd (h₁.trans h₂.symm) (by decide)
    | exact absurd (h₁.trans h₃.symm) (by decide)
    | exact absurd (h₂.trans h₃.symm) (by decide)

/-- C16: the serial chain world → fixed → frame → joint1 → body1 → joint2 → body2
built with `add` (`exampleChain`) has, after one `update()`, `getDof() = 2`,
`getJoints() = 2`, `getBodies() = 2`, `getTransforms() = 3` and
`getOperationalDof() = 1`, with the second body (vertex `4`) as the single leaf;
and for every model whose graph is a tree in which each vertex has at most one
outgoing edge, `update()` returns and after it `getOperationalDof() = 1`. -/
theorem update_serial_chain :
    (exampleChain.update 5 >>= fun m =>
      .ok (m.getDof, m.getJoints, m.getBodies, m.getTransforms, m.getOperationalDof, m.leaves))
        = .ok (.ok 2, 2, 2, 3, 1, [4]) ∧
    (exampleChain.tree.frame 4).kind = .Body ∧
    exampleChain.tree.in_edges 4 = [⟨3, 4, 7⟩] ∧
    exampleChain.tree.IsTree exampleChain.root ∧
    (∀ v, exampleChain.tree.out_degree v ≤ 1) ∧
    ∀ (β : Type) [Zero β] [One β] (m : Model β), m.tree.IsTree m.root →
      (∀ v, m.tree.out_degree v ≤ 1) →
      (∃ fuel m', m.update fuel = .ok m') ∧
      ∀ fuel m', m.update fuel = .ok m' →
        m'.getOperationalDof = 1 ∧ ∃ leaf, m'.leaves = [leaf] := by
  refine ⟨rfl, rfl, rfl, exampleChain_isTree, exampleChain_out_degree, ?_⟩
  intro β _ _ m ht hch
  refine ⟨⟨_, update_ok m ht⟩, ?_⟩
  intro fuel m' h
  obtain ⟨v, hv⟩ := updateVertex_chain_leaves fuel m.clear m.root m' hch h
  rw [clear_leaves, List.nil_append] at hv
  exact ⟨by rw [getOperationalDof, hv]; rfl, v, hv⟩

end Model
end mdl
end rl

namespace rl
namespace math

/-- C21: for every transform `M`, `toDelta(M, true)` called on the identity
transform equals `M.getDelta()` in all six components, whatever conversion of
Eigen the exact branch would use; and for every delta `d`, `getDelta()` of the
transform that `fromDelta(Identity, d, true)` produces equals `d`. -/
theorem getDelta_eq_toDelta_approx
    (fromRotationMatrix : Matrix (Fin 3) (Fin 3) ℝ → ℝ × (Fin 3 → ℝ)) :
    (∀ (M : Transform) (i : Fin 6),
      toDelta fromRotationMatrix Transform.Identity M true i = getDelta M i) ∧
    ∀ d : Vector6, getDelta (fromDelta Transform.Identity d true) = d := by
  constructor
  · intro M i
    fin_cases i <;>
      simp [toDelta, getDelta, Transform.Identity, vec6_val_five, Matrix.vecHead,
        Matrix.vecTail]
    exact Or.inl (by ring1)
  · intro d
    funext i
    fin_cases i <;>
      simp [getDelta, fromDelta, Transform.Identity, vec6_val_five, Matrix.vecHead,
        Matrix.vecTail] <;>
      ring1

/-- C26: for every real `d`, `theta`, `a` and `alpha`, the rotation block `R` of
the transform built by `fromDenavitHartenbergPaul` satisfies `R · Rᵀ = 1` and
`det R = 1`, and the bottom row of the transform is `(0, 0, 0, 1)`. -/
theorem fromDenavitHartenbergPaul_rigid (d theta a alpha : ℝ) :
    (fromDenavitHartenbergPaul d theta a alpha).linear
      * (fromDenavitHartenbergPaul d theta a alpha).linear.transpose = 1 ∧
    (fromDenavitHartenbergPaul d theta a alpha).linear.det = 1 ∧
    fromDenavitHartenbergPaul d theta a alpha 3 0 = 0 ∧
    fromDenavitHartenbergPaul d theta a alpha 3 1 = 0 ∧
    fromDenavitHartenbergPaul d theta a alpha 3 2 = 0 ∧
    fromDenavitHartenbergPaul d theta a alpha 3 3 = 1 := by
  have ht := Real.sin_sq_add_cos_sq theta
  have ha := Real.sin_sq_add_cos_sq alpha
  have hL : (fromDenavitHartenbergPaul d theta a alpha).linear
      = !![Real.cos theta, -Real.cos alpha * Real.sin theta, Real.sin alpha * Real.sin theta;
           Real.sin theta, Real.cos alpha * Real.cos theta, -Real.sin alpha * Real.cos theta;
           0, Real.sin alpha, Real.cos alpha] := by
    ext i j
    fin_cases i <;> fin_cases j <;>
      simp [Transform.linear, fromDenavitHartenbergPaul, Matrix.vecHead, Matrix.vecTail]
  refine ⟨?_, ?_, ?_, ?_, ?_, ?_⟩
  · rw [hL]
    ext i j
    fin_cases i <;> fin_cases j <;>
      simp [Matrix.mul_apply, Fin.sum_univ_three, Matrix.vecHead, Matrix.vecTail] <;>
      first
      | ring1
      | linear_combination ha
      | linear_combination ht + Real.sin theta ^ 2 * ha
      | linear_combination ht + Real.cos theta ^ 2 * ha
      | linear_combination (-(Real.sin theta * Real.cos theta)) * ha
  · rw [hL, Matrix.det_fin_three]
    simp [Matrix.vecHead, Matrix.vecTail]
    linear_combination ht + (Real.cos theta ^ 2 + Real.sin theta ^ 2) * ha
  · simp [fromDenavitHartenbergPaul, Matrix.vecHead, Matrix.vecTail]
  · simp [fromDenavitHartenbergPaul, Matrix.vecHead, Matrix.vecTail]
  · simp [fromDenavitHartenbergPaul, Matrix.vecHead, Matrix.vecTail]
  · simp [fromDenavitHartenbergPaul, Matrix.vecHead, Matrix.vecTail]

end math
end rl

namespace rl
namespace mdl

open rl.math

variable {α : Type}

theorem Tree.Reachable.head {t : Tree α} {e : Edge} {v : Vertex} (he : e ∈ t.edges)
    (h : t.Reachable e.target v) : t.Reachable e.source v :=
  (Tree.Reachable.step e Tree.Reachable.refl he).concat h

theorem Tree.mem_elementsFrom {t : Tree α} (fuel : ℕ) (u : Vertex) (x : Element)
    (h : x ∈ t.elementsFrom fuel u) :
    (∀ v, x = Element.frame v → t.Reachable u v) ∧
    (∀ e, x = Element.transform e → e ∈ t.edges ∧ t.Reachable u e.source) := by
  induction fuel generalizing u with
  | zero => simp [Tree.elementsFrom] at h
  | succ fuel ih =>
    simp only [Tree.elementsFrom, List.mem_cons, List.mem_flatMap] at h
    rcases h with h | ⟨f, hf, h | h⟩
    · subst h
      refine ⟨fun v hv => ?_, fun e he => ?_⟩
      · injection hv with hv
        exact hv ▸ Tree.Reachable.refl
      · cases he
    · subst h
      rw [Tree.mem_out_edges] at hf
      refine ⟨fun v hv => ?_, fun e he => ?_⟩
      · cases hv
      · injection he with he
        subst he
        exact ⟨hf.1, hf.2 ▸ Tree.Reachable.refl⟩
    · rw [Tree.mem_out_edges] at hf
      obtain ⟨h1, h2⟩ := ih f.target h
      refine ⟨fun v hv => ?_, fun e he => ?_⟩
      · exact hf.2 ▸ Tree.Reachable.head hf.1 (h1 v hv)
      · exact ⟨(h2 e he).1, hf.2 ▸ Tree.Reachable.head hf.1 (h2 e he).2⟩

theorem Tree.Covers.pos {t : Tree α} {fuel : ℕ} {u : Vertex} (h : t.Covers fuel u) :
    ∃ k, fuel = k + 1 := by
  cases fuel with
  | zero => exact absurd h id
  | succ k => exact ⟨k, rfl⟩

theorem Tree.subtree_infix {t : Tree α} {fuel : ℕ} {u v : Vertex} (hr : t.Reachable u v)
    (hc : t.Covers fuel u) :
    ∃ k, t.Covers (k + 1) v ∧ t.elementsFrom (k + 1) v <:+: t.elementsFrom fuel u := by
  induction hr with
  | refl =>
    obtain ⟨k, hk⟩ := hc.pos
    subst hk
    exact ⟨k, hc, List.infix_refl _⟩
  | step e _ he ih =>
    obtain ⟨k, hk, hinf⟩ := ih
    have hmem : e ∈ t.out_edges e.source := Tree.mem_out_edges.mpr ⟨he, rfl⟩
    have hct : t.Covers k e.target := hk e hmem
    obtain ⟨k', hk'⟩ := hct.pos
    subst hk'
    refine ⟨k', hct, List.IsInfix.trans ?_ hinf⟩
    have h1 : t.elementsFrom (k' + 1) e.target
        <:+: (Element.transform e :: t.elementsFrom (k' + 1) e.target) :=
      (List.suffix_cons _ _).isInfix
    have h2 : (Element.transform e :: t.elementsFrom (k' + 1) e.target)
        <:+: (t.out_edges e.source).flatMap fun e =>
          Element.transform e :: t.elementsFrom (k' + 1) e.target := by
      rw [List.flatMap_def]
      exact List.infix_of_mem_flatten (List.mem_map.mpr ⟨e, hmem, rfl⟩)
    have h3 : ((t.out_edges e.source).flatMap fun e =>
          Element.transform e :: t.elementsFrom (k' + 1) e.target)
        <:+: t.elementsFrom (k' + 1 + 1) e.source := by
      simp only [Tree.elementsFrom]
      exact (List.suffix_cons _ _).isInfix
    exact (h1.trans h2).trans h3

theorem Tree.frame_mem_elementsFrom {t : Tree α} {fuel : ℕ} {u v : Vertex}
    (hr : t.Reachable u v) (hc : t.Covers fuel u) :
    Element.frame v ∈ t.elementsFrom fuel u := by
  obtain ⟨k, -, hinf⟩ := Tree.subtree_infix hr hc
  apply hinf.subset
  simp [Tree.elementsFrom]

theorem Tree.transform_order {t : Tree α} {fuel : ℕ} {u : Vertex} {e : Edge}
    (he : e ∈ t.edges) (hr : t.Reachable u e.source) (hc : t.Covers fuel u) :
    Element.transform e ∈ t.elementsFrom fuel u ∧
    [Element.transform e, Element.frame e.target] <:+: t.elementsFrom fuel u ∧
    List.Sublist [Element.frame e.source, Element.transform e] (t.elementsFrom fuel u) := by
  obtain ⟨k, hk, hinf⟩ := Tree.subtree_infix hr hc
  have hmem : e ∈ t.out_edges e.source := Tree.mem_out_edges.mpr ⟨he, rfl⟩
  obtain ⟨k', hk'⟩ := (hk e hmem).pos
  subst hk'
  have hblock : (Element.transform e :: t.elementsFrom (k' + 1) e.target)
      <:+: (t.out_edges e.source).flatMap fun e =>
        Element.transform e :: t.elementsFrom (k' + 1) e.target := by
    rw [List.flatMap_def]
    exact List.infix_of_mem_flatten (List.mem_map.mpr ⟨e, hmem, rfl⟩)
  have hpre : [Element.transform e, Element.frame e.target]
      <:+: (Element.transform e :: t.elementsFrom (k' + 1) e.target) := by
    simp only [Tree.elementsFrom]
    exact (List.prefix_iff_eq_append.mpr (by simp)).isInfix
  have hsub : (t.out_edges e.source).flatMap (fun e =>
        Element.transform e :: t.elementsFrom (k' + 1) e.target)
      <:+: t.elementsFrom (k' + 1 + 1) e.source := by
    simp only [Tree.elementsFrom]
    exact (List.suffix_cons _ _).isInfix
  have h2 : [Element.transform e, Element.frame e.target] <:+: t.elementsFrom fuel u :=
    ((hpre.trans hblock).trans hsub).trans hinf
  refine ⟨h2.subset (by simp), h2, ?_⟩
  have hin : Element.transform e ∈ (t.out_edges e.source).flatMap fun e =>
      Element.transform e :: t.elementsFrom (k' + 1) e.target :=
    hblock.subset (by simp)
  have h3 : List.Sublist [Element.frame e.source, Element.transform e]
      (t.elementsFrom (k' + 1 + 1) e.source) := by
    simp only [Tree.elementsFrom]
    exact List.Sublist.cons₂ _ (List.singleton_sublist.mpr hin)
  exact h3.trans hinf.sublist

theorem Tree.IsTree.nodup_elementsFrom {t : Tree α} {root : Vertex} (ht : t.IsTree root)
    (fuel : ℕ) (u : Vertex) (hu : t.Reachable root u) : (t.elementsFrom fuel u).Nodup := by
  induction fuel generalizing u with
  | zero => simp [Tree.elementsFrom]
  | succ fuel ih =>
    simp only [Tree.elementsFrom]
    rw [List.nodup_cons]
    constructor
    · intro hmem
      rw [List.mem_flatMap] at hmem
      obtain ⟨e, he, hx⟩ := hmem
      rw [Tree.mem_out_edges] at he
      rw [List.mem_cons] at hx
      rcases hx with hx | hx
      · cases hx
      · have := (Tree.mem_elementsFrom fuel _ _ hx).1 u rfl
        exact ht.not_reachable_source he.1 (he.2 ▸ hu) (he.2 ▸ this)
    · rw [List.nodup_flatMap]
      constructor
      · intro e he
        rw [Tree.mem_out_edges] at he
        have hre : t.Reachable root e.source := he.2 ▸ hu
        have hrt : t.Reachable root e.target := Tree.Reachable.step e hre he.1
        rw [List.nodup_cons]
        refine ⟨fun hx => ?_, ih e.target hrt⟩
        exact ht.not_reachable_source he.1 hre
          ((Tree.mem_elementsFrom fuel _ _ hx).2 e rfl).2
      · have hnd : (t.out_edges u).Nodup := ht.nodup.filter _
        refine List.Pairwise.imp_of_mem ?_ hnd
        intro e₁ e₂ he₁ he₂ hne
        rw [Tree.mem_out_edges] at he₁ he₂
        have hs : e₁.source = e₂.source := he₁.2.trans he₂.2.symm
        have hr₁ : t.Reachable root e₁.source := he₁.2 ▸ hu
        have hr₂ : t.Reachable root e₂.source := he₂.2 ▸ hu
        rw [Function.onFun, List.disjoint_left]
        intro x hx hx'
        rw [List.mem_cons] at hx hx'
        cases x with
        | frame v =>
          have k₁ : t.Reachable e₁.target v := by
            rcases hx with hx | hx
            · cases hx
            · exact (Tree.mem_elementsFrom fuel _ _ hx).1 v rfl
          have k₂ : t.Reachable e₂.target v := by
            rcases hx' with hx | hx
            · cases hx
            · exact (Tree.mem_elementsFrom fuel _ _ hx).1 v rfl
          exact ht.disjoint_subtrees he₁.1 he₂.1 hs hr₁ hne k₁ k₂
        | transform f =>
          have key₁ : f = e₁ ∨ t.Reachable e₁.target f.source := by
            rcases hx with hx | hx
            · left
              injection hx
            · exact Or.inr ((Tree.mem_elementsFrom fuel _ _ hx).2 f rfl).2
          have key₂ : f = e₂ ∨ t.Reachable e₂.target f.source := by
            rcases hx' with hx | hx
            · left
              injection hx
            · exact Or.inr ((Tree.mem_elementsFrom fuel _ _ hx).2 f rfl).2
          rcases key₁ with k₁ | k₁ <;> rcases key₂ with k₂ | k₂
          · exact hne (k₁.symm.trans k₂)
          · subst k₁
            rw [hs] at k₂
            exact ht.not_reachable_source he₂.1 hr₂ k₂
          · subst k₂
            rw [← hs] at k₁
            exact ht.not_reachable_source he₁.1 hr₁ k₁
          · exact ht.disjoint_subtrees he₁.1 he₂.1 hs hr₁ hne k₁ k₂

@[simp] theorem filterMap_asFrame_frame (v : Vertex) (E : List Element) :
    (Element.frame v :: E).filterMap Element.asFrame = v :: E.filterMap Element.asFrame := rfl

@[simp] theorem filterMap_asFrame_transform (e : Edge) (E : List Element) :
    (Element.transform e :: E).filterMap Element.asFrame = E.filterMap Element.asFrame := rfl

@[simp] theorem filterMap_asTransform_frame (v : Vertex) (E : List Element) :
    (Element.frame v :: E).filterMap Element.asTransform = E.filterMap Element.asTransform :=
  rfl

@[simp] theorem filterMap_asTransform_transform (e : Edge) (E : List Element) :
    (Element.transform e :: E).filterMap Element.asTransform
      = e :: E.filterMap Element.asTransform := rfl

theorem length_filterMap_elements (E : List Element) :
    E.length = (E.filterMap Element.asFrame).length
      + (E.filterMap Element.asTransform).length := by
  induction E with
  | nil => rfl
  | cons x E ih =>
    cases x with
    | frame v =>
      simp only [List.length_cons, filterMap_asFrame_frame, filterMap_asFrame_transform,
        filterMap_asTransform_frame, filterMap_asTransform_transform, ih]
      omega
    | transform e =>
      simp only [List.length_cons, filterMap_asFrame_frame, filterMap_asFrame_transform,
        filterMap_asTransform_frame, filterMap_asTransform_transform, ih]
      omega

theorem Tree.count_elementsFrom {t : Tree α} (fuel : ℕ) (u : Vertex) (hc : t.Covers fuel u) :
    ((t.elementsFrom fuel u).filterMap Element.asTransform).length + 1
      = ((t.elementsFrom fuel u).filterMap Element.asFrame).length := by
  induction fuel generalizing u with
  | zero => exact absurd hc id
  | succ fuel ih =>
    have hc' : ∀ e ∈ t.out_edges u, t.Covers fuel e.target := hc
    have key : ∀ es : List Edge, (∀ e ∈ es, t.Covers fuel e.target) →
        ((es.flatMap fun e => Element.transform e :: t.elementsFrom fuel e.target).filterMap
          Element.asTransform).length
        = ((es.flatMap fun e => Element.transform e :: t.elementsFrom fuel e.target).filterMap
          Element.asFrame).length := by
      intro es hes
      induction es with
      | nil => rfl
      | cons e es ihes =>
        have h1 := ih e.target (hes e (List.mem_cons_self _ _))
        have h2 := ihes (fun f hf => hes f (List.mem_cons_of_mem _ hf))
        simp only [List.flatMap_cons, List.cons_append, filterMap_asFrame_transform,
          filterMap_asTransform_transform, List.filterMap_append, List.length_append,
          List.length_cons] at h1 h2 ⊢
        omega
    have := key (t.out_edges u) hc'
    simp only [Tree.elementsFrom, filterMap_asFrame_frame, filterMap_asTransform_frame,
      List.length_cons]
    omega

namespace Model

theorem Appended.nil (t : Tree α) (m : Model α) : Appended t m m [] := by
  simp [Appended]

theorem Appended.join {t : Tree α} {m₀ m₁ m₂ : Model α} {E₁ E₂ : List Element}
    (h₁ : Appended t m₀ m₁ E₁) (h₂ : Appended t m₁ m₂ E₂) : Appended t m₀ m₂ (E₁ ++ E₂) := by
  obtain ⟨a₁, b₁, c₁, d₁, e₁⟩ := h₁
  obtain ⟨a₂, b₂, c₂, d₂, e₂⟩ := h₂
  refine ⟨?_, ?_, ?_, ?_, ?_⟩
  · rw [a₂, a₁, List.append_assoc]
  · rw [b₂, b₁, List.filterMap_append, List.append_assoc]
  · rw [c₂, c₁, List.filterMap_append, List.filter_append, List.append_assoc]
  · rw [d₂, d₁, List.filterMap_append, List.filter_append, List.append_assoc]
  · rw [e₂, e₁, List.filterMap_append, List.filter_append, List.flatMap_append,
      List.append_assoc]

theorem Appended.of_eq {t : Tree α} {m₀ m m' : Model α} {E : List Element}
    (h : Appended t m₀ m E) (h₁ : m'.elements = m.elements)
    (h₂ : m'.transforms = m.transforms) (h₃ : m'.bodies = m.bodies)
    (h₄ : m'.leaves = m.leaves) (h₅ : m'.tools = m.tools) : Appended t m₀ m' E := by
  unfold Appended
  rw [h₁, h₂, h₃, h₄, h₅]
  exact h

theorem Tree.out_edges_congr {t t' : Tree α} (hE : t'.edges = t.edges) (u : Vertex) :
    t'.out_edges u = t.out_edges u := by
  simp only [Tree.out_edges, hE]

theorem Tree.in_edges_congr {t t' : Tree α} (hE : t'.edges = t.edges) (u : Vertex) :
    t'.in_edges u = t.in_edges u := by
  simp only [Tree.in_edges, hE]

theorem updateOutEdges_trace (t : Tree α) (fuel : ℕ)
    (recurse : Model α → Vertex → Except Error (Model α))
    (hrec : ∀ m v m', m.tree.edges = t.edges → m.tree.frame = t.frame →
      recurse m v = .ok m' →
      (m'.tree.edges = t.edges ∧ m'.tree.frame = t.frame) ∧
      Appended t m m' (t.elementsFrom fuel v) ∧ t.Covers fuel v)
    (u : Vertex) (es : List Edge) (m m' : Model α)
    (hE : m.tree.edges = t.edges) (hF : m.tree.frame = t.frame)
    (h : updateOutEdges recurse u es m = .ok m') :
    (m'.tree.edges = t.edges ∧ m'.tree.frame = t.frame) ∧
    Appended t m m'
      (es.flatMap fun e => Element.transform e :: t.elementsFrom fuel e.target) ∧
    ∀ e ∈ es, t.Covers fuel e.target := by
  induction es generalizing m with
  | nil =>
    simp only [updateOutEdges, Except.ok.injEq] at h
    subst h
    exact ⟨⟨hE, hF⟩, Appended.nil t m, fun e he => absurd he (List.not_mem_nil e)⟩
  | cons e es ih =>
    simp only [updateOutEdges] at h
    rw [bind_eq_ok] at h
    obtain ⟨m₄, h₄, h⟩ := h
    have step : ∀ m₂ : Model α, m₂.tree.edges = t.edges → m₂.tree.frame = t.frame →
        Appended t m m₂ [Element.transform e] → recurse m₂ e.target = .ok m₄ →
        (m'.tree.edges = t.edges ∧ m'.tree.frame = t.frame) ∧
        Appended t m m'
          ((e :: es).flatMap fun e => Element.transform e :: t.elementsFrom fuel e.target) ∧
        ∀ f ∈ e :: es, t.Covers fuel f.target := by
      intro m₂ hE₂ hF₂ ha₂ h₂
      obtain ⟨⟨hE₄, hF₄⟩, ha₄, hc₄⟩ := hrec m₂ e.target m₄ hE₂ hF₂ h₂
      obtain ⟨hEF, ha, hc⟩ := ih m₄ hE₄ hF₄ h
      refine ⟨hEF, ?_, ?_⟩
      · have := (ha₂.join ha₄).join ha
        simpa [List.flatMap_cons] using this
      · intro f hf
        rcases List.mem_cons.mp hf with hf | hf
        · exact hf ▸ hc₄
        · exact hc f hf
    have hbase : Appended t m ((m.pushTransform e).setInOut e u e.target) [Element.transform e] := by
      refine ⟨rfl, rfl, ?_, ?_, ?_⟩
      · show m.bodies = m.bodies ++ _
        simp
      · show m.leaves = m.leaves ++ _
        simp
      · show m.tools = m.tools ++ _
        simp
    split at h₄
    · exact step (((m.pushTransform e).setInOut e u e.target).pushJoint e) hE hF
        (hbase.of_eq rfl rfl rfl rfl rfl) h₄
    · exact step ((m.pushTransform e).setInOut e u e.target) hE hF hbase h₄

theorem updateVertex_trace [Zero α] [One α] (t : Tree α) (fuel : ℕ) (m : Model α)
    (u : Vertex) (m' : Model α) (hE : m.tree.edges = t.edges) (hF : m.tree.frame = t.frame)
    (h : updateVertex fuel m u = .ok m') :
    (m'.tree.edges = t.edges ∧ m'.tree.frame = t.frame) ∧
    Appended t m m' (t.elementsFrom fuel u) ∧ t.Covers fuel u := by
  induction fuel generalizing m u m' with
  | zero => simp [updateVertex] at h
  | succ fuel ih =>
    simp only [updateVertex] at h
    rw [bind_eq_ok] at h
    obtain ⟨frame, hframe, h⟩ := h
    rw [bind_eq_ok] at h
    obtain ⟨m₃, h₃, h⟩ := h
    rw [bind_eq_ok] at h
    obtain ⟨dofPosition, -, h⟩ := h
    rw [bind_eq_ok] at h
    obtain ⟨dof, -, h⟩ := h
    simp only [Except.ok.injEq] at h
    subst h
    have hfr : frame = t.frame u := by
      unfold Tree.frameAt at hframe
      split at hframe
      · injection hframe with hframe
        rw [← hframe, hF]
      · cases hframe
    have hout : ∀ m₂ : Model α, m₂.tree = m.tree → m₂.tree.out_edges u = t.out_edges u :=
      fun m₂ ht => Tree.out_edges_congr (ht ▸ hE) u
    have hdeg : ∀ m₂ : Model α, m₂.tree = m.tree → m₂.tree.out_degree u = t.out_degree u :=
      fun m₂ ht => congrArg List.length (hout m₂ ht)
    have h₂ : ∀ m₂ : Model α, m₂.tree = m.tree → m₂.elements = m.elements ++ [Element.frame u] →
        m₂.transforms = m.transforms →
        m₂.bodies = m.bodies ++ [u].filter (fun v => (t.frame v).kind = .Body) →
        m₂.leaves = m.leaves → m₂.tools = m.tools →
        (if m₂.tree.out_degree u > 0 then
          updateOutEdges (updateVertex fuel) u (m₂.tree.out_edges u) m₂
        else .ok (m₂.pushLeaf u)) = .ok m₃ →
        (m₃.tree.edges = t.edges ∧ m₃.tree.frame = t.frame) ∧
        Appended t m m₃ (t.elementsFrom (fuel + 1) u) ∧ t.Covers (fuel + 1) u := by
      intro m₂ ht he htr hb hl hto h₃
      rw [hdeg m₂ ht, hout m₂ ht] at h₃
      split at h₃
      · rename_i hpos
        have hnz : ¬ t.out_degree u = 0 := by omega
        obtain ⟨hEF, ha, hc⟩ := updateOutEdges_trace t fuel (updateVertex fuel)
          (fun a v a' haE haF ha => ih a v a' haE haF ha) u _ m₂ m₃
          (ht ▸ hE) (ht ▸ hF) h₃
        have ha₂ : Appended t m m₂ [Element.frame u] := by
          refine ⟨he, ?_, ?_, ?_, ?_⟩
          · rw [htr]; simp
          · rw [hb]; simp
          · rw [hl]; simp [hnz]
          · rw [hto]; simp [hnz]
        exact ⟨hEF, by simpa [Tree.elementsFrom] using ha₂.join ha, hc⟩
      · rename_i hpos
        have hz : t.out_degree u = 0 := by omega
        have hnil : t.out_edges u = [] := List.length_eq_zero.mp hz
        simp only [Except.ok.injEq] at h₃
        subst h₃
        refine ⟨⟨ht ▸ hE, ht ▸ hF⟩, ?_, ?_⟩
        · simp only [Tree.elementsFrom, hnil, List.flatMap_nil]
          refine ⟨he, ?_, ?_, ?_, ?_⟩
          · show m₂.transforms = _
            rw [htr]; simp
          · show m₂.bodies = _
            rw [hb]; simp
          · show m₂.leaves ++ [u] = _
            rw [hl]; simp [hz]
          · show m₂.tools ++ m₂.tree.in_edges u = _
            rw [hto, Tree.in_edges_congr (ht ▸ hE) u]; simp [hz]
        · intro e he'
          rw [hnil] at he'
          exact absurd he' (List.not_mem_nil e)
    have key : (m₃.tree.edges = t.edges ∧ m₃.tree.frame = t.frame) ∧
        Appended t m m₃ (t.elementsFrom (fuel + 1) u) ∧ t.Covers (fuel + 1) u := by
      split at h₃
      · rename_i hk
        refine h₂ ((m.pushFrame u).pushBody u) rfl rfl rfl ?_ rfl rfl h₃
        rw [hfr] at hk
        show m.bodies ++ [u] = _
        simp [hk]
      · rename_i hk
        refine h₂ (m.pushFrame u) rfl rfl rfl ?_ rfl rfl h₃
        rw [hfr] at hk
        show m.bodies = _
        simp [hk]
    exact ⟨key.1, key.2.1.of_eq rfl rfl rfl rfl rfl, key.2.2⟩

theorem update_trace [Zero α] [One α] (fuel : ℕ) (m m' : Model α)
    (h : m.update fuel = .ok m') :
    Appended m.tree m.clear m' (m.tree.elementsFrom fuel m.root) ∧
    m.tree.Covers fuel m.root :=
  (updateVertex_trace m.tree fuel m.clear m.root m' rfl rfl h).2

theorem Tree.jointsFrom_eq_filter (t : Tree α) (fuel : ℕ) (u : Vertex) :
    t.jointsFrom fuel u
      = ((t.elementsFrom fuel u).filterMap Element.asTransform).filter
          (fun e => (t.transform e).joint.isSome) := by
  induction fuel generalizing u with
  | zero => rfl
  | succ fuel ih =>
    have key : ∀ es : List Edge,
        (es.flatMap fun e =>
          (if (t.transform e).joint.isSome then [e] else []) ++ t.jointsFrom fuel e.target)
        = ((es.flatMap fun e =>
            Element.transform e :: t.elementsFrom fuel e.target).filterMap
              Element.asTransform).filter (fun e => (t.transform e).joint.isSome) := by
      intro es
      induction es with
      | nil => rfl
      | cons e es ihes =>
        rw [List.flatMap_cons, List.flatMap_cons, ihes, ih, List.cons_append,
          filterMap_asTransform_transform, List.filterMap_append, List.filter_cons,
          List.filter_append]
        by_cases hj : (t.transform e).joint.isSome = true
        · rw [if_pos hj, if_pos hj]
          rfl
        · rw [if_neg hj, if_neg hj]
          rfl
    simp only [Tree.jointsFrom, Tree.elementsFrom, filterMap_asTransform_frame]
    exact key _

theorem updateOutEdges_mono (r r' : Model α → Vertex → Except Error (Model α))
    (hr : ∀ m v m', r m v = .ok m' → r' m v = .ok m') (u : Vertex) (es : List Edge)
    (m m' : Model α) (h : updateOutEdges r u es m = .ok m') :
    updateOutEdges r' u es m = .ok m' := by
  induction es generalizing m with
  | nil => exact h
  | cons e es ih =>
    simp only [updateOutEdges] at h ⊢
    rw [bind_eq_ok] at h
    obtain ⟨m₄, h₄, h⟩ := h
    rw [hr _ _ _ h₄, ok_bind]
    exact ih m₄ h

theorem updateVertex_mono [Zero α] [One α] (fuel : ℕ) (m : Model α) (u : Vertex)
    (m' : Model α) (h : updateVertex fuel m u = .ok m') :
    updateVertex (fuel + 1) m u = .ok m' := by
  induction fuel generalizing m u m' with
  | zero => simp [updateVertex] at h
  | succ fuel ih =>
    rw [updateVertex] at h ⊢
    rw [bind_eq_ok] at h ⊢
    obtain ⟨frame, hframe, h⟩ := h
    refine ⟨frame, hframe, ?_⟩
    rw [bind_eq_ok] at h ⊢
    obtain ⟨m₃, h₃, h⟩ := h
    refine ⟨m₃, ?_, h⟩
    have key : ∀ m₂ : Model α,
        (if m₂.tree.out_degree u > 0 then
          updateOutEdges (updateVertex fuel) u (m₂.tree.out_edges u) m₂
        else .ok (m₂.pushLeaf u)) = .ok m₃ →
        (if m₂.tree.out_degree u > 0 then
          updateOutEdges (updateVertex (fuel + 1)) u (m₂.tree.out_edges u) m₂
        else .ok (m₂.pushLeaf u)) = .ok m₃ := by
      intro m₂ h₂
      split at h₂
      · rename_i hpos
        rw [if_pos hpos]
        exact updateOutEdges_mono _ _ (fun a v a' ha => ih a v a' ha) u _ _ _ h₂
      · rename_i hpos
        rw [if_neg hpos]
        exact h₂
    exact key _ h₃

theorem update_mono [Zero α] [One α] (fuel k : ℕ) (m m' : Model α)
    (h : m.update fuel = .ok m') : m.update (fuel + k) = .ok m' := by
  induction k with
  | zero => exact h
  | succ k ih => exact updateVertex_mono (fuel + k) m.clear m.root m' ih

theorem asFrame_eq_some (x : Element) (v : Vertex) :
    x.asFrame = some v ↔ x = Element.frame v := by
  cases x with
  | frame w => simp [Element.asFrame]
  | transform e => simp [Element.asFrame]

theorem asTransform_eq_some (x : Element) (e : Edge) :
    x.asTransform = some e ↔ x = Element.transform e := by
  cases x with
  | frame w => simp [Element.asTransform]
  | transform f => simp [Element.asTransform]

theorem mem_filterMap_asFrame (E : List Element) (v : Vertex) :
    v ∈ E.filterMap Element.asFrame ↔ Element.frame v ∈ E := by
  rw [List.mem_filterMap]
  constructor
  · rintro ⟨x, hx, hv⟩
    exact (asFrame_eq_some x v).mp hv ▸ hx
  · intro h
    exact ⟨_, h, rfl⟩

theorem mem_filterMap_asTransform (E : List Element) (e : Edge) :
    e ∈ E.filterMap Element.asTransform ↔ Element.transform e ∈ E := by
  rw [List.mem_filterMap]
  constructor
  · rintro ⟨x, hx, hv⟩
    exact (asTransform_eq_some x e).mp hv ▸ hx
  · intro h
    exact ⟨_, h, rfl⟩

theorem nodup_filterMap_asFrame {E : List Element} (h : E.Nodup) :
    (E.filterMap Element.asFrame).Nodup := by
  refine List.Nodup.filterMap ?_ h
  intro a a' b hb hb'
  rw [Option.mem_def, asFrame_eq_some] at hb hb'
  rw [hb, hb']

theorem update_elements [Zero α] [One α] (fuel : ℕ) (m m' : Model α)
    (h : m.update fuel = .ok m') :
    m.tree.Covers fuel m.root ∧
    m'.elements = m.tree.elementsFrom fuel m.root ∧
    m'.transforms = m'.elements.filterMap Element.asTransform ∧
    m'.joints = m'.transforms.filter (fun e => (m'.tree.transform e).joint.isSome) ∧
    m'.bodies = (m'.elements.filterMap Element.asFrame).filter
      (fun v => (m'.tree.frame v).kind = .Body) ∧
    m'.leaves = (m'.elements.filterMap Element.asFrame).filter
      (fun v => m.tree.out_degree v = 0) ∧
    m'.tools = m'.leaves.flatMap m.tree.in_edges ∧
    m'.tree.edges = m.tree.edges ∧ m'.tree.vertices = m.tree.vertices := by
  obtain ⟨⟨he, htr, hb, hl, hto⟩, hc⟩ := update_trace fuel m m' h
  obtain ⟨g, hj, -⟩ := update_spec fuel m m' h
  have he' : m'.elements = m.tree.elementsFrom fuel m.root := by
    rw [he]
    rfl
  have htr' : m'.transforms = m'.elements.filterMap Element.asTransform := by
    rw [htr, he']
    rfl
  have hl' : m'.leaves = (m'.elements.filterMap Element.asFrame).filter
      (fun v => m.tree.out_degree v = 0) := by
    rw [hl, he']
    rfl
  refine ⟨hc, he', htr', ?_, ?_, hl', ?_, g.2.2.1, g.2.1⟩
  · rw [hj, Tree.jointsFrom_eq_filter, htr', he']
    apply List.filter_congr
    intro e _
    rw [g.2.2.2.2.2 e]
  · rw [hb, he', g.2.2.2.1]
    rfl
  · rw [hto, hl', he']
    rfl

theorem exampleFork_isTree : exampleFork.tree.IsTree exampleFork.root := by
  have hE : exampleFork.tree.edges = [⟨1, 2, 5⟩, ⟨1, 3, 6⟩, ⟨2, 4, 7⟩] := rfl
  have hV : exampleFork.tree.vertices = [1, 2, 3, 4] := rfl
  have hR : exampleFork.root = 1 := rfl
  have hmem : ∀ e ∈ exampleFork.tree.edges,
      e = ⟨1, 2, 5⟩ ∨ e = ⟨1, 3, 6⟩ ∨ e = ⟨2, 4, 7⟩ := by
    intro e he
    rw [hE] at he
    simpa using he
  have hmono : ∀ a v, exampleFork.tree.Reachable a v → a ≤ v := by
    intro a v hv
    induction hv with
    | refl => exact le_refl a
    | step e _ he ih =>
      rcases hmem e he with h | h | h <;> subst h <;> exact le_trans ih (by decide)
  refine ⟨by rw [hV, hR]; decide, ?_, by rw [hE]; decide, ?_, ?_⟩
  · intro e he _
    rcases hmem e he with h | h | h <;> subst h <;> rw [hV] <;> decide
  · intro e he _ hcycle
    have := hmono _ _ hcycle
    rcases hmem e he with h | h | h <;> subst h <;> exact absurd this (by decide)
  · intro e₁ h₁ e₂ h₂ _ _ htgt
    rcases hmem e₁ h₁ with a | a | a <;> rcases hmem e₂ h₂ with b | b | b <;> subst a <;>
      subst b <;> first | rfl | exact absurd htgt (by decide)

/-- C22: on a model whose graph reachable from the root is a tree, `update()`
returns, and after it `elements` is the depth-first preorder listing of the
tree: the frame of the root, then for each outgoing edge, in the order of
`out_edges`, its transform followed by the listing of the subtree of its target,
with no subtree cut short; the listing of the subtree of every reachable vertex
is a contiguous block of `elements`.  `elements` has no repetition and holds
exactly the frames and the transforms reachable from the root; with `n` the
number of reachable vertices it has `2n - 1` entries and `transforms` has
`n - 1`; the frame of the source of each transform comes before the transform
and the frame of its target comes right after it; `transforms` is the sequence
of the transforms of `elements`, `joints` that of the joints of `transforms`,
and `bodies` that of the Body frames of `elements`, each in the same order. -/
theorem update_traversal [Zero α] [One α] (m : Model α) (ht : m.tree.IsTree m.root) :
    (∃ fuel m', m.update fuel = .ok m') ∧
    ∀ fuel m', m.update fuel = .ok m' →
      m.tree.Covers fuel m.root ∧
      m'.elements = m.tree.elementsFrom fuel m.root ∧
      (∀ v, m.tree.Reachable m.root v →
        ∃ k, m.tree.Covers (k + 1) v ∧ m.tree.elementsFrom (k + 1) v <:+: m'.elements) ∧
      m'.elements.Nodup ∧
      (∀ v, Element.frame v ∈ m'.elements ↔ m.tree.Reachable m.root v) ∧
      (∀ e, Element.transform e ∈ m'.elements ↔
        e ∈ m.tree.edges ∧ m.tree.Reachable m.root e.source) ∧
      (∀ vs : List Vertex, vs.Nodup → (∀ v, v ∈ vs ↔ m.tree.Reachable m.root v) →
        m'.elements.length + 1 = 2 * vs.length ∧ m'.transforms.length + 1 = vs.length) ∧
      (∀ e, Element.transform e ∈ m'.elements →
        List.Sublist [Element.frame e.source, Element.transform e] m'.elements ∧
        [Element.transform e, Element.frame e.target] <:+: m'.elements) ∧
      m'.transforms = m'.elements.filterMap Element.asTransform ∧
      m'.joints = m'.transforms.filter (fun e => (m'.tree.transform e).joint.isSome) ∧
      m'.bodies = (m'.elements.filterMap Element.asFrame).filter
        (fun v => (m'.tree.frame v).kind = .Body) := by
  refine ⟨⟨_, update_ok m ht⟩, ?_⟩
  intro fuel m' h
  obtain ⟨hc, he, htr, hj, hb, -, -, -, -⟩ := update_elements fuel m m' h
  have hnd : m'.elements.Nodup := he ▸ ht.nodup_elementsFrom fuel m.root Tree.Reachable.refl
  have hfr : ∀ v, Element.frame v ∈ m'.elements ↔ m.tree.Reachable m.root v := by
    intro v
    rw [he]
    exact ⟨fun hv => (Tree.mem_elementsFrom fuel _ _ hv).1 v rfl,
      fun hv => Tree.frame_mem_elementsFrom hv hc⟩
  have htf : ∀ e, Element.transform e ∈ m'.elements ↔
      e ∈ m.tree.edges ∧ m.tree.Reachable m.root e.source := by
    intro e
    rw [he]
    exact ⟨fun hv => (Tree.mem_elementsFrom fuel _ _ hv).2 e rfl,
      fun hv => (Tree.transform_order hv.1 hv.2 hc).1⟩
  refine ⟨hc, he, ?_, hnd, hfr, htf, ?_, ?_, htr, hj, hb⟩
  · intro v hv
    rw [he]
    exact Tree.subtree_infix hv hc
  · intro vs hvs hmem
    have hperm : (m'.elements.filterMap Element.asFrame).Perm vs := by
      rw [List.perm_ext_iff_of_nodup (nodup_filterMap_asFrame hnd) hvs]
      intro v
      rw [mem_filterMap_asFrame, hfr, hmem]
    have hlen := hperm.length_eq
    have hcount := Tree.count_elementsFrom fuel m.root hc
    rw [← he] at hcount
    have htot := length_filterMap_elements m'.elements
    rw [htr]
    omega
  · intro e hmem
    obtain ⟨he₁, he₂⟩ := (htf e).mp hmem
    obtain ⟨-, h₁, h₂⟩ := Tree.transform_order he₁ he₂ hc
    rw [he]
    exact ⟨h₂, h₁⟩

theorem update_traversal_witness :
    exampleFork.tree.IsTree exampleFork.root ∧
    exampleFork.tree.out_edges 1 = [⟨1, 2, 5⟩, ⟨1, 3, 6⟩] ∧
    (exampleFork.update 5 >>= fun m => .ok m.elements)
      = .ok [Element.frame 1, Element.transform ⟨1, 2, 5⟩, Element.frame 2,
          Element.transform ⟨2, 4, 7⟩, Element.frame 4, Element.transform ⟨1, 3, 6⟩,
          Element.frame 3] ∧
    (exampleFork.update 5 >>= fun m => .ok (m.transforms, m.joints, m.bodies))
      = .ok ([⟨1, 2, 5⟩, ⟨2, 4, 7⟩, ⟨1, 3, 6⟩], [⟨2, 4, 7⟩], [2, 4, 3]) ∧
    (∃ fuel m', exampleFork.update fuel = .ok m') ∧
    ∀ fuel m', exampleFork.update fuel = .ok m' →
      exampleFork.tree.Covers fuel exampleFork.root ∧
      m'.elements = exampleFork.tree.elementsFrom fuel exampleFork.root ∧
      (∀ v, exampleFork.tree.Reachable exampleFork.root v →
        ∃ k, exampleFork.tree.Covers (k + 1) v ∧
          exampleFork.tree.elementsFrom (k + 1) v <:+: m'.elements) ∧
      m'.elements.Nodup ∧
      (∀ v, Element.frame v ∈ m'.elements ↔ exampleFork.tree.Reachable exampleFork.root v) ∧
      (∀ e, Element.transform e ∈ m'.elements ↔
        e ∈ exampleFork.tree.edges ∧ exampleFork.tree.Reachable exampleFork.root e.source) ∧
      (∀ vs : List Vertex, vs.Nodup →
        (∀ v, v ∈ vs ↔ exampleFork.tree.Reachable exampleFork.root v) →
        m'.elements.length + 1 = 2 * vs.length ∧ m'.transforms.length + 1 = vs.length) ∧
      (∀ e, Element.transform e ∈ m'.elements →
        List.Sublist [Element.frame e.source, Element.transform e] m'.elements ∧
        [Element.transform e, Element.frame e.target] <:+: m'.elements) ∧
      m'.transforms = m'.elements.filterMap Element.asTransform ∧
      m'.joints = m'.transforms.filter (fun e => (m'.tree.transform e).joint.isSome) ∧
      m'.bodies = (m'.elements.filterMap Element.asFrame).filter
        (fun v => (m'.tree.frame v).kind = .Body) :=
  ⟨exampleFork_isTree, rfl, rfl, rfl, update_traversal exampleFork exampleFork_isTree⟩

theorem updateVertex_error [Zero α] [One α] (fuel : ℕ) (m : Model α) (u : Vertex)
    (e : Edge) (es : List Edge) (err : Error) (hu : u ∈ m.tree.vertices)
    (ho : m.tree.out_edges u = e :: es)
    (hrec : ∀ m₂ : Model α, m₂.tree.edges = m.tree.edges →
      m₂.tree.vertices = m.tree.vertices → updateVertex fuel m₂ e.target = .error err) :
    updateVertex (fuel + 1) m u = .error err := by
  have hdeg : m.tree.out_degree u > 0 := by
    rw [Tree.out_degree, ho]
    exact Nat.succ_pos _
  have key : ∀ m₂ : Model α, m₂.tree = m.tree →
      (if m₂.tree.out_degree u > 0 then
        updateOutEdges (updateVertex fuel) u (m₂.tree.out_edges u) m₂
      else .ok (m₂.pushLeaf u)) = .error err := by
    intro m₂ ht
    rw [ht, if_pos hdeg, ho]
    simp only [updateOutEdges]
    split
    · rw [hrec _ (by rw [← ht]; rfl) (by rw [← ht]; rfl)]
      rfl
    · rw [hrec _ (by rw [← ht]; rfl) (by rw [← ht]; rfl)]
      rfl
  rw [updateVertex, Tree.frameAt_of_mem _ _ hu, ok_bind]
  split
  · simp only []
    rw [key ((m.pushFrame u).pushBody u) rfl]
    rfl
  · simp only []
    rw [key (m.pushFrame u) rfl]
    rfl

theorem exampleCycle_outOfFuel (fuel : ℕ) (m : Model ℚ) (u : Vertex)
    (hV : m.tree.vertices = [1, 2]) (hE : m.tree.edges = [⟨1, 2, 3⟩, ⟨2, 1, 4⟩])
    (hu : u = 1 ∨ u = 2) : updateVertex fuel m u = .error .outOfFuel := by
  induction fuel generalizing m u with
  | zero => rfl
  | succ fuel ih =>
    rcases hu with hu | hu
    · subst hu
      refine updateVertex_error fuel m 1 ⟨1, 2, 3⟩ [] _ (by rw [hV]; decide) ?_ ?_
      · rw [Tree.out_edges, hE]
        rfl
      · intro m₂ hE₂ hV₂
        exact ih m₂ 2 (hV₂.trans hV) (hE₂.trans hE) (Or.inr rfl)
    · subst hu
      refine updateVertex_error fuel m 2 ⟨2, 1, 4⟩ [] _ (by rw [hV]; decide) ?_ ?_
      · rw [Tree.out_edges, hE]
        rfl
      · intro m₂ hE₂ hV₂
        exact ih m₂ 1 (hV₂.trans hV) (hE₂.trans hE) (Or.inl rfl)

/-- C25: on every model whose graph reachable from the root is a tree,
`update()` returns for every recursion bound above the number of vertices, with
the same result for every larger bound, and it visits each vertex reachable from
the root exactly once; on `exampleCycle`, whose root lies on a cycle, the
recursion exceeds every bound. -/
theorem update_terminates :
    (∀ (β : Type) [Zero β] [One β] (m : Model β), m.tree.IsTree m.root →
      (∀ fuel, m.tree.vertices.length + 1 ≤ fuel → ∃ m', m.update fuel = .ok m') ∧
      ∀ fuel m', m.update fuel = .ok m' →
        (∀ k, m.update (fuel + k) = .ok m') ∧
        (m'.elements.filterMap Element.asFrame).Nodup ∧
        ∀ v, v ∈ m'.elements.filterMap Element.asFrame ↔ m.tree.Reachable m.root v) ∧
    exampleChain.tree.IsTree exampleChain.root ∧
    (exampleCycle.root = 1 ∧ (⟨1, 2, 3⟩ : Edge) ∈ exampleCycle.tree.edges ∧
      (⟨2, 1, 4⟩ : Edge) ∈ exampleCycle.tree.edges ∧
      exampleCycle.tree.Reachable exampleCycle.root 2 ∧
      exampleCycle.tree.Reachable 2 exampleCycle.root) ∧
    ∀ fuel, exampleCycle.update fuel = .error .outOfFuel := by
  refine ⟨?_, exampleChain_isTree, ⟨rfl, by decide, by decide, ?_, ?_⟩, ?_⟩
  · intro β _ _ m ht
    constructor
    · intro fuel hfuel
      obtain ⟨m', hm'⟩ := update_ok m ht
      obtain ⟨k, hk⟩ := Nat.exists_eq_add_of_le hfuel
      exact ⟨m', hk ▸ update_mono _ k m m' hm'⟩
    · intro fuel m' h
      obtain ⟨hc, he, -⟩ := update_elements fuel m m' h
      refine ⟨fun k => update_mono fuel k m m' h, ?_, ?_⟩
      · rw [he]
        exact nodup_filterMap_asFrame (ht.nodup_elementsFrom fuel m.root Tree.Reachable.refl)
      · intro v
        rw [mem_filterMap_asFrame, he]
        exact ⟨fun hv => (Tree.mem_elementsFrom fuel _ _ hv).1 v rfl,
          fun hv => Tree.frame_mem_elementsFrom hv hc⟩
  · exact Tree.Reachable.step ⟨1, 2, 3⟩ Tree.Reachable.refl (by decide)
  · exact Tree.Reachable.step ⟨2, 1, 4⟩ Tree.Reachable.refl (by decide)
  · intro fuel
    exact exampleCycle_outOfFuel fuel exampleCycle.clear 1 rfl rfl (Or.inl rfl)

theorem eq_singleton_of_nodup {β : Type} {l : List β} {a : β} (hnd : l.Nodup) (ha : a ∈ l)
    (hall : ∀ b ∈ l, b = a) : l = [a] := by
  cases l with
  | nil => exact absurd ha (List.not_mem_nil a)
  | cons x l =>
    have hx : x = a := hall x (List.mem_cons_self _ _)
    subst hx
    cases l with
    | nil => rfl
    | cons y l =>
      have hy : y = x := hall y (List.mem_cons_of_mem _ (List.mem_cons_self _ _))
      subst hy
      rw [List.nodup_cons] at hnd
      exact absurd (List.mem_cons_self _ _) hnd.1

theorem forall₂_flatMap_singleton {β γ : Type} (f : β → List γ) (l : List β)
    (h : ∀ u ∈ l, ∃ e, f u = [e]) :
    List.Forall₂ (fun u e => f u = [e]) l (l.flatMap f) := by
  induction l with
  | nil => exact List.Forall₂.nil
  | cons u l ih =>
    obtain ⟨e, he⟩ := h u (List.mem_cons_self _ _)
    rw [List.flatMap_cons, he]
    exact List.Forall₂.cons he (ih fun v hv => h v (List.mem_cons_of_mem _ hv))

theorem Tree.IsTree.in_edges_leaf {t : Tree α} {root : Vertex} (ht : t.IsTree root)
    {u : Vertex} (hu : t.Reachable root u) (hne : u ≠ root)
    (hno : ∀ e ∈ t.edges, e.target = u → t.Reachable root e.source) :
    ∃ e, t.in_edges u = [e] := by
  rcases hu.eq_or_step with h | ⟨f, hf, hft, hfs⟩
  · exact absurd h.symm hne
  · refine ⟨f, eq_singleton_of_nodup (ht.nodup.filter _) (Tree.mem_in_edges.mpr ⟨hf, hft⟩) ?_⟩
    intro g hg
    rw [Tree.mem_in_edges] at hg
    exact ht.unique_in g hg.1 f hf (hno g hg.1 hg.2) hfs (hg.2.trans hft.symm)

/-- C23: on a model whose graph reachable from the root is a tree and whose
root has an outgoing edge, `update()` returns, and after it `leaves` lists
exactly the reachable vertices without outgoing edge, each once, in the order of
`elements`, and `tools` is the concatenation, in the same order, of the lists of
incoming edges of the leaves.  When every edge that enters a leaf comes from a
vertex reachable from the root, each leaf has exactly one incoming edge, `tools`
and `leaves` have equal length, and `tool(i)` is the transform of the edge that
enters leaf `i`, for every `i` below `getOperationalDof()`. -/
theorem update_leaves_tools [Zero α] [One α] (m : Model α) (ht : m.tree.IsTree m.root)
    (hroot : 0 < m.tree.out_degree m.root) :
    (∃ fuel m', m.update fuel = .ok m') ∧
    ∀ fuel m', m.update fuel = .ok m' →
      m'.leaves.Nodup ∧
      (∀ v, v ∈ m'.leaves ↔ m.tree.Reachable m.root v ∧ m.tree.out_degree v = 0) ∧
      m'.leaves = (m'.elements.filterMap Element.asFrame).filter
        (fun v => m.tree.out_degree v = 0) ∧
      m'.tools = m'.leaves.flatMap m.tree.in_edges ∧
      ((∀ e ∈ m.tree.edges, e.target ∈ m'.leaves → m.tree.Reachable m.root e.source) →
        List.Forall₂ (fun u e => m.tree.in_edges u = [e]) m'.leaves m'.tools ∧
        m'.tools.length = m'.leaves.length ∧
        ∀ i, i < m'.getOperationalDof →
          ∃ u e, m'.getOperationalFrame i = .ok u ∧ m.tree.in_edges u = [e] ∧
            m'.tool i = .ok (m'.tree.transform e).x) := by
  refine ⟨⟨_, update_ok m ht⟩, ?_⟩
  intro fuel m' h
  obtain ⟨hc, he, -, -, -, hl, hto, hE, hV⟩ := update_elements fuel m m' h
  have hndE : m'.elements.Nodup := he ▸ ht.nodup_elementsFrom fuel m.root Tree.Reachable.refl
  have hmem : ∀ v, v ∈ m'.leaves ↔ m.tree.Reachable m.root v ∧ m.tree.out_degree v = 0 := by
    intro v
    rw [hl, List.mem_filter, mem_filterMap_asFrame, he, decide_eq_true_eq]
    exact ⟨fun hv => ⟨(Tree.mem_elementsFrom fuel _ _ hv.1).1 v rfl, hv.2⟩,
      fun hv => ⟨Tree.frame_mem_elementsFrom hv.1 hc, hv.2⟩⟩
  have hnd : m'.leaves.Nodup := by
    rw [hl]
    exact (nodup_filterMap_asFrame hndE).filter _
  refine ⟨hnd, hmem, hl, hto, ?_⟩
  intro hno
  have hsingle : ∀ u ∈ m'.leaves, ∃ e, m.tree.in_edges u = [e] := by
    intro u hu
    obtain ⟨hr, hz⟩ := (hmem u).mp hu
    have hne : u ≠ m.root := by
      intro hur
      rw [hur] at hz
      omega
    exact Tree.IsTree.in_edges_leaf ht hr hne (fun e he het => hno e he (het ▸ hu))
  have hall : List.Forall₂ (fun u e => m.tree.in_edges u = [e]) m'.leaves m'.tools := by
    rw [hto]
    exact forall₂_flatMap_singleton _ _ hsingle
  have hlen := hall.length_eq
  refine ⟨hall, hlen.symm, ?_⟩
  intro i hi
  have hi₁ : i < m'.leaves.length := hi
  have hi₂ : i < m'.tools.length := hlen ▸ hi₁
  have hrel := (List.forall₂_iff_get.mp hall).2 i hi₁ hi₂
  have hu : m'.leaves.get ⟨i, hi₁⟩ ∈ m'.tree.vertices := by
    rw [hV]
    exact ht.mem_vertices ((hmem _).mp (List.get_mem _ _ _)).1
  have hedge : m'.tools.get ⟨i, hi₂⟩ ∈ m'.tree.edges := by
    rw [hE]
    have : m'.tools.get ⟨i, hi₂⟩ ∈ m.tree.in_edges (m'.leaves.get ⟨i, hi₁⟩) := by
      rw [hrel]
      exact List.mem_singleton_self _
    exact (Tree.mem_in_edges.mp this).1
  refine ⟨m'.leaves.get ⟨i, hi₁⟩, m'.tools.get ⟨i, hi₂⟩, ?_, hrel, ?_⟩
  · simp only [getOperationalFrame, getOperationalDof, if_pos hi₁, vectorAt_of_lt _ _ hi₁,
      ok_bind, Tree.frameAt_of_mem _ _ hu]
  · simp only [tool, if_pos hi₂, vectorAt_of_lt _ _ hi₂, ok_bind,
      Tree.transformAt_of_mem _ _ hedge]

theorem exampleForeignTool_isTree :
    exampleForeignTool.tree.IsTree exampleForeignTool.root ∧
    ¬ exampleForeignTool.tree.Reachable exampleForeignTool.root 4 := by
  have hE : exampleForeignTool.tree.edges = [⟨1, 2, 5⟩, ⟨4, 2, 6⟩, ⟨1, 3, 7⟩] := rfl
  have hV : exampleForeignTool.tree.vertices = [1, 2, 3, 4] := rfl
  have hR : exampleForeignTool.root = 1 := rfl
  have hmem : ∀ e ∈ exampleForeignTool.tree.edges,
      e = ⟨1, 2, 5⟩ ∨ e = ⟨4, 2, 6⟩ ∨ e = ⟨1, 3, 7⟩ := by
    intro e he
    rw [hE] at he
    simpa using he
  have hleaf : ∀ a : Vertex, a = 2 ∨ a = 3 →
      ∀ v, exampleForeignTool.tree.Reachable a v → v = a := by
    intro a ha v hv
    induction hv with
    | refl => rfl
    | step e _ he ih =>
      rcases hmem e he with h | h | h <;> subst h <;> rcases ha with ha | ha <;> subst ha <;>
        exact absurd ih (by decide)
  have hroot : ∀ v, exampleForeignTool.tree.Reachable 1 v → v = 1 ∨ v = 2 ∨ v = 3 := by
    intro v hv
    induction hv with
    | refl => exact Or.inl rfl
    | step e _ he _ =>
      rcases hmem e he with h | h | h <;> subst h
      · exact Or.inr (Or.inl rfl)
      · exact Or.inr (Or.inl rfl)
      · exact Or.inr (Or.inr rfl)
  have hsrc : ∀ e ∈ exampleForeignTool.tree.edges,
      exampleForeignTool.tree.Reachable exampleForeignTool.root e.source →
      e = ⟨1, 2, 5⟩ ∨ e = ⟨1, 3, 7⟩ := by
    intro e he hr
    rcases hmem e he with h | h | h
    · exact Or.inl h
    · subst h
      rcases hroot _ (hR ▸ hr) with h | h | h <;> exact absurd h (by decide)
    · exact Or.inr h
  refine ⟨⟨by rw [hV, hR]; decide, ?_, by rw [hE]; decide, ?_, ?_⟩, ?_⟩
  · intro e he _
    rcases hmem e he with h | h | h <;> subst h <;> rw [hV] <;> decide
  · intro e he hr hcycle
    rcases hsrc e he hr with h | h <;> subst h
    · exact absurd (hleaf 2 (Or.inl rfl) _ hcycle) (by decide)
    · exact absurd (hleaf 3 (Or.inr rfl) _ hcycle) (by decide)
  · intro e₁ h₁ e₂ h₂ hr₁ hr₂ htgt
    rcases hsrc e₁ h₁ hr₁ with a | a <;> rcases hsrc e₂ h₂ hr₂ with b | b <;> subst a <;>
      subst b <;> first | rfl | exact absurd htgt (by decide)
  · intro hr
    rcases hroot _ (hR ▸ hr) with h | h | h <;> exact absurd h (by decide)

/-- C23 (counterexample): in `exampleForeignTool` the graph reachable from the
root is a tree (vertices `1`, `2`, `3`) and the root has outgoing edges, but the
leaf `2` also has an incoming edge from the Frame `4`, which is not reachable
from the root.  After `update()` `leaves` is `[2, 3]` while `tools` holds three
edges, so `tools` and `leaves` differ in length, and `tools[1]` is the edge from
the Frame into leaf `2`, not the edge that enters leaf `3`. -/
theorem update_tools_foreign :
    exampleForeignTool.tree.IsTree exampleForeignTool.root ∧
    0 < exampleForeignTool.tree.out_degree exampleForeignTool.root ∧
    ¬ exampleForeignTool.tree.Reachable exampleForeignTool.root 4 ∧
    (exampleForeignTool.update 5 >>= fun m => .ok (m.leaves, m.tools))
      = .ok ([2, 3], [⟨1, 2, 5⟩, ⟨4, 2, 6⟩, ⟨1, 3, 7⟩]) ∧
    (exampleForeignTool.update 5 >>= fun m => .ok (m.getOperationalDof, m.tools.length))
      = .ok (2, 3) ∧
    (exampleForeignTool.update 5 >>= fun m =>
      .ok (m.getOperationalFrame 1, vectorAt m.tools 1))
      = .ok (.ok 3, .ok ⟨4, 2, 6⟩) ∧
    exampleForeignTool.tree.in_edges 3 = [⟨1, 3, 7⟩] :=
  ⟨exampleForeignTool_isTree.1, by decide, exampleForeignTool_isTree.2, rfl, rfl, rfl, rfl⟩

theorem update_leaves_tools_witness :
    exampleChain.tree.IsTree exampleChain.root ∧
    0 < exampleChain.tree.out_degree exampleChain.root ∧
    (exampleChain.update 5 >>= fun m => .ok (m.leaves, m.tools)) = .ok ([4], [⟨3, 4, 7⟩]) ∧
    (∃ fuel m', exampleChain.update fuel = .ok m') ∧
    ∀ fuel m', exampleChain.update fuel = .ok m' →
      m'.leaves.Nodup ∧
      (∀ v, v ∈ m'.leaves ↔
        exampleChain.tree.Reachable exampleChain.root v ∧ exampleChain.tree.out_degree v = 0) ∧
      m'.leaves = (m'.elements.filterMap Element.asFrame).filter
        (fun v => exampleChain.tree.out_degree v = 0) ∧
      m'.tools = m'.leaves.flatMap exampleChain.tree.in_edges ∧
      ((∀ e ∈ exampleChain.tree.edges, e.target ∈ m'.leaves →
          exampleChain.tree.Reachable exampleChain.root e.source) →
        List.Forall₂ (fun u e => exampleChain.tree.in_edges u = [e]) m'.leaves m'.tools ∧
        m'.tools.length = m'.leaves.length ∧
        ∀ i, i < m'.getOperationalDof →
          ∃ u e, m'.getOperationalFrame i = .ok u ∧ exampleChain.tree.in_edges u = [e] ∧
            m'.tool i = .ok (m'.tree.transform e).x) :=
  ⟨exampleChain_isTree, by decide, rfl,
    update_leaves_tools exampleChain exampleChain_isTree (by decide)⟩

theorem AllowedSeq.take {m : Model α} {ops : List (Mutation α)} (h : AllowedSeq m ops)
    (k : ℕ) : AllowedSeq m (ops.take k) := by
  induction ops generalizing m k with
  | nil => simpa using h
  | cons op ops ih =>
    cases k with
    | zero => trivial
    | succ k => exact ⟨h.1, ih h.2 k⟩

theorem mutate_invariant (m : Model α) (op : Mutation α) (ha : Allowed m op)
    (hr : RootInvariant m) (hn : 0 < m.tree.next ∧ ∀ v ∈ m.tree.vertices, v < m.tree.next) :
    RootInvariant (m.mutate op) ∧
    (0 < (m.mutate op).tree.next ∧
      ∀ v ∈ (m.mutate op).tree.vertices, v < (m.mutate op).tree.next) := by
  obtain ⟨h₁, h₂, h₃⟩ := hr
  obtain ⟨hpos, hlt⟩ := hn
  cases op with
  | addFrame frame =>
    have hV : (m.add frame).tree.vertices = m.tree.vertices ++ [m.tree.next] := by
      unfold add Tree.add_vertex
      split <;> rfl
    have hN : (m.add frame).tree.next = m.tree.next + 1 := by
      unfold add Tree.add_vertex
      split <;> rfl
    have hF : (m.add frame).tree.frame = Function.update m.tree.frame m.tree.next frame := by
      unfold add Tree.add_vertex
      split <;> rfl
    have hfresh : m.tree.next ∉ m.tree.vertices := fun h => absurd (hlt _ h) (lt_irrefl _)
    have hW : ∀ v, WorldAt (m.add frame) v ↔
        (v = m.tree.next ∧ frame.kind = .World) ∨ WorldAt m v := by
      intro v
      unfold WorldAt
      rw [hV, hF, List.mem_append, List.mem_singleton]
      by_cases hv : v = m.tree.next
      · subst hv
        simp [hfresh]
      · simp [hv, Function.update_noteq hv]
    show RootInvariant (m.add frame) ∧ (0 < (m.add frame).tree.next ∧
      ∀ v ∈ (m.add frame).tree.vertices, v < (m.add frame).tree.next)
    rw [hN]
    refine ⟨⟨?_, ?_, ?_⟩, ?_, ?_⟩
    · intro v hv
      by_cases hk : frame.kind = .World
      · have hroot : (m.add frame).root = m.tree.next := by
          unfold add Tree.add_vertex
          rw [if_pos hk]
        rcases (hW v).mp hv with h | h
        · rw [hroot, h.1]
        · exact absurd h (ha hk v)
      · have hroot : (m.add frame).root = m.root := by
          unfold add Tree.add_vertex
          rw [if_neg hk]
        rcases (hW v).mp hv with h | h
        · exact absurd h.2 hk
        · rw [hroot]
          exact h₁ v h
    · intro hno
      have hk : ¬ frame.kind = .World := fun hk => hno _ ((hW _).mpr (Or.inl ⟨rfl, hk⟩))
      have hroot : (m.add frame).root = m.root := by
        unfold add Tree.add_vertex
        rw [if_neg hk]
      rw [hroot]
      exact h₂ fun v hv => hno v ((hW v).mpr (Or.inr hv))
    · rw [hV, List.mem_append, List.mem_singleton]
      intro h
      rcases h with h | h
      · exact h₃ h
      · exact absurd (h ▸ hpos) (lt_irrefl _)
    · exact Nat.succ_pos _
    · intro v hv
      rw [hV, List.mem_append, List.mem_singleton] at hv
      rcases hv with hv | hv
      · exact Nat.lt_succ_of_lt (hlt v hv)
      · rw [hv]
        exact Nat.lt_succ_self _
  | removeFrame u =>
    have hu : u ∈ m.tree.vertices := ha
    have hV : ∀ v, v ∈ (m.remove u).tree.vertices ↔ v ∈ m.tree.vertices ∧ v ≠ u := by
      intro v
      unfold remove Tree.remove_vertex Tree.clear_vertex
      split <;> simp
    have hN : (m.remove u).tree.next = m.tree.next := by
      unfold remove Tree.remove_vertex Tree.clear_vertex
      split <;> rfl
    have hF : (m.remove u).tree.frame = m.tree.frame := by
      unfold remove Tree.remove_vertex Tree.clear_vertex
      split <;> rfl
    have hR : (m.remove u).root = if (m.tree.frame u).kind = .World then 0 else m.root := by
      by_cases hk : (m.tree.frame u).kind = .World
      · simp [remove, hk]
      · simp [remove, hk]
    have hW : ∀ v, WorldAt (m.remove u) v ↔ WorldAt m v ∧ v ≠ u := by
      intro v
      unfold WorldAt
      rw [hV, hF]
      tauto
    show RootInvariant (m.remove u) ∧ (0 < (m.remove u).tree.next ∧
      ∀ v ∈ (m.remove u).tree.vertices, v < (m.remove u).tree.next)
    rw [hN]
    refine ⟨⟨?_, ?_, ?_⟩, hpos, ?_⟩
    · intro v hv
      obtain ⟨hw, hne⟩ := (hW v).mp hv
      by_cases hk : (m.tree.frame u).kind = .World
      · have := (h₁ u ⟨hu, hk⟩).symm.trans (h₁ v hw)
        exact absurd this.symm hne
      · rw [hR, if_neg hk]
        exact h₁ v hw
    · intro hno
      by_cases hk : (m.tree.frame u).kind = .World
      · rw [hR, if_pos hk]
      · rw [hR, if_neg hk]
        refine h₂ fun v hv => hno v ((hW v).mpr ⟨hv, ?_⟩)
        intro hvu
        exact hk (hvu ▸ hv.2)
    · intro h
      exact h₃ ((hV 0).mp h).1
    · intro v hv
      exact hlt v ((hV v).mp hv).1
  | addTransform transform a b =>
    exact ⟨⟨h₁, h₂, h₃⟩, Nat.succ_pos _, fun v hv => Nat.lt_succ_of_lt (hlt v hv)⟩
  | removeTransform transform =>
    exact ⟨⟨h₁, h₂, h₃⟩, hpos, hlt⟩

theorem foldl_mutate_invariant (ops : List (Mutation α)) (m : Model α)
    (ha : AllowedSeq m ops) (hr : RootInvariant m)
    (hn : 0 < m.tree.next ∧ ∀ v ∈ m.tree.vertices, v < m.tree.next) :
    RootInvariant (ops.foldl mutate m) := by
  induction ops generalizing m with
  | nil => exact hr
  | cons op ops ih =>
    obtain ⟨hr', hn'⟩ := mutate_invariant m op ha.1 hr hn
    exact ih (m.mutate op) ha.2 hr' hn'

/-- C24: starting from the empty model, after each call of a sequence of
`add` and `remove` calls in which a World frame is added only while no World
frame is in the graph and only frames of the graph are removed, `root` is the
vertex of the World frame if one is in the graph and the null descriptor `0`
otherwise; adding or removing a frame that is not a World, and adding or
removing a transform, leaves `root` unchanged in every state. -/
theorem root_invariant [Zero α] [One α] (ops : List (Mutation α))
    (h : AllowedSeq (empty : Model α) ops) :
    (empty : Model α).root = 0 ∧
    (∀ k, RootInvariant ((ops.take k).foldl mutate (empty : Model α))) ∧
    (∀ (m : Model α) (frame : Frame α), frame.kind ≠ .World → (m.add frame).root = m.root) ∧
    (∀ (m : Model α) (v : Vertex), (m.tree.frame v).kind ≠ .World →
      (m.remove v).root = m.root) ∧
    (∀ (m : Model α) (transform : Transform α) (a b : Vertex),
      (m.addTransform transform a b).root = m.root) ∧
    (∀ (m : Model α) (e : Edge), (m.removeTransform e).root = m.root) := by
  have h0 : RootInvariant (empty : Model α) := by
    refine ⟨fun v hv => ?_, fun _ => rfl, ?_⟩
    · exact absurd hv.1 (List.not_mem_nil v)
    · exact List.not_mem_nil 0
  have hn0 : 0 < (empty : Model α).tree.next ∧
      ∀ v ∈ (empty : Model α).tree.vertices, v < (empty : Model α).tree.next :=
    ⟨Nat.succ_pos 0, fun v hv => absurd hv (List.not_mem_nil v)⟩
  refine ⟨rfl, fun k => foldl_mutate_invariant _ _ (h.take k) h0 hn0, ?_, ?_,
    fun _ _ _ _ => rfl, fun _ _ => rfl⟩
  · intro m frame hk
    simp [add, hk]
  · intro m v hk
    simp [remove, hk]

theorem root_invariant_witness :
    AllowedSeq (empty : Model ℚ) exampleMutations ∧
    ((exampleMutations.take 1).foldl mutate empty).root = 1 ∧
    ((exampleMutations.take 3).foldl mutate empty).root = 1 ∧
    ((exampleMutations.take 4).foldl mutate empty).root = 0 ∧
    ((exampleMutations.take 5).foldl mutate empty).root = 4 ∧
    ((empty : Model ℚ).root = 0 ∧
    (∀ k, RootInvariant ((exampleMutations.take k).foldl mutate (empty : Model ℚ))) ∧
    (∀ (m : Model ℚ) (frame : Frame ℚ), frame.kind ≠ .World → (m.add frame).root = m.root) ∧
    (∀ (m : Model ℚ) (v : Vertex), (m.tree.frame v).kind ≠ .World →
      (m.remove v).root = m.root) ∧
    (∀ (m : Model ℚ) (transform : Transform ℚ) (a b : Vertex),
      (m.addTransform transform a b).root = m.root) ∧
    (∀ (m : Model ℚ) (e : Edge), (m.removeTransform e).root = m.root)) :=
  have h : AllowedSeq (empty : Model ℚ) exampleMutations :=
    ⟨fun _ v hv => absurd hv.1 (List.not_mem_nil v),
     fun hk => absurd hk (by decide),
     trivial,
     (by decide : (1 : Vertex) ∈ [1, 2]),
     fun _ v hv => by
       have h1 : v ∈ [2] := hv.1
       rw [List.mem_singleton] at h1
       subst h1
       exact absurd hv.2 (by decide),
     trivial⟩
  ⟨h, rfl, rfl, rfl, rfl, root_invariant exampleMutations h⟩

theorem update_joints_complete [Zero α] [One α] (m : Model α) (ht : m.tree.IsTree m.root)
    (fuel : ℕ) (m' : Model α) (h : m.update fuel = .ok m') :
    m'.joints.Nodup ∧
    ∀ e, e ∈ m'.joints ↔
      e ∈ m.tree.edges ∧ m.tree.Reachable m.root e.source ∧
        (m.tree.transform e).joint.isSome = true := by
  obtain ⟨-, hj, -⟩ := update_spec fuel m m' h
  obtain ⟨-, hc⟩ := update_trace fuel m m' h
  refine ⟨hj ▸ ht.nodup_jointsFrom fuel m.root Tree.Reachable.refl, ?_⟩
  intro e
  rw [hj]
  constructor
  · intro he
    obtain ⟨h1, h2, h3⟩ := Tree.mem_jointsFrom fuel m.root e he
    exact ⟨h1, h3, h2⟩
  · rintro ⟨h1, h2, h3⟩
    rw [Tree.jointsFrom_eq_filter, List.mem_filter, mem_filterMap_asTransform]
    exact ⟨(Tree.transform_order h1 h2 hc).1, h3⟩

/-- C3: on a model whose graph is a tree, `update()` returns, and whatever
gamma matrices and home position the model held before, after `update()` the
position and velocity gamma matrices and their inverses are identity matrices
of size `getDofPosition()` and `getDof()`, and the home position is the zero
vector of length `getDofPosition()`.  The counts are those of the complete
joint list: `joints` holds every joint reachable from the root exactly once,
`getDofPosition()` is the sum of the position dimensions and `getDof()` the sum
of the velocity dimensions of these joints. -/
theorem update_resets_gamma [Zero α] [One α] (m : Model α) (ht : m.tree.IsTree m.root) :
    (∃ fuel m', m.update fuel = .ok m') ∧
    ∀ fuel m', m.update fuel = .ok m' →
      m'.joints = m.tree.jointsFrom fuel m.root ∧
      m'.joints.Nodup ∧
      (∀ e, e ∈ m'.joints ↔
        e ∈ m.tree.edges ∧ m.tree.Reachable m.root e.source ∧
          (m.tree.transform e).joint.isSome = true) ∧
      (∀ e, m'.dofPositionAt e = m.dofPositionAt e ∧ m'.dofAt e = m.dofAt e) ∧
      ∃ dofPosition dof,
        dofPosition = (m'.joints.map m.dofPositionAt).sum ∧
        dof = (m'.joints.map m.dofAt).sum ∧
        m'.getDofPosition = .ok dofPosition ∧ m'.getDof = .ok dof ∧
        m'.getGammaPosition = DynMatrix.Identity dofPosition dofPosition ∧
        m'.getGammaPositionInverse = DynMatrix.Identity dofPosition dofPosition ∧
        m'.getGammaVelocity = DynMatrix.Identity dof dof ∧
        m'.getGammaVelocityInverse = DynMatrix.Identity dof dof ∧
        m'.getHomePosition = VectorZero dofPosition := by
  refine ⟨⟨_, update_ok m ht⟩, ?_⟩
  intro fuel m' h
  obtain ⟨g, hj, hv, h1, h2, h3, h4, h5⟩ := update_spec fuel m m' h
  obtain ⟨hnd, hmem⟩ := update_joints_complete m ht fuel m' h
  have hd : ∀ e, m'.dofPositionAt e = m.dofPositionAt e ∧ m'.dofAt e = m.dofAt e := by
    intro e
    constructor
    · simp only [dofPositionAt, g.2.2.2.2.2 e]
    · simp only [dofAt, g.2.2.2.2.2 e]
  have e1 : (m'.joints.map m'.dofPositionAt) = m'.joints.map m.dofPositionAt :=
    List.map_congr_left (fun e _ => (hd e).1)
  have e2 : (m'.joints.map m'.dofAt) = m'.joints.map m.dofAt :=
    List.map_congr_left (fun e _ => (hd e).2)
  rw [e1] at h1 h3 h4
  rw [e2] at h2 h5
  refine ⟨hj, hnd, hmem, hd, _, _, rfl, rfl, ?_, ?_, h1, h4, h2, h5, h3⟩
  · rw [← e1]
    exact hv.getDofPosition_eq
  · rw [← e2]
    exact hv.getDof_eq

theorem update_resets_gamma_witness :
    exampleArmConfigured.tree.IsTree exampleArmConfigured.root ∧
    exampleArmConfigured.getGammaPosition = ⟨1, 1, !![2]⟩ ∧
    exampleArmConfigured.getHomePosition = [5] ∧
    (exampleArmConfigured.update 3 >>= fun m =>
      .ok (m.joints, m.getDofPosition, m.getDof, m.getHomePosition))
      = .ok ([⟨1, 2, 3⟩], .ok 1, .ok 1, [0]) ∧
    (exampleArmConfigured.update 3 >>= fun m =>
      .ok (m.getGammaPosition.rows, m.getGammaPosition.cols,
        m.getGammaPositionInverse.rows, m.getGammaPositionInverse.cols,
        m.getGammaVelocity.rows, m.getGammaVelocity.cols,
        m.getGammaVelocityInverse.rows, m.getGammaVelocityInverse.cols))
      = .ok (1, 1, 1, 1, 1, 1, 1, 1) ∧
    (exampleArmConfigured.update 3 >>= fun m => m.getGammaPosition.coeffAt 0 0) = .ok 1 ∧
    (∃ fuel m', exampleArmConfigured.update fuel = .ok m') ∧
    ∀ fuel m', exampleArmConfigured.update fuel = .ok m' →
      m'.joints = exampleArmConfigured.tree.jointsFrom fuel exampleArmConfigured.root ∧
      m'.joints.Nodup ∧
      (∀ e, e ∈ m'.joints ↔
        e ∈ exampleArmConfigured.tree.edges ∧
          exampleArmConfigured.tree.Reachable exampleArmConfigured.root e.source ∧
          (exampleArmConfigured.tree.transform e).joint.isSome = true) ∧
      (∀ e, m'.dofPositionAt e = exampleArmConfigured.dofPositionAt e ∧
        m'.dofAt e = exampleArmConfigured.dofAt e) ∧
      ∃ dofPosition dof,
        dofPosition = (m'.joints.map exampleArmConfigured.dofPositionAt).sum ∧
        dof = (m'.joints.map exampleArmConfigured.dofAt).sum ∧
        m'.getDofPosition = .ok dofPosition ∧ m'.getDof = .ok dof ∧
        m'.getGammaPosition = DynMatrix.Identity dofPosition dofPosition ∧
        m'.getGammaPositionInverse = DynMatrix.Identity dofPosition dofPosition ∧
        m'.getGammaVelocity = DynMatrix.Identity dof dof ∧
        m'.getGammaVelocityInverse = DynMatrix.Identity dof dof ∧
        m'.getHomePosition = VectorZero dofPosition :=
  ⟨exampleArm_isTree, rfl, rfl, rfl, rfl, rfl,
    update_resets_gamma exampleArmConfigured exampleArm_isTree⟩

end Model
end mdl
end rl
